import Mathlib

/-!
# pyenv-upgrade: version model, listing parsers and the run of `main`

A shallow embedding of `main.go`.  Text is modelled as `List Char`; Go's `int`
is modelled as `Int` (the only place where the 64-bit width is observable is
`strconv.Atoi`, whose saturation is modelled explicitly).  The loops of the two
listing parsers take as input the sequence of lines that successive calls of
`scanner.Scan()` / `scanner.Text()` yield, and `scanLines` gives those lines for
a text.  Commands, questions to the user and temp files are events of a trace,
answered by an explicit environment.
-/

namespace PyenvUpgrade

/-! ## Version model (`main.go`, lines 79-108) -/

/-- The `semantic` struct: three `int` fields. -/
structure semantic where
  major : Int
  minor : Int
  patch : Int
deriving DecidableEq, Repr

/-- The verb `%d` of `fmt.Sprintf` applied to an `int`: the decimal numeral,
with a leading minus sign for negative numbers. -/
def fmtInt : Int → List Char
  | Int.ofNat n => Nat.toDigits 10 n
  | Int.negSucc n => '-' :: Nat.toDigits 10 (n + 1)

/-- Method `semantic.String` (lines 85-92). -/
def semantic.String (v : semantic) : List Char :=
  if v.patch > 0 then
    fmtInt v.major ++ '.' :: fmtInt v.minor ++ '.' :: fmtInt v.patch
  else if v.minor > 0 then
    fmtInt v.major ++ '.' :: fmtInt v.minor
  else
    fmtInt v.major

/-- Method `semantic.isNewerThan` (lines 94-108): two `switch` statements
followed by the comparison of the patch numbers. -/
def semantic.isNewerThan (v another : semantic) : Bool :=
  if v.major < another.major then false
  else if v.major > another.major then true
  else if v.minor < another.minor then false
  else if v.minor > another.minor then true
  else decide (v.patch > another.patch)

/-- The triple of a version in the lexicographic (dictionary) order on
`Int × Int × Int`: first components are compared first. -/
def semantic.triple (v : semantic) : Lex (Int × Lex (Int × Int)) :=
  toLex (v.major, toLex (v.minor, v.patch))

/-! ## Regular expressions

The two patterns of `main.go` are built from character classes, greedy
repetition of a class, concatenation, the greedy optional `(?:r)?`, capturing
groups and the end-of-text assertion `$`.  `Re.run` is a backtracking matcher
for this fragment; Go's `regexp` returns, among the matches that start
leftmost, the one a backtracking matcher finds first, submatches included. -/

/-- The class `\d` of Go's `regexp` (RE2): the ASCII digits. -/
def isDigit (c : Char) : Bool := decide ('0' ≤ c) && decide (c ≤ '9')

/-- The class `\s` of Go's `regexp` (RE2): tab, line feed, form feed, carriage
return and space. -/
def isSpace (c : Char) : Bool :=
  c == '\t' || c == '\n' || c == Char.ofNat 12 || c == '\r' || c == ' '

/-- The class `[\* ]`. -/
def isMarker (c : Char) : Bool := c == '*' || c == ' '

/-- The class `[^ ]`. -/
def notBlank (c : Char) : Bool := c != ' '

/-- The class `.` (without the `s` flag): every character but line feed. -/
def anyChar (c : Char) : Bool := c != '\n'

/-- The fragment of regular-expression syntax that the patterns use. -/
inductive Re where
  /-- The empty expression. -/
  | eps : Re
  /-- One character of a class. -/
  | cls (p : Char → Bool) : Re
  /-- Greedy repetition `c*` of a class. -/
  | star (p : Char → Bool) : Re
  /-- Greedy repetition `c+` of a class. -/
  | plus (p : Char → Bool) : Re
  /-- Concatenation. -/
  | seq (a b : Re) : Re
  /-- Greedy optional `(?:a)?`. -/
  | opt (a : Re) : Re
  /-- Capturing group number `i`. -/
  | group (i : Nat) (a : Re) : Re
  /-- The assertion `$` (end of text; no `m` flag). -/
  | eot : Re

/-- One literal character. -/
def Re.chr (c : Char) : Re := Re.cls (fun d => d == c)

/-- A literal string. -/
def Re.lit : List Char → Re
  | [] => Re.eps
  | c :: cs => Re.seq (Re.chr c) (Re.lit cs)

/-- Greedy repetition with backtracking: consume as many characters of the
class as possible, and give characters back one at a time while the
continuation `k` fails. -/
def starP {α : Type} (p : Char → Bool) (k : List Char → Option α) : List Char → Option α
  | [] => k []
  | c :: t =>
    if p c then
      match starP p k t with
      | some r => some r
      | none => k (c :: t)
    else k (c :: t)

/-- Backtracking matcher in continuation-passing style: `r.run s caps k` matches
`r` at the front of `s`, with the submatches recorded so far in `caps`, and
hands the rest of the input and the submatches to `k`; alternatives are tried
in the order of preference of the expression. -/
def Re.run : Re → List Char → List (List Char) →
    (List Char → List (List Char) → Option (List (List Char))) → Option (List (List Char))
  | Re.eps, s, caps, k => k s caps
  | Re.cls p, s, caps, k =>
    match s with
    | c :: t => if p c then k t caps else none
    | [] => none
  | Re.star p, s, caps, k => starP p (fun t => k t caps) s
  | Re.plus p, s, caps, k =>
    match s with
    | c :: t => if p c then starP p (fun u => k u caps) t else none
    | [] => none
  | Re.seq a b, s, caps, k => a.run s caps (fun t caps1 => b.run t caps1 k)
  | Re.opt a, s, caps, k =>
    match a.run s caps k with
    | some r => some r
    | none => k s caps
  | Re.group i a, s, caps, k =>
    a.run s caps (fun t caps1 => k t (caps1.set i (s.take (s.length - t.length))))
  | Re.eot, s, caps, k => if s = [] then k [] caps else none

/-- `FindStringSubmatch` for a pattern `^r` with `n` capturing groups: a match
can only start at offset 0.  The result is `nil` (here `[]`) when there is no
match, and otherwise the slice of `n + 1` strings holding the whole match and
the text of each group, the empty string for a group that did not take part. -/
def FindStringSubmatch (r : Re) (n : Nat) (line : List Char) : List (List Char) :=
  match (Re.group 0 r).run line (List.replicate (n + 1) []) (fun _ caps => some caps) with
  | some caps => caps
  | none => []

/-- Group `(\d+)` numbered `i`. -/
def Re.digits (i : Nat) : Re := Re.group i (Re.plus isDigit)

/-- Group `(?:\.(\d+))?` whose capturing group is numbered `i`. -/
def Re.dotDigits (i : Nat) : Re := Re.opt (Re.seq (Re.chr '.') (Re.digits i))

/-- The pattern of `remoteLatestVersions` (line 179) after its leading `^`:
`\s*(\d+)(?:\.(\d+))?(?:\.(\d+))?$`. -/
def remoteVerReg : Re :=
  Re.seq (Re.star isSpace) (Re.seq (Re.digits 1) (Re.seq (Re.dotDigits 2)
    (Re.seq (Re.dotDigits 3) Re.eot)))

/-- The group `(?:/envs/([^ ]+))?` of the pattern of `localVersions`. -/
def Re.envs : Re :=
  Re.opt (Re.seq (Re.lit ['/', 'e', 'n', 'v', 's', '/']) (Re.group 5 (Re.plus notBlank)))

/-- The group `(?: \(set by .+\))?` of the pattern of `localVersions`. -/
def Re.setBy : Re :=
  Re.opt (Re.seq (Re.lit [' ', '(', 's', 'e', 't', ' ', 'b', 'y', ' '])
    (Re.seq (Re.plus anyChar) (Re.chr ')')))

/-- The pattern of `localVersions` (line 209) after its leading `^`:
`([\* ]) (\d+)(?:\.(\d+))?(?:\.(\d+))?(?:/envs/([^ ]+))?(?: \(set by .+\))?$`. -/
def localVerReg : Re :=
  Re.seq (Re.group 1 (Re.cls isMarker)) (Re.seq (Re.chr ' ') (Re.seq (Re.digits 2)
    (Re.seq (Re.dotDigits 3) (Re.seq (Re.dotDigits 4)
      (Re.seq Re.envs (Re.seq Re.setBy Re.eot))))))

/-! ## `strconv.Atoi` -/

/-- Value of a string of decimal digits. -/
def decimalValue (s : List Char) : Nat :=
  s.foldl (fun acc c => 10 * acc + (c.toNat - '0'.toNat)) 0

/-- `strconv.Atoi` with its error result dropped (every call in `main.go`
discards it), for 64-bit `int`: an optional sign followed by decimal digits.
A syntax error (empty input included) gives 0; a value out of range gives the
nearest representable `int`. -/
def Atoi (s : List Char) : Int :=
  let body := match s with
    | '-' :: t => t
    | '+' :: t => t
    | _ => s
  let neg := s.head? == some '-'
  if body = [] ∨ ¬ body.all isDigit then 0
  else
    let un := decimalValue body
    if neg then (if un > 2 ^ 63 then -(2 ^ 63 : Int) else -(un : Int))
    else (if un ≥ 2 ^ 63 then (2 ^ 63 - 1 : Int) else (un : Int))

/-! ## `bufio.Scanner`

Both listings are read with `bufio.NewScanner` and the loop `for scanner.Scan()`
(lines 180-181 and 210-212).  The scanner splits its input into lines
(`bufio.ScanLines`, the default split function), its buffer grows to
`bufio.MaxScanTokenSize` bytes at most, and `scanner.Err()` is never consulted:
at the first line that does not fit, `Scan` returns false and the loop ends as
it does at the end of the input. -/

/-- Constant `bufio.MaxScanTokenSize`. -/
def maxScanTokenSize : Nat := 64 * 1024

/-- Length of a text in bytes (UTF-8). -/
def byteLength (s : List Char) : Nat := (s.map Char.utf8Size).sum

/-- The lines of a text: the runs of characters that end at a line feed, and
the run after the last line feed when it is not empty. -/
def splitLines : List Char → List (List Char)
  | [] => []
  | c :: t =>
    if c = '\n' then [] :: splitLines t
    else
      match splitLines t with
      | [] => [[c]]
      | l :: ls => (c :: l) :: ls

/-- Function `dropCR` of `bufio`: a line without its trailing carriage return. -/
def dropCR (line : List Char) : List Char :=
  if line.getLast? = some '\r' then line.dropLast else line

/-- The strings that `scanner.Text()` yields in the loop `for scanner.Scan()`:
the lines of the text up to the first line of `maxScanTokenSize` bytes or more,
where `Scan` fails with `ErrTooLong`, each without its trailing carriage
return. -/
def scanLines (text : List Char) : List (List Char) :=
  ((splitLines text).takeWhile fun l => decide (byteLength l < maxScanTokenSize)).map dropCR

/-! ## Installable catalog (`remoteLatestVersions`, lines 172-199) -/

/-- A `map[int]semantic`: the value stored under each key, if any. -/
abbrev VersionMap := Int → Option semantic

/-- The assignment `m[k] = v`. -/
def VersionMap.set (m : VersionMap) (k : Int) (v : semantic) : VersionMap :=
  fun j => if j = k then some v else m j

/-- Lines 183-190: the version a line of the catalog gives, if the pattern
matches it (`len(mat) > 3`). -/
def remoteLine (line : List Char) : Option semantic :=
  let mat := FindStringSubmatch remoteVerReg 3 line
  if mat.length ≤ 3 then none
  else some ⟨Atoi (mat.getD 1 []), Atoi (mat.getD 2 []), Atoi (mat.getD 3 [])⟩

/-- Lines 191-196 (the same statements form lines 36-41 of `main`): store `ver`
under its major, unless the version already stored there is newer. -/
def keepNewest (vers : VersionMap) (ver : semantic) : VersionMap :=
  match vers ver.major with
  | some old => if old.isNewerThan ver then vers else vers.set ver.major ver
  | none => vers.set ver.major ver

/-- Body of the scanner loop of `remoteLatestVersions` (lines 182-196). -/
def remoteStep (vers : VersionMap) (line : List Char) : VersionMap :=
  match remoteLine line with
  | none => vers
  | some ver => keepNewest vers ver

/-- The loop `for scanner.Scan()` of `remoteLatestVersions` (lines 181-197), on
the strings that the scanner yields. -/
def remoteLatestVersionsLoop (lines : List (List Char)) : VersionMap :=
  lines.foldl remoteStep (fun _ => none)

/-- Function `remoteLatestVersions` (lines 178-198), on the output of
`pyenv install --list`. -/
def remoteLatestVersions (text : List Char) : VersionMap :=
  remoteLatestVersionsLoop (scanLines text)

/-! ## Local listing (`localVersions`, lines 201-232) -/

/-- The `local` struct. -/
structure Local where
  current : Bool
  environ : List Char
  version : semantic
deriving DecidableEq, Repr

/-- State of the scanner loop of `localVersions`: the slice `locals` and the
key set of the map `envs`. -/
structure LocalState where
  locals : List Local
  envs : List (List Char)

/-- Lines 215-224: the record built from the submatches of a matching line. -/
def localOfMatch (mat : List (List Char)) : Local :=
  { current := mat.getD 1 [] == ['*'],
    version := ⟨Atoi (mat.getD 2 []), Atoi (mat.getD 3 []), Atoi (mat.getD 4 [])⟩,
    environ := if mat.length > 5 then mat.getD 5 [] else [] }

/-- Body of the scanner loop of `localVersions` (lines 213-229). -/
def localStep (st : LocalState) (line : List Char) : LocalState :=
  let mat := FindStringSubmatch localVerReg 5 line
  if mat.length > 4 then
    let loc := localOfMatch mat
    let envs := if mat.length > 5 then mat.getD 5 [] :: st.envs else st.envs
    if (mat.getD 2 [] ++ mat.getD 3 []) ∈ envs then ⟨st.locals, envs⟩
    else ⟨st.locals ++ [loc], envs⟩
  else st

/-- The loop `for scanner.Scan()` of `localVersions` (lines 212-230), on the
strings that the scanner yields. -/
def localVersionsLoop (lines : List (List Char)) : List Local :=
  (lines.foldl localStep ⟨[], []⟩).locals

/-- Function `localVersions` (lines 208-231), on the output of `pyenv versions`. -/
def localVersions (text : List Char) : List Local :=
  localVersionsLoop (scanLines text)

/-! ## Specification vocabulary -/

/-- The expression `r` matches a prefix of `s` and leaves `t`: the declarative
reading of the syntax, without preferences and without submatches. -/
def Re.Matches : Re → List Char → List Char → Prop
  | Re.eps, s, t => t = s
  | Re.cls p, s, t => ∃ c, p c = true ∧ s = c :: t
  | Re.star p, s, t => ∃ w, (∀ c ∈ w, p c = true) ∧ s = w ++ t
  | Re.plus p, s, t => ∃ w, w ≠ [] ∧ (∀ c ∈ w, p c = true) ∧ s = w ++ t
  | Re.seq a b, s, t => ∃ u, a.Matches s u ∧ b.Matches u t
  | Re.opt a, s, t => a.Matches s t ∨ t = s
  | Re.group _ a, s, t => a.Matches s t
  | Re.eot, s, t => s = [] ∧ t = []

/-- The expression `r` cannot match at the front of an input that starts with
the character `c`. -/
def Rejects (r : Re) (c : Char) : Prop :=
  ∀ t caps k, r.run (c :: t) caps k = none

/-- A non-empty run of decimal digits. -/
def IsNumeral (w : List Char) : Prop := w ≠ [] ∧ ∀ c ∈ w, isDigit c = true

/-- The text `major`, `major.minor` or `major.minor.patch`, where each part is
a run of decimal digits; an absent part is given as the empty string. -/
def VersionText (maj min pat text : List Char) : Prop :=
  IsNumeral maj ∧
    ((min = [] ∧ pat = [] ∧ text = maj) ∨
     (IsNumeral min ∧ pat = [] ∧ text = maj ++ '.' :: min) ∨
     (IsNumeral min ∧ IsNumeral pat ∧ text = maj ++ '.' :: min ++ '.' :: pat))

/-- The shape of a contributing line of the installable catalog: optional
leading whitespace, then a version text, and nothing else. -/
def CatalogLine (line : List Char) : Prop :=
  ∃ ws maj min pat text, (∀ c ∈ ws, isSpace c = true) ∧ VersionText maj min pat text ∧
    line = ws ++ text

instance (w : List Char) : Decidable (IsNumeral w) :=
  inferInstanceAs (Decidable (w ≠ [] ∧ ∀ c ∈ w, isDigit c = true))

instance (maj min pat text : List Char) : Decidable (VersionText maj min pat text) :=
  inferInstanceAs (Decidable (IsNumeral maj ∧
    ((min = [] ∧ pat = [] ∧ text = maj) ∨
     (IsNumeral min ∧ pat = [] ∧ text = maj ++ '.' :: min) ∨
     (IsNumeral min ∧ IsNumeral pat ∧ text = maj ++ '.' :: min ++ '.' :: pat))))

/-- The number that a part of a version text stands for: 0 for an absent part,
otherwise the decimal value of its digits, capped at the largest 64-bit `int`
(the result of `strconv.Atoi` for a run of digits that is out of range). -/
def partValue (w : List Char) : Int :=
  if w = [] then 0 else min (decimalValue w : Int) (2 ^ 63 - 1)

/-- The version that the parts of a version text stand for. -/
def versionOfParts (maj min pat : List Char) : semantic :=
  ⟨partValue maj, partValue min, partValue pat⟩

/-- Parsing a line with the rule of the catalog parser and rendering the
resulting version with `String()`. -/
def renderParsed (line : List Char) : Option (List Char) :=
  (remoteLine line).map semantic.String

/-- A decimal numeral in standard notation: a non-empty run of digits without
superfluous leading zeros, whose value fits a 64-bit `int`. -/
def IsStandardNumeral (w : List Char) : Prop :=
  IsNumeral w ∧ (w.head? = some '0' → w = ['0']) ∧ decimalValue w < 2 ^ 63

instance (w : List Char) : Decidable (IsStandardNumeral w) :=
  inferInstanceAs (Decidable
    (IsNumeral w ∧ (w.head? = some '0' → w = ['0']) ∧ decimalValue w < 2 ^ 63))

/-- The versions that the lines of the catalog give, in order. -/
def remoteVersions (lines : List (List Char)) : List semantic :=
  lines.filterMap remoteLine

/-- Lines 214-222: the record a line of the local listing gives, if the pattern
matches it (`len(mat) > 4`). -/
def localLine (line : List Char) : Option Local :=
  let mat := FindStringSubmatch localVerReg 5 line
  if mat.length > 4 then some (localOfMatch mat) else none

/-- The concatenation `mat[2]+mat[3]` of the raw major and minor digits of a
line of the local listing (line 225). -/
def rawKey (line : List Char) : List Char :=
  let mat := FindStringSubmatch localVerReg 5 line
  mat.getD 2 [] ++ mat.getD 3 []

/-- The optional part `/envs/<name>` of a line of the local listing; an absent
part has the empty name. -/
def EnvSuffix (name suffix : List Char) : Prop :=
  (name = [] ∧ suffix = []) ∨
  (name ≠ [] ∧ (∀ c ∈ name, notBlank c = true) ∧
    suffix = ['/', 'e', 'n', 'v', 's', '/'] ++ name)

/-- The optional part ` (set by ...)` of a line of the local listing. -/
def SetBySuffix (suffix : List Char) : Prop :=
  suffix = [] ∨
  ∃ x, x ≠ [] ∧ (∀ c ∈ x, anyChar c = true) ∧
    suffix = [' ', '(', 's', 'e', 't', ' ', 'b', 'y', ' '] ++ x ++ [')']

/-- The shape `<marker><space><version>[/envs/<name>][ (set by ...)]` of a line
of the local listing. -/
def LocalLine (marker : Char) (maj min pat name line : List Char) : Prop :=
  ∃ text envs note, isMarker marker = true ∧ VersionText maj min pat text ∧
    EnvSuffix name envs ∧ SetBySuffix note ∧ line = marker :: ' ' :: (text ++ (envs ++ note))

/-- The records that the lines of the local listing give, in order, before
any line is left out. -/
def localRecords (lines : List (List Char)) : List Local :=
  lines.filterMap localLine

/-- The strings that the lines of the local listing record in `envs` (line
223): the environment name of every matching line, which is the empty string
for a line without the part `/envs/<name>`. -/
def envNames (lines : List (List Char)) : List (List Char) :=
  (localRecords lines).map Local.environ

/-! ## Commands, prompts and the run of `main`

External effects are made explicit.  A run carries the trace of the events it
has caused so far; the outcome of each event is given by a `World`, a
deterministic environment whose answers may depend on everything that happened
before.  The lines that `log.Printf` writes are not part of the trace. -/

/-- An `error` value. -/
abbrev Error := List Char

/-- The captured standard output of a command. -/
abbrev Output := List Char

deriving instance DecidableEq for Except

/-- An `exec.Cmd` as `pipe` and `pipeInVer` build it: the executable, its
arguments, and the value of `PYENV_VERSION` that `pipeInVer` appends to the
inherited environment (`none` for `pipe`). -/
structure Command where
  version : Option (List Char)
  exe : List Char
  args : List (List Char)
deriving DecidableEq, Repr

/-- What a run does to the outside: it runs a command, asks a yes/no question,
or creates a temp file and writes a body to it. -/
inductive Event where
  /-- The call `cmd.Run()`. -/
  | exec (cmd : Command) : Event
  /-- The call `ask.Message(msg).YesNo()`. -/
  | ask (msg : List Char) : Event
  /-- The body of `putTempFile`. -/
  | tempFile (body : Output) : Event
deriving DecidableEq, Repr

/-- The environment of a run: the result of each command (its captured output,
or the error of `cmd.Run()`), the answer to each question (or the error of
reading it), and the name of each temp file (or the error of creating or
writing it), given the events that came before. -/
structure World where
  run : List Event → Command → Except Error Output
  yesNo : List Event → List Char → Except Error Bool
  tempFile : List Event → Output → Except Error (List Char)

/-- A run so far: the trace of its events, in order, and either a value or the
error that ended it. -/
structure Run (α : Type) where
  trace : List Event
  result : Except Error α
deriving DecidableEq

/-- Sequencing with `if err != nil { return err }` (or `log.Fatal(err)`): an
error ends the run, a value is handed on with the trace. -/
def Run.bind {α β : Type} (r : Run α) (f : List Event → α → Run β) : Run β :=
  match r.result with
  | Except.error e => ⟨r.trace, Except.error e⟩
  | Except.ok a => f r.trace a

/-- Function `pipeCmd` (lines 246-254): run the command and capture its output. -/
def pipeCmd (w : World) (tr : List Event) (cmd : Command) : Run Output :=
  ⟨tr ++ [Event.exec cmd], w.run tr cmd⟩

/-- Function `pipe` (lines 240-244). -/
def pipe (w : World) (tr : List Event) (exe : List Char) (args : List (List Char)) :
    Run Output :=
  pipeCmd w tr ⟨none, exe, args⟩

/-- Function `pipeInVer` (lines 234-238). -/
def pipeInVer (w : World) (version : List Char) (tr : List Event) (exe : List Char)
    (args : List (List Char)) : Run Output :=
  pipeCmd w tr ⟨some version, exe, args⟩

/-- Function `putTempFile` (lines 156-170). -/
def putTempFile (w : World) (tr : List Event) (body : Output) : Run (List Char) :=
  ⟨tr ++ [Event.tempFile body], w.tempFile tr body⟩

/-- The call `ask.Message(msg).YesNo()`. -/
def askYesNo (w : World) (tr : List Event) (msg : List Char) : Run Bool :=
  ⟨tr ++ [Event.ask msg], w.yesNo tr msg⟩

/-- Method `local.String` (lines 116-118). -/
def Local.String (v : Local) : List Char :=
  v.version.String ++ "/envs/".toList ++ v.environ

/-- The message `fmt.Sprintf("Install %s?", rem)` (line 47). -/
def installMsg (rem : semantic) : List Char :=
  "Install ".toList ++ rem.String ++ "?".toList

/-- The message `fmt.Sprintf("Update %s to %s?", loc, lat)` (line 66). -/
def updateMsg (loc : Local) (lat : semantic) : List Char :=
  "Update ".toList ++ loc.String ++ " to ".toList ++ lat.String ++ "?".toList

/-- The command `pyenv install <version>` (line 122). -/
def pyenvInstall (ver : semantic) : Command :=
  ⟨none, "pyenv".toList, ["install".toList, ver.String]⟩

/-- The command `pip install --upgrade pip` with `PYENV_VERSION` set to the
version (line 125). -/
def pipUpgrade (ver : semantic) : Command :=
  ⟨some ver.String, "pip".toList, ["install".toList, "--upgrade".toList, "pip".toList]⟩

/-- Function `installVersion` (lines 120-127). -/
def installVersion (w : World) (tr : List Event) (ver : semantic) : Run Unit :=
  (pipe w tr "pyenv".toList ["install".toList, ver.String]).bind fun tr1 _ =>
  (pipeInVer w ver.String tr1 "pip".toList
    ["install".toList, "--upgrade".toList, "pip".toList]).bind fun tr2 _ =>
  ⟨tr2, Except.ok ()⟩

/-- The command `pip freeze` with `PYENV_VERSION` set to the environment (line 131). -/
def pipFreeze (loc : Local) : Command :=
  ⟨some loc.environ, "pip".toList, ["freeze".toList]⟩

/-- The command `pyenv uninstall -f <environ>` with `PYENV_VERSION=system`
(line 141). -/
def pyenvUninstall (loc : Local) : Command :=
  ⟨some "system".toList, "pyenv".toList, ["uninstall".toList, "-f".toList, loc.environ]⟩

/-- The command `pyenv virtualenv <version> <environ>` with
`PYENV_VERSION=system` (line 147). -/
def pyenvVirtualenv (loc : Local) (ver : semantic) : Command :=
  ⟨some "system".toList, "pyenv".toList, ["virtualenv".toList, ver.String, loc.environ]⟩

/-- The command `pip install -r <tmp>` with `PYENV_VERSION` set to the
environment (line 152). -/
def pipInstall (loc : Local) (tmp : List Char) : Command :=
  ⟨some loc.environ, "pip".toList, ["install".toList, "-r".toList, tmp]⟩

/-- Function `updateVersion` (lines 129-154). -/
def updateVersion (w : World) (tr : List Event) (loc : Local) (ver : semantic) : Run Unit :=
  (pipeInVer w loc.environ tr "pip".toList ["freeze".toList]).bind fun tr1 res =>
  (putTempFile w tr1 res).bind fun tr2 tmp =>
  (pipeInVer w "system".toList tr2 "pyenv".toList
    ["uninstall".toList, "-f".toList, loc.environ]).bind fun tr3 _ =>
  (pipeInVer w "system".toList tr3 "pyenv".toList
    ["virtualenv".toList, ver.String, loc.environ]).bind fun tr4 _ =>
  (pipeInVer w loc.environ tr4 "pip".toList
    ["install".toList, "-r".toList, tmp]).bind fun tr5 _ =>
  ⟨tr5, Except.ok ()⟩

/-- The command `pyenv versions` (line 203). -/
def pyenvVersions : Command := ⟨none, "pyenv".toList, ["versions".toList]⟩

/-- The command `pyenv install --list` (line 174). -/
def pyenvInstallList : Command :=
  ⟨none, "pyenv".toList, ["install".toList, "--list".toList]⟩

/-- Function `localVersions` with its command (lines 201-232): a failure of
the command is fatal. -/
def runLocalVersions (w : World) (tr : List Event) : Run (List Local) :=
  (pipe w tr "pyenv".toList ["versions".toList]).bind fun tr1 res =>
  ⟨tr1, Except.ok (localVersions res)⟩

/-- Function `remoteLatestVersions` with its command (lines 172-199): a
failure of the command is fatal. -/
def runRemoteLatestVersions (w : World) (tr : List Event) : Run VersionMap :=
  (pipe w tr "pyenv".toList ["install".toList, "--list".toList]).bind fun tr1 res =>
  ⟨tr1, Except.ok (remoteLatestVersions res)⟩

/-- Lines 34-42 of `main`: the map `localLatests` built from the local records. -/
def localLatestsOf (locals : List Local) : VersionMap :=
  locals.foldl (fun m loc => keepNewest m loc.version) (fun _ => none)

/-- Body of the loop over `localLatests` (lines 45-57) at the key `major`; the
loop visits keys of the map only, so nothing happens at another number. -/
def installStep (w : World) (remoteLatests : VersionMap) (tr : List Event)
    (localLatests : VersionMap) (major : Int) : Run VersionMap :=
  match localLatests major with
  | none => ⟨tr, Except.ok localLatests⟩
  | some loc =>
    match remoteLatests major with
    | none => ⟨tr, Except.ok localLatests⟩
    | some rem =>
      if rem.isNewerThan loc then
        (askYesNo w tr (installMsg rem)).bind fun tr1 res =>
          if res then
            (installVersion w tr1 rem).bind fun tr2 _ =>
              ⟨tr2, Except.ok (localLatests.set major rem)⟩
          else ⟨tr1, Except.ok localLatests⟩
      else ⟨tr, Except.ok localLatests⟩

/-- The loop over `localLatests` (lines 44-58), visiting the keys in the order
`order`. -/
def installPass (w : World) (remoteLatests : VersionMap) :
    List Int → List Event → VersionMap → Run VersionMap
  | [], tr, localLatests => ⟨tr, Except.ok localLatests⟩
  | major :: rest, tr, localLatests =>
    (installStep w remoteLatests tr localLatests major).bind fun tr1 m1 =>
      installPass w remoteLatests rest tr1 m1

/-- Body of the second loop over `locals` (lines 61-75). -/
def envStep (w : World) (localLatests : VersionMap) (tr : List Event) (loc : Local) :
    Run Unit :=
  if loc.environ = [] then ⟨tr, Except.ok ()⟩
  else
    match localLatests loc.version.major with
    | none => ⟨tr, Except.ok ()⟩
    | some lat =>
      if lat.isNewerThan loc.version then
        (askYesNo w tr (updateMsg loc lat)).bind fun tr1 res =>
          if res then updateVersion w tr1 loc lat else ⟨tr1, Except.ok ()⟩
      else ⟨tr, Except.ok ()⟩

/-- The second loop over `locals` (lines 60-76). -/
def envPass (w : World) (localLatests : VersionMap) : List Local → List Event → Run Unit
  | [], tr => ⟨tr, Except.ok ()⟩
  | loc :: rest, tr =>
    (envStep w localLatests tr loc).bind fun tr1 _ => envPass w localLatests rest tr1

/-- The keys of `localLatests`: the majors of the local records, each once. -/
def localMajors (locals : List Local) : List Int :=
  (locals.map fun loc => loc.version.major).dedup

/-- The statement `range` over a map whose body only assigns to keys that the
map already has: every key is produced once, in an order that Go does not
specify.  A value of this type is one choice of the runtime: a way to rearrange
any list of keys. -/
structure RangeOrder where
  order : List Int → List Int
  perm : ∀ keys, (order keys).Perm keys

/-- The runtime that produces the keys in the order of `localMajors`. -/
def RangeOrder.asListed : RangeOrder := ⟨fun keys => keys, fun _ => List.Perm.refl _⟩

/-- The runtime that produces the keys in the reverse order. -/
def RangeOrder.reversed : RangeOrder := ⟨List.reverse, fun keys => List.reverse_perm keys⟩

/-- Function `main` from line 30 on.  The order in which `range localLatests`
produces the keys is the choice `iter` of the runtime. -/
def main (w : World) (iter : RangeOrder) : Run Unit :=
  (runLocalVersions w []).bind fun tr1 locals =>
  (runRemoteLatestVersions w tr1).bind fun tr2 remoteLatests =>
  (installPass w remoteLatests (iter.order (localMajors locals)) tr2
    (localLatestsOf locals)).bind fun tr3 localLatests =>
  envPass w localLatests locals tr3

/-- A world for examples: `pyenv versions` prints the lines `  3.9.1/envs/a`
and `  3.8.0`, `pyenv install --list` prints `  3.9.5`, every other command
prints nothing, no command fails, the question `Install 3.9.5?` gets the
answer `install`, every other question the answer no, and every temp file is
`/tmp/pyenv1`. -/
def demoWorld (install : Bool) : World where
  run := fun _ cmd =>
    if cmd = pyenvVersions then Except.ok "  3.9.1/envs/a\n  3.8.0\n".toList
    else if cmd = pyenvInstallList then Except.ok "  3.9.5\n".toList
    else Except.ok []
  yesNo := fun _ msg => Except.ok (install && decide (msg = "Install 3.9.5?".toList))
  tempFile := fun _ _ => Except.ok "/tmp/pyenv1".toList

/-- A world in which the command `bad` fails with `exit status 1` and every
other command succeeds and prints nothing, every question gets the answer
yes, and every temp file is `/tmp/pyenv1`. -/
def failingWorld (bad : Command) : World where
  run := fun _ cmd => if cmd = bad then Except.error "exit status 1".toList else Except.ok []
  yesNo := fun _ _ => Except.ok true
  tempFile := fun _ _ => Except.ok "/tmp/pyenv1".toList

/-- The event is a question to the user. -/
def Event.isAsk : Event → Bool
  | Event.ask _ => true
  | _ => false

/-- The questions of a trace, in order. -/
def asksOf (tr : List Event) : List (List Char) :=
  tr.filterMap fun e =>
    match e with
    | Event.ask msg => some msg
    | _ => none

/-- Every version of the map is stored under its own major. -/
def WellKeyed (m : VersionMap) : Prop := ∀ k v, m k = some v → v.major = k

/-- The fields are non-negative values of a 64-bit `int`. -/
def semantic.NonNegative (v : semantic) : Prop :=
  (0 ≤ v.major ∧ v.major < 2 ^ 63) ∧ (0 ≤ v.minor ∧ v.minor < 2 ^ 63) ∧
    (0 ≤ v.patch ∧ v.patch < 2 ^ 63)

instance (v : semantic) : Decidable v.NonNegative :=
  inferInstanceAs (Decidable ((0 ≤ v.major ∧ v.major < 2 ^ 63) ∧
    (0 ≤ v.minor ∧ v.minor < 2 ^ 63) ∧ (0 ≤ v.patch ∧ v.patch < 2 ^ 63)))

/-- The installable upgrade for the major `m`, if any: the entry of the remote
availability map for `m`, when the local-best map has an entry for `m` and the
remote one is strictly newer. -/
def installOffer (remoteLatests localLatests : VersionMap) (m : Int) : Option semantic :=
  match localLatests m, remoteLatests m with
  | some loc, some rem => if rem.isNewerThan loc then some rem else none
  | _, _ => none

/-- The local-best map after an install pass over `keys` in which the question
`msg` is answered `yes msg`: the entry of each key with an accepted installable
upgrade is replaced by that upgrade. -/
def upgraded (remoteLatests localLatests : VersionMap) (yes : List Char → Bool)
    (keys : List Int) : VersionMap :=
  fun m =>
    match installOffer remoteLatests localLatests m with
    | some rem => if m ∈ keys ∧ yes (installMsg rem) = true then some rem else localLatests m
    | none => localLatests m

/-- The environment update for a local record, if any: the local-best version
of its major, when the record has an environment name and that version is
strictly newer than its own. -/
def envOffer (localLatests : VersionMap) (loc : Local) : Option semantic :=
  if loc.environ = [] then none
  else
    match localLatests loc.version.major with
    | some lat => if lat.isNewerThan loc.version then some lat else none
    | none => none

/-- The trace `tr1` is the trace `tr` followed by events that all satisfy `P`. -/
def Extends (P : Event → Prop) (tr tr1 : List Event) : Prop :=
  ∃ added, tr1 = tr ++ added ∧ ∀ e ∈ added, P e

/-! ## Example inputs with a line that the scanner cannot hold -/

/-- A line of 70000 bytes, which no pattern matches. -/
def longLine : List Char := List.replicate 70000 'x'

/-- A catalog of three lines: `3.9.1`, the long line, `3.9.2`. -/
def catalogWithLongLine : List Char :=
  "3.9.1".toList ++ '\n' :: (longLine ++ '\n' :: "3.9.2\n".toList)

/-- A local listing of three lines: `* 3.9.1`, the long line, `  3.8.0`. -/
def listingWithLongLine : List Char :=
  "* 3.9.1".toList ++ '\n' :: (longLine ++ '\n' :: "  3.8.0\n".toList)

/-! ## Theorems -/

/-! ### The matcher -/

theorem starP_greedy {α : Type} (p : Char → Bool) (k : List Char → Option α)
    (hk : ∀ c t, p c = true → k (c :: t) = none) (s : List Char) :
    starP p k s = k (s.dropWhile p) := by
  induction s with
  | nil => rfl
  | cons c t ih =>
    by_cases hc : p c = true
    · simp only [starP, hc, if_true, List.dropWhile, ih]
      cases h : k (t.dropWhile p) <;> simp [hk c t hc]
    · simp [starP, hc, List.dropWhile]

theorem starP_sound {α : Type} (p : Char → Bool) (k : List Char → Option α) (res : α) :
    ∀ s, starP p k s = some res →
      ∃ w t, (∀ c ∈ w, p c = true) ∧ s = w ++ t ∧ k t = some res := by
  intro s
  induction s with
  | nil => intro h; exact ⟨[], [], by simp, rfl, h⟩
  | cons c t ih =>
    intro h
    by_cases hc : p c = true
    · simp only [starP, hc, if_true] at h
      cases h1 : starP p k t with
      | some r =>
        rw [h1] at h
        obtain ⟨w, u, hw, hs, hk⟩ := ih (by rw [h1]; exact h)
        refine ⟨c :: w, u, ?_, by simp [hs], hk⟩
        intro d hd
        rcases List.mem_cons.1 hd with rfl | hd
        · exact hc
        · exact hw d hd
      | none =>
        rw [h1] at h
        exact ⟨[], c :: t, by simp, rfl, h⟩
    · simp only [starP, hc] at h
      exact ⟨[], c :: t, by simp, rfl, h⟩

theorem run_sound (r : Re) : ∀ (s : List Char) (caps : List (List Char))
    (k : List Char → List (List Char) → Option (List (List Char))) (res : List (List Char)),
    r.run s caps k = some res →
      ∃ t caps1, r.Matches s t ∧ caps1.length = caps.length ∧ k t caps1 = some res := by
  induction r with
  | eps => intro s caps k res h; exact ⟨s, caps, rfl, rfl, h⟩
  | cls p =>
    intro s caps k res h
    cases s with
    | nil => simp [Re.run] at h
    | cons c t =>
      by_cases hc : p c = true
      · simp only [Re.run, hc, if_true] at h
        exact ⟨t, caps, ⟨c, hc, rfl⟩, rfl, h⟩
      · simp [Re.run, hc] at h
  | star p =>
    intro s caps k res h
    obtain ⟨w, t, hw, hs, hk⟩ := starP_sound p _ res s h
    exact ⟨t, caps, ⟨w, hw, hs⟩, rfl, hk⟩
  | plus p =>
    intro s caps k res h
    cases s with
    | nil => simp [Re.run] at h
    | cons c t =>
      by_cases hc : p c = true
      · simp only [Re.run, hc, if_true] at h
        obtain ⟨w, u, hw, hs, hk⟩ := starP_sound p _ res t h
        refine ⟨u, caps, ⟨c :: w, by simp, ?_, by simp [hs]⟩, rfl, hk⟩
        intro d hd
        rcases List.mem_cons.1 hd with rfl | hd
        · exact hc
        · exact hw d hd
      · simp [Re.run, hc] at h
  | seq a b iha ihb =>
    intro s caps k res h
    obtain ⟨u, caps1, hm1, hl1, h1⟩ := iha s caps _ res h
    obtain ⟨t, caps2, hm2, hl2, h2⟩ := ihb u caps1 k res h1
    exact ⟨t, caps2, ⟨u, hm1, hm2⟩, by rw [hl2, hl1], h2⟩
  | opt a iha =>
    intro s caps k res h
    simp only [Re.run] at h
    cases h1 : a.run s caps k with
    | some r =>
      rw [h1] at h
      obtain ⟨t, caps1, hm, hl, hk⟩ := iha s caps k res (by rw [h1]; exact h)
      exact ⟨t, caps1, Or.inl hm, hl, hk⟩
    | none =>
      rw [h1] at h
      exact ⟨s, caps, Or.inr rfl, rfl, h⟩
  | group i a iha =>
    intro s caps k res h
    obtain ⟨t, caps1, hm, hl, hk⟩ := iha s caps _ res h
    exact ⟨t, caps1.set i (s.take (s.length - t.length)), hm, by simp [hl], hk⟩
  | eot =>
    intro s caps k res h
    by_cases hs : s = []
    · subst hs
      simp only [Re.run, if_true] at h
      exact ⟨[], caps, ⟨rfl, rfl⟩, rfl, h⟩
    · simp [Re.run, hs] at h

theorem FindStringSubmatch_sound (r : Re) (n : Nat) (line : List Char)
    (h : FindStringSubmatch r n line ≠ []) :
    (∃ t, r.Matches line t) ∧ (FindStringSubmatch r n line).length = n + 1 := by
  unfold FindStringSubmatch at h ⊢
  cases h1 : (Re.group 0 r).run line (List.replicate (n + 1) []) (fun _ caps => some caps) with
  | none => simp [h1] at h
  | some res =>
    obtain ⟨t, caps1, hm, hl, hk⟩ := run_sound _ _ _ _ _ h1
    simp only [Option.some.injEq] at hk
    subst hk
    exact ⟨⟨t, hm⟩, by simpa using hl⟩

/-! ### Characters -/

theorem isDigit_ne_dot {c : Char} (h : isDigit c = true) : (c == '.') = false := by
  rw [beq_eq_false_iff_ne]; rintro rfl; revert h; decide

theorem isSpace_not_digit {c : Char} (h : isSpace c = true) : isDigit c = false := by
  simp only [isSpace, Bool.or_eq_true, beq_iff_eq] at h
  rcases h with (((rfl | rfl) | rfl) | rfl) | rfl <;> decide

/-! ### Runs of a class -/

theorem dropWhile_run (p : Char → Bool) (w rest : List Char) (hw : ∀ c ∈ w, p c = true)
    (hr : ∀ c, rest.head? = some c → p c = false) :
    (w ++ rest).dropWhile p = rest := by
  induction w with
  | nil =>
    cases rest with
    | nil => rfl
    | cons c t => simp [List.dropWhile, hr c rfl]
  | cons d m ih =>
    have hd : p d = true := hw d (List.mem_cons_self _ _)
    simp only [List.cons_append, List.dropWhile, hd]
    exact ih (fun c hc => hw c (List.mem_cons_of_mem _ hc))

theorem take_run (w rest : List Char) :
    (w ++ rest).take ((w ++ rest).length - rest.length) = w := by
  simp

/-! ### Rejection -/

theorem rejects_cls {p : Char → Bool} {c : Char} (h : p c = false) : Rejects (Re.cls p) c :=
  fun t caps k => by simp [Re.run, h]

theorem rejects_plus {p : Char → Bool} {c : Char} (h : p c = false) : Rejects (Re.plus p) c :=
  fun t caps k => by simp [Re.run, h]

theorem rejects_eot (c : Char) : Rejects Re.eot c :=
  fun t caps k => by simp [Re.run]

theorem rejects_group {i : Nat} {a : Re} {c : Char} (h : Rejects a c) :
    Rejects (Re.group i a) c :=
  fun t caps k => by simp only [Re.run]; exact h _ _ _

theorem rejects_seq {a : Re} (b : Re) {c : Char} (h : Rejects a c) : Rejects (Re.seq a b) c :=
  fun t caps k => by simp only [Re.run]; exact h _ _ _

theorem rejects_opt_seq {a b : Re} {c : Char} (ha : Rejects a c) (hb : Rejects b c) :
    Rejects (Re.seq (Re.opt a) b) c :=
  fun t caps k => by simp only [Re.run, ha _ _ _]; exact hb _ _ _

/-! ### Segments of the two patterns -/

theorem run_group (i : Nat) (a : Re) (s : List Char) (caps : List (List Char))
    (k : List Char → List (List Char) → Option (List (List Char))) :
    (Re.group i a).run s caps k =
      a.run s caps (fun t caps1 => k t (caps1.set i (s.take (s.length - t.length)))) := rfl

theorem run_eot_nil (caps : List (List Char))
    (k : List Char → List (List Char) → Option (List (List Char))) :
    Re.eot.run [] caps k = k [] caps := by
  simp [Re.run]

theorem run_group_plus (i : Nat) (p : Char → Bool) (w rest : List Char)
    (caps : List (List Char)) (K : List Char → List (List Char) → Option (List (List Char)))
    (hw0 : w ≠ []) (hw : ∀ c ∈ w, p c = true) (hr : ∀ c, rest.head? = some c → p c = false)
    (hK : ∀ c t caps1, p c = true → K (c :: t) caps1 = none) :
    (Re.group i (Re.plus p)).run (w ++ rest) caps K = K rest (caps.set i w) := by
  cases w with
  | nil => exact absurd rfl hw0
  | cons d m =>
    have hd : p d = true := hw d (List.mem_cons_self _ _)
    have hm : ∀ c ∈ m, p c = true := fun c hc => hw c (List.mem_cons_of_mem _ hc)
    simp only [Re.run, List.cons_append, hd, if_true]
    rw [starP_greedy p _ (fun c t hc => hK c t _ hc), dropWhile_run p m rest hm hr]
    have := take_run (d :: m) rest
    simp only [List.cons_append] at this
    rw [this]

theorem run_star_seq (p : Char → Bool) (b : Re) (w rest : List Char)
    (caps : List (List Char)) (k : List Char → List (List Char) → Option (List (List Char)))
    (hw : ∀ c ∈ w, p c = true) (hr : ∀ c, rest.head? = some c → p c = false)
    (hb : ∀ c, p c = true → Rejects b c) :
    (Re.seq (Re.star p) b).run (w ++ rest) caps k = b.run rest caps k := by
  simp only [Re.run]
  rw [starP_greedy p _ (fun c t hc => hb c hc t caps k), dropWhile_run p w rest hw hr]

theorem run_digits_seq (i : Nat) (b : Re) (w rest : List Char)
    (caps : List (List Char)) (k : List Char → List (List Char) → Option (List (List Char)))
    (hw : IsNumeral w) (hr : ∀ c, rest.head? = some c → isDigit c = false)
    (hb : ∀ c, isDigit c = true → Rejects b c) :
    (Re.seq (Re.digits i) b).run (w ++ rest) caps k = b.run rest (caps.set i w) k := by
  have := run_group_plus i isDigit w rest caps (fun t caps1 => b.run t caps1 k) hw.1 hw.2 hr
    (fun c t caps1 hc => hb c hc t caps1 k)
  simpa only [Re.run, Re.digits] using this

theorem run_dot_take (i : Nat) (b : Re) (w rest : List Char)
    (caps : List (List Char)) (k : List Char → List (List Char) → Option (List (List Char)))
    (res : List (List Char))
    (hw : IsNumeral w) (hr : ∀ c, rest.head? = some c → isDigit c = false)
    (hb : ∀ c, isDigit c = true → Rejects b c)
    (h : b.run rest (caps.set i w) k = some res) :
    (Re.seq (Re.dotDigits i) b).run ('.' :: (w ++ rest)) caps k = some res := by
  have := run_group_plus i isDigit w rest caps (fun t caps1 => b.run t caps1 k) hw.1 hw.2 hr
    (fun c t caps1 hc => hb c hc t caps1 k)
  simp only [Re.run] at this
  simp only [Re.run, Re.dotDigits, Re.digits, Re.chr, beq_self_eq_true, if_true, this, h]

theorem run_dot_skip (i : Nat) (b : Re) (rest : List Char)
    (caps : List (List Char)) (k : List Char → List (List Char) → Option (List (List Char)))
    (hr : ∀ c, rest.head? = some c → (c == '.') = false) :
    (Re.seq (Re.dotDigits i) b).run rest caps k = b.run rest caps k := by
  cases rest with
  | nil => simp [Re.run, Re.dotDigits, Re.chr]
  | cons c t => simp [Re.run, Re.dotDigits, Re.chr, hr c rfl]

/-! ### The catalog pattern -/

theorem rejects_dot_tail (i : Nat) {b : Re} {c : Char} (hc : (c == '.') = false)
    (hb : Rejects b c) : Rejects (Re.seq (Re.dotDigits i) b) c :=
  rejects_opt_seq (rejects_seq _ (rejects_cls hc)) hb

theorem FindStringSubmatch_remote (ws maj min pat text : List Char)
    (hws : ∀ c ∈ ws, isSpace c = true) (hv : VersionText maj min pat text) :
    FindStringSubmatch remoteVerReg 3 (ws ++ text) = [ws ++ text, maj, min, pat] := by
  obtain ⟨hmaj, hcase⟩ := hv
  have hnil : ∀ c : Char, ([] : List Char).head? = some c → isDigit c = false := by simp
  have hnil2 : ∀ c : Char, ([] : List Char).head? = some c → (c == '.') = false := by simp
  have hdot : ∀ (t : List Char) (c : Char), ('.' :: t).head? = some c → isDigit c = false := by
    intro t c h; simp only [List.head?_cons, Option.some.injEq] at h; subst h; decide
  have hT3 : ∀ c, isDigit c = true → Rejects (Re.seq (Re.dotDigits 3) Re.eot) c :=
    fun c hc => rejects_dot_tail 3 (isDigit_ne_dot hc) (rejects_eot c)
  have hT2 : ∀ c, isDigit c = true →
      Rejects (Re.seq (Re.dotDigits 2) (Re.seq (Re.dotDigits 3) Re.eot)) c :=
    fun c hc => rejects_dot_tail 2 (isDigit_ne_dot hc) (hT3 c hc)
  have hR1 : ∀ c, isSpace c = true → Rejects (Re.seq (Re.digits 1)
      (Re.seq (Re.dotDigits 2) (Re.seq (Re.dotDigits 3) Re.eot))) c :=
    fun c hc => rejects_seq _ (rejects_group (rejects_plus (isSpace_not_digit hc)))
  have htext : ∀ c, text.head? = some c → isSpace c = false := by
    intro c h
    have hd : isDigit c = true := by
      obtain ⟨d, m, rfl⟩ := List.exists_cons_of_ne_nil hmaj.1
      have hc : c = d := by
        rcases hcase with ⟨_, _, rfl⟩ | ⟨_, _, rfl⟩ | ⟨_, _, rfl⟩ <;> simpa using h.symm
      subst hc
      exact hmaj.2 c (List.mem_cons_self _ _)
    cases hs : isSpace c with
    | false => rfl
    | true => rw [isSpace_not_digit hs] at hd; exact absurd hd (by simp)
  unfold FindStringSubmatch
  rw [run_group]
  simp only [remoteVerReg]
  rw [run_star_seq isSpace _ ws text _ _ hws htext hR1]
  rcases hcase with ⟨rfl, rfl, rfl⟩ | ⟨hmin, rfl, rfl⟩ | ⟨hmin, hpat, rfl⟩
  · have := run_digits_seq 1 _ text [] (List.replicate (3 + 1) []) 
      (fun t caps1 => some (caps1.set 0 ((ws ++ text).take ((ws ++ text).length - t.length))))
      hmaj hnil hT2
    rw [List.append_nil] at this
    rw [this, run_dot_skip 2 _ [] _ _ hnil2, run_dot_skip 3 _ [] _ _ hnil2, run_eot_nil]
    simp [List.replicate]
  · rw [run_digits_seq 1 _ maj ('.' :: min) _ _ hmaj (hdot _) hT2]
    have h3 := run_dot_take 2 (Re.seq (Re.dotDigits 3) Re.eot) min []
      ((List.replicate (3 + 1) []).set 1 maj)
      (fun t caps1 => some (caps1.set 0
        ((ws ++ (maj ++ '.' :: min)).take ((ws ++ (maj ++ '.' :: min)).length - t.length))))
      _ hmin hnil hT3 (by rw [run_dot_skip 3 _ [] _ _ hnil2, run_eot_nil])
    rw [List.append_nil] at h3
    rw [h3]
    simp [List.replicate]
  · simp only [List.append_assoc, List.cons_append]
    rw [run_digits_seq 1 _ maj ('.' :: (min ++ '.' :: pat)) _ _ hmaj (hdot _) hT2]
    have h4 := run_dot_take 3 Re.eot pat []
      (((List.replicate (3 + 1) []).set 1 maj).set 2 min)
      (fun t caps1 => some (caps1.set 0
        ((ws ++ (maj ++ '.' :: (min ++ '.' :: pat))).take
          ((ws ++ (maj ++ '.' :: (min ++ '.' :: pat))).length - t.length))))
      _ hpat hnil (fun c _ => rejects_eot c) (by rw [run_eot_nil])
    rw [List.append_nil] at h4
    have h3 := run_dot_take 2 (Re.seq (Re.dotDigits 3) Re.eot) min ('.' :: pat)
      ((List.replicate (3 + 1) []).set 1 maj)
      (fun t caps1 => some (caps1.set 0
        ((ws ++ (maj ++ '.' :: (min ++ '.' :: pat))).take
          ((ws ++ (maj ++ '.' :: (min ++ '.' :: pat))).length - t.length))))
      _ hmin (hdot _) hT3 h4
    simp only [List.cons_append, List.append_assoc] at h3 ⊢
    rw [h3]
    simp [List.replicate]

theorem catalogLine_of_matches (line t : List Char) (h : remoteVerReg.Matches line t) :
    CatalogLine line := by
  simp only [remoteVerReg, Re.digits, Re.dotDigits, Re.chr, Re.Matches, beq_iff_eq] at h
  obtain ⟨u1, ⟨ws, hws, rfl⟩, u2, ⟨maj, hmaj0, hmaj, rfl⟩, u3, h2, u4, h3, rfl, rfl⟩ := h
  have hM : IsNumeral maj := ⟨hmaj0, hmaj⟩
  rcases h2 with ⟨u, ⟨c, rfl, rfl⟩, min, hmin0, hmin, rfl⟩ | rfl
  · rcases h3 with ⟨u, ⟨c, rfl, rfl⟩, pat, hpat0, hpat, rfl⟩ | rfl
    · exact ⟨ws, maj, min, pat, _, hws, ⟨hM, Or.inr (Or.inr ⟨⟨hmin0, hmin⟩, ⟨hpat0, hpat⟩, rfl⟩)⟩,
        by simp⟩
    · exact ⟨ws, maj, min, [], _, hws, ⟨hM, Or.inr (Or.inl ⟨⟨hmin0, hmin⟩, rfl, rfl⟩)⟩, by simp⟩
  · rcases h3 with ⟨u, ⟨c, rfl, rfl⟩, pat, hpat0, hpat, rfl⟩ | rfl
    · exact ⟨ws, maj, pat, [], _, hws, ⟨hM, Or.inr (Or.inl ⟨⟨hpat0, hpat⟩, rfl, rfl⟩)⟩, by simp⟩
    · exact ⟨ws, maj, [], [], _, hws, ⟨hM, Or.inl ⟨rfl, rfl, rfl⟩⟩, by simp⟩

/-! ### `Atoi` on runs of digits -/

theorem Atoi_nil : Atoi [] = 0 := by decide

theorem Atoi_numeral (w : List Char) (hw : IsNumeral w) : Atoi w = partValue w := by
  obtain ⟨d, m, rfl⟩ := List.exists_cons_of_ne_nil hw.1
  have hd : isDigit d = true := hw.2 d (List.mem_cons_self _ _)
  have h1 : d ≠ '-' := by rintro rfl; revert hd; decide
  have h2 : d ≠ '+' := by rintro rfl; revert hd; decide
  have hall : (d :: m).all isDigit = true := by
    rw [List.all_eq_true]; exact hw.2
  unfold Atoi partValue
  have hbody : (match d :: m with
      | '-' :: t => t
      | '+' :: t => t
      | _ => d :: m) = d :: m := by
    split
    · rename_i heq; simp only [List.cons.injEq] at heq; exact absurd heq.1 h1
    · rename_i heq; simp only [List.cons.injEq] at heq; exact absurd heq.1 h2
    · rfl
  simp only [hbody, hall]
  simp [h1]
  split_ifs <;> omega

theorem Atoi_part (w : List Char) (hw : w = [] ∨ IsNumeral w) : Atoi w = partValue w := by
  rcases hw with rfl | hw
  · decide
  · exact Atoi_numeral w hw

theorem remoteLine_of_shape (ws maj min pat text : List Char)
    (hws : ∀ c ∈ ws, isSpace c = true) (hv : VersionText maj min pat text) :
    remoteLine (ws ++ text) = some (versionOfParts maj min pat) := by
  have hm := FindStringSubmatch_remote ws maj min pat text hws hv
  have h1 : Atoi maj = partValue maj := Atoi_numeral maj hv.1
  have h2 : Atoi min = partValue min := by
    apply Atoi_part
    rcases hv.2 with ⟨h, _, _⟩ | ⟨h, _, _⟩ | ⟨h, _, _⟩
    · exact Or.inl h
    · exact Or.inr h
    · exact Or.inr h
  have h3 : Atoi pat = partValue pat := by
    apply Atoi_part
    rcases hv.2 with ⟨_, h, _⟩ | ⟨_, h, _⟩ | ⟨_, h, _⟩
    · exact Or.inl h
    · exact Or.inl h
    · exact Or.inr h
  simp [remoteLine, hm, versionOfParts, h1, h2, h3]

theorem remoteLine_some_iff (line : List Char) (v : semantic) :
    remoteLine line = some v ↔
      ∃ ws maj min pat text, (∀ c ∈ ws, isSpace c = true) ∧ VersionText maj min pat text ∧
        line = ws ++ text ∧ v = versionOfParts maj min pat := by
  constructor
  · intro h
    have hne : FindStringSubmatch remoteVerReg 3 line ≠ [] := by
      intro h0
      simp [remoteLine, h0] at h
    obtain ⟨⟨t, hm⟩, -⟩ := FindStringSubmatch_sound _ _ _ hne
    obtain ⟨ws, maj, min, pat, text, hws, hv, rfl⟩ := catalogLine_of_matches line t hm
    refine ⟨ws, maj, min, pat, text, hws, hv, rfl, ?_⟩
    rw [remoteLine_of_shape ws maj min pat text hws hv] at h
    exact (Option.some.inj h).symm
  · rintro ⟨ws, maj, min, pat, text, hws, hv, rfl, rfl⟩
    exact remoteLine_of_shape ws maj min pat text hws hv

/-! ### Decimal numerals -/

theorem toDigitsCore_acc : ∀ (fuel n : Nat) (ds : List Char), n < fuel →
    Nat.toDigitsCore 10 fuel n ds = Nat.toDigitsCore 10 (n + 1) n [] ++ ds := by
  intro fuel
  induction fuel using Nat.strong_induction_on with
  | _ fuel ih =>
    intro n ds hn
    cases fuel with
    | zero => omega
    | succ fuel =>
      by_cases h0 : n / 10 = 0
      · simp [Nat.toDigitsCore, h0]
      · have h1 : n / 10 < fuel := by omega
        have h2 : n / 10 < n := by omega
        have e1 := ih fuel (by omega) (n / 10) (Nat.digitChar (n % 10) :: ds) h1
        have e2 := ih n (by omega) (n / 10) [Nat.digitChar (n % 10)] h2
        simp only [Nat.toDigitsCore, h0, if_false]
        rw [e1, e2]
        simp

theorem toDigits_step (n : Nat) :
    Nat.toDigits 10 n =
      if n / 10 = 0 then [Nat.digitChar (n % 10)]
      else Nat.toDigits 10 (n / 10) ++ [Nat.digitChar (n % 10)] := by
  by_cases h0 : n / 10 = 0
  · simp [Nat.toDigits, Nat.toDigitsCore, h0]
  · have h2 : n / 10 < n := by omega
    simp only [Nat.toDigits, Nat.toDigitsCore, h0, if_false]
    exact toDigitsCore_acc n (n / 10) _ h2

theorem digitChar_spec : ∀ m : Fin 10,
    isDigit (Nat.digitChar m.val) = true ∧ (Nat.digitChar m.val).toNat - '0'.toNat = m.val ∧
      (Nat.digitChar m.val = '0' ↔ m.val = 0) := by
  decide

theorem isDigit_spec (c : Char) (h : isDigit c = true) :
    c.toNat - '0'.toNat < 10 ∧ Nat.digitChar (c.toNat - '0'.toNat) = c := by
  have hc : Char.ofNat c.toNat = c := Char.ofNat_toNat c
  have hb : 48 ≤ c.toNat ∧ c.toNat ≤ 57 := by
    simp only [isDigit, Bool.and_eq_true, decide_eq_true_eq] at h
    exact ⟨h.1, h.2⟩
  generalize c.toNat = n at hc hb
  obtain ⟨h1, h2⟩ := hb
  subst hc
  interval_cases n <;> decide

theorem decimalValue_snoc (w : List Char) (c : Char) :
    decimalValue (w ++ [c]) = 10 * decimalValue w + (c.toNat - '0'.toNat) := by
  simp [decimalValue, List.foldl_append]

theorem toDigits_numeral (n : Nat) :
    IsNumeral (Nat.toDigits 10 n) ∧ decimalValue (Nat.toDigits 10 n) = n := by
  induction n using Nat.strong_induction_on with
  | _ n ih =>
    have hd := digitChar_spec ⟨n % 10, Nat.mod_lt _ (by decide)⟩
    rw [toDigits_step]
    by_cases h0 : n / 10 = 0
    · simp only [h0, if_true]
      refine ⟨⟨by simp, ?_⟩, ?_⟩
      · intro c hc
        rw [List.mem_singleton] at hc
        subst hc
        exact hd.1
      · have := decimalValue_snoc [] (Nat.digitChar (n % 10))
        simp only [List.nil_append] at this
        rw [this, hd.2.1]
        simp [decimalValue]
        omega
    · simp only [h0, if_false]
      obtain ⟨⟨_, hi1⟩, hi2⟩ := ih (n / 10) (by omega)
      refine ⟨⟨by simp, ?_⟩, ?_⟩
      · intro c hc
        rcases List.mem_append.1 hc with hc | hc
        · exact hi1 c hc
        · rw [List.mem_singleton] at hc
          subst hc
          exact hd.1
      · rw [decimalValue_snoc, hi2, hd.2.1]
        simp
        omega

theorem toDigits_decimalValue_pos (w : List Char) (hw : IsNumeral w)
    (h0 : w.head? ≠ some '0') :
    0 < decimalValue w ∧ Nat.toDigits 10 (decimalValue w) = w := by
  induction w using List.reverseRecOn with
  | nil => exact absurd rfl hw.1
  | append_singleton m c ih =>
    have hc : isDigit c = true := hw.2 c (by simp)
    obtain ⟨hlt, hdc⟩ := isDigit_spec c hc
    rw [decimalValue_snoc, toDigits_step]
    cases m with
    | nil =>
      have hv : decimalValue [] = 0 := rfl
      have hne : c.toNat - '0'.toNat ≠ 0 := by
        intro h
        rw [h] at hdc
        apply h0
        simp [← hdc]
        decide
      simp only [hv, Nat.mul_zero, Nat.zero_add, List.nil_append]
      have h1 : (c.toNat - '0'.toNat) / 10 = 0 := by omega
      have h2 : (c.toNat - '0'.toNat) % 10 = c.toNat - '0'.toNat := by omega
      simp only [h1, if_true, h2, hdc]
      exact ⟨by omega, trivial⟩
    | cons d m =>
      have hm : IsNumeral (d :: m) :=
        ⟨by simp, fun x hx => hw.2 x (List.mem_append_left _ hx)⟩
      obtain ⟨hpos, hround⟩ := ih hm (by simpa using h0)
      have h1 : (10 * decimalValue (d :: m) + (c.toNat - '0'.toNat)) / 10 =
          decimalValue (d :: m) := by omega
      have h2 : (10 * decimalValue (d :: m) + (c.toNat - '0'.toNat)) % 10 =
          c.toNat - '0'.toNat := by omega
      have h3 : decimalValue (d :: m) ≠ 0 := by omega
      simp only [h1, h2, h3, if_false, hround, hdc]
      exact ⟨by omega, trivial⟩

theorem toDigits_decimalValue (w : List Char) (hw : IsNumeral w)
    (h0 : w.head? = some '0' → w = ['0']) : Nat.toDigits 10 (decimalValue w) = w := by
  by_cases h : w.head? = some '0'
  · rw [h0 h]; decide
  · exact (toDigits_decimalValue_pos w hw h).2

/-! ### Rendering -/

theorem fmtInt_natCast (n : Nat) : fmtInt (n : Int) = Nat.toDigits 10 n := rfl

theorem fmtInt_nonneg (i : Int) (h : 0 ≤ i) : fmtInt i = Nat.toDigits 10 i.toNat := by
  obtain ⟨n, rfl⟩ := Int.eq_ofNat_of_zero_le h
  rfl

theorem partValue_standard (w : List Char) (h : IsStandardNumeral w) :
    partValue w = (decimalValue w : Int) ∧ fmtInt (partValue w) = w ∧
      (w ≠ ['0'] → 0 < partValue w) := by
  obtain ⟨hn, h0, hlt⟩ := h
  have hv : partValue w = (decimalValue w : Int) := by
    unfold partValue
    rw [if_neg hn.1]
    omega
  refine ⟨hv, ?_, ?_⟩
  · rw [hv, fmtInt_natCast, toDigits_decimalValue w hn h0]
  · intro hne
    have hh : w.head? ≠ some '0' := fun hx => hne (h0 hx)
    have := (toDigits_decimalValue_pos w hn hh).1
    rw [hv]
    exact_mod_cast this

theorem partValue_nil : partValue [] = 0 := rfl

/-! ### Newest version of each major -/

theorem isNewerThan_eq_true_iff (a b : semantic) :
    a.isNewerThan b = true ↔
      b.major < a.major ∨ (b.major = a.major ∧
        (b.minor < a.minor ∨ (b.minor = a.minor ∧ b.patch < a.patch))) := by
  simp only [semantic.isNewerThan]
  split_ifs <;> simp <;> omega

theorem isNewerThan_self (a : semantic) : a.isNewerThan a = false := by
  simp [semantic.isNewerThan]

theorem isNewerThan_asymm (a b : semantic) (h : a.isNewerThan b = true) :
    b.isNewerThan a = false := by
  rw [isNewerThan_eq_true_iff] at h
  rw [← Bool.not_eq_true, isNewerThan_eq_true_iff]
  omega

theorem not_newer_trans (a b c : semantic) (hab : a.isNewerThan b = false)
    (hbc : b.isNewerThan c = false) : a.isNewerThan c = false := by
  rw [← Bool.not_eq_true, isNewerThan_eq_true_iff] at *
  omega

theorem foldl_keepNewest (vs : List semantic) (m : Int) :
    ((vs.foldl keepNewest (fun _ => none) m).isSome = true ↔ ∃ v ∈ vs, v.major = m) ∧
    ∀ v, vs.foldl keepNewest (fun _ => none) m = some v →
      v.major = m ∧ v ∈ vs ∧ ∀ w ∈ vs, w.major = m → w.isNewerThan v = false := by
  induction vs using List.reverseRecOn with
  | nil => simp
  | append_singleton vs x ih =>
    obtain ⟨ih1, ih2⟩ := ih
    rw [List.foldl_append, List.foldl_cons, List.foldl_nil]
    generalize List.foldl keepNewest (fun _ => none) vs = vers at ih1 ih2 ⊢
    by_cases hm : x.major = m
    · subst hm
      cases hold : vers x.major with
      | none =>
        have hno : ∀ w ∈ vs, w.major ≠ x.major := by
          intro w hw hwm
          have := ih1.2 ⟨w, hw, hwm⟩
          simp [hold] at this
        have hk : keepNewest vers x x.major = some x := by
          simp [keepNewest, hold, VersionMap.set]
        rw [hk]
        refine ⟨⟨fun _ => ⟨x, by simp, rfl⟩, fun _ => by simp⟩, ?_⟩
        intro v hv
        obtain rfl := Option.some.inj hv
        refine ⟨rfl, by simp, ?_⟩
        intro w hw hwm
        rcases List.mem_append.1 hw with hw | hw
        · exact absurd hwm (hno w hw)
        · rw [List.mem_singleton] at hw
          subst hw
          exact isNewerThan_self _
      | some old =>
        obtain ⟨-, hold2, hold3⟩ := ih2 old hold
        cases hnew : old.isNewerThan x with
        | true =>
          have hk : keepNewest vers x x.major = some old := by
            simp [keepNewest, hold, hnew]
          rw [hk]
          refine ⟨⟨fun _ => ⟨x, by simp, rfl⟩, fun _ => by simp⟩, ?_⟩
          intro v hv
          obtain rfl := Option.some.inj hv
          refine ⟨(ih2 _ hold).1, by simp [hold2], ?_⟩
          intro w hw hwm
          rcases List.mem_append.1 hw with hw | hw
          · exact hold3 w hw hwm
          · rw [List.mem_singleton] at hw
            subst hw
            exact isNewerThan_asymm _ _ hnew
        | false =>
          have hk : keepNewest vers x x.major = some x := by
            simp [keepNewest, hold, hnew, VersionMap.set]
          rw [hk]
          refine ⟨⟨fun _ => ⟨x, by simp, rfl⟩, fun _ => by simp⟩, ?_⟩
          intro v hv
          obtain rfl := Option.some.inj hv
          refine ⟨rfl, by simp, ?_⟩
          intro w hw hwm
          rcases List.mem_append.1 hw with hw | hw
          · exact not_newer_trans w old _ (hold3 w hw hwm) hnew
          · rw [List.mem_singleton] at hw
            subst hw
            exact isNewerThan_self _
    · have hk : keepNewest vers x m = vers m := by
        unfold keepNewest
        cases vers x.major with
        | none => simp [VersionMap.set, Ne.symm hm]
        | some old =>
          simp only []
          split_ifs
          · rfl
          · simp [VersionMap.set, Ne.symm hm]
      rw [hk]
      constructor
      · rw [ih1]
        constructor
        · rintro ⟨v, hv, hvm⟩
          exact ⟨v, List.mem_append_left _ hv, hvm⟩
        · rintro ⟨v, hv, hvm⟩
          rcases List.mem_append.1 hv with hv | hv
          · exact ⟨v, hv, hvm⟩
          · rw [List.mem_singleton] at hv
            subst hv
            exact absurd hvm hm
      · intro v hv
        obtain ⟨h1, h2, h3⟩ := ih2 v hv
        refine ⟨h1, List.mem_append_left _ h2, ?_⟩
        intro w hw hwm
        rcases List.mem_append.1 hw with hw | hw
        · exact h3 w hw hwm
        · rw [List.mem_singleton] at hw
          subst hw
          exact absurd hwm hm

theorem foldl_remoteStep (lines : List (List Char)) (vers : VersionMap) :
    lines.foldl remoteStep vers = (remoteVersions lines).foldl keepNewest vers := by
  induction lines generalizing vers with
  | nil => rfl
  | cons l ls ih =>
    rw [List.foldl_cons, ih]
    cases h : remoteLine l with
    | none => simp [remoteVersions, List.filterMap_cons, h, remoteStep]
    | some v => simp [remoteVersions, List.filterMap_cons, h, remoteStep]

theorem remoteLatestVersions_eq (lines : List (List Char)) :
    remoteLatestVersionsLoop lines = (remoteVersions lines).foldl keepNewest (fun _ => none) :=
  foldl_remoteStep lines _

theorem mem_remoteVersions (lines : List (List Char)) (v : semantic) :
    v ∈ remoteVersions lines ↔ ∃ l ∈ lines, remoteLine l = some v := by
  simp [remoteVersions, List.mem_filterMap]

/-! ### The pattern of the local listing -/

theorem run_lit (cs : List Char) (b : Re) (rest : List Char) (caps : List (List Char))
    (k : List Char → List (List Char) → Option (List (List Char))) :
    (Re.seq (Re.lit cs) b).run (cs ++ rest) caps k = b.run rest caps k := by
  induction cs generalizing caps k b with
  | nil => simp [Re.run, Re.lit]
  | cons c cs ih =>
    have := ih b caps k
    simp only [Re.run] at this
    simp only [Re.run, Re.lit, Re.chr, List.cons_append, beq_self_eq_true, if_true, this]

theorem rejects_lit (c0 : Char) (cs : List Char) (b : Re) {c : Char} (h : (c == c0) = false) :
    Rejects (Re.seq (Re.lit (c0 :: cs)) b) c :=
  rejects_seq _ (rejects_seq _ (rejects_cls h))

theorem run_lit_nil (c0 : Char) (cs : List Char) (b : Re) (caps : List (List Char))
    (k : List Char → List (List Char) → Option (List (List Char))) :
    (Re.seq (Re.lit (c0 :: cs)) b).run [] caps k = none := by
  simp [Re.run, Re.lit, Re.chr]

theorem starP_cons {α : Type} (p : Char → Bool) (k : List Char → Option α) (c : Char)
    (t : List Char) :
    starP p k (c :: t) =
      if p c = true then
        match starP p k t with
        | some r => some r
        | none => k (c :: t)
      else k (c :: t) := rfl

theorem starP_any_paren (m : List Char) (hm : ∀ c ∈ m, anyChar c = true)
    (caps : List (List Char)) (K : List Char → List (List Char) → Option (List (List Char)))
    (hK : ∀ c t caps1, K (c :: t) caps1 = none) :
    starP anyChar (fun u => (Re.chr ')').run u caps K) (m ++ [')']) = K [] caps := by
  induction m with
  | nil =>
    have h1 : anyChar ')' = true := by decide
    simp only [List.nil_append, starP, h1, if_true, Re.run, Re.chr, beq_self_eq_true]
  | cons c m ih =>
    have hc : anyChar c = true := hm c (List.mem_cons_self _ _)
    have ih1 := ih (fun d hd => hm d (List.mem_cons_of_mem _ hd))
    have hK1 : K (m ++ [')']) caps = none := by
      cases m with
      | nil => exact hK _ _ _
      | cons d t => exact hK _ _ _
    have e : (c :: m) ++ [')'] = c :: (m ++ [')']) := rfl
    rw [e, starP_cons, if_pos hc, ih1]
    cases hk : K [] caps with
    | some r => rfl
    | none => simp [Re.run, Re.chr, hK1]

theorem run_any_paren (x : List Char) (hx0 : x ≠ []) (hx : ∀ c ∈ x, anyChar c = true)
    (caps : List (List Char)) (K : List Char → List (List Char) → Option (List (List Char)))
    (hK : ∀ c t caps1, K (c :: t) caps1 = none) :
    (Re.seq (Re.plus anyChar) (Re.chr ')')).run (x ++ [')']) caps K = K [] caps := by
  obtain ⟨d, m, rfl⟩ := List.exists_cons_of_ne_nil hx0
  have hd : anyChar d = true := hx d (List.mem_cons_self _ _)
  have := starP_any_paren m (fun c hc => hx c (List.mem_cons_of_mem _ hc)) caps K hK
  simp only [Re.run] at this
  simp only [Re.run, List.cons_append, hd, if_true, this]

theorem run_setBy (note : List Char) (hn : SetBySuffix note) (caps : List (List Char))
    (k : List Char → List (List Char) → Option (List (List Char))) :
    (Re.seq Re.setBy Re.eot).run note caps k = k [] caps := by
  rcases hn with rfl | ⟨x, hx0, hx, rfl⟩
  · have h := run_lit_nil ' ' ['(', 's', 'e', 't', ' ', 'b', 'y', ' ']
      (Re.seq (Re.plus anyChar) (Re.chr ')')) caps (fun t caps1 => Re.eot.run t caps1 k)
    simp only [Re.run] at h
    simp only [Re.run, Re.setBy, h, if_true]
  · have h := run_lit [' ', '(', 's', 'e', 't', ' ', 'b', 'y', ' ']
      (Re.seq (Re.plus anyChar) (Re.chr ')')) (x ++ [')']) caps
      (fun t caps1 => Re.eot.run t caps1 k)
    rw [run_any_paren x hx0 hx caps _ (fun c t caps1 => rejects_eot c t caps1 k),
      run_eot_nil] at h
    simp only [Re.run] at h
    simp only [Re.run, Re.setBy, List.append_assoc, h]
    cases hk : k [] caps with
    | some r => rfl
    | none => simp

theorem rejects_setBy_eot {c : Char} (h : (c == ' ') = false) :
    Rejects (Re.seq Re.setBy Re.eot) c :=
  rejects_opt_seq (rejects_lit ' ' _ _ h) (rejects_eot c)

theorem rejects_tail {c : Char} (h1 : (c == '/') = false) (h2 : (c == ' ') = false) :
    Rejects (Re.seq Re.envs (Re.seq Re.setBy Re.eot)) c :=
  rejects_opt_seq (rejects_lit '/' _ _ h1) (rejects_setBy_eot h2)

theorem setBy_head (note : List Char) (hn : SetBySuffix note) :
    ∀ c, note.head? = some c → c = ' ' := by
  intro c hc
  rcases hn with rfl | ⟨x, -, -, rfl⟩
  · simp at hc
  · simpa using hc.symm

theorem tail_head (name envs note : List Char) (he : EnvSuffix name envs)
    (hn : SetBySuffix note) : ∀ c, (envs ++ note).head? = some c → c = '/' ∨ c = ' ' := by
  intro c hc
  rcases he with ⟨-, rfl⟩ | ⟨-, -, rfl⟩
  · exact Or.inr (setBy_head note hn c (by simpa using hc))
  · exact Or.inl (by simpa using hc.symm)

theorem run_tail (name envs note : List Char) (he : EnvSuffix name envs)
    (hn : SetBySuffix note) (caps : List (List Char))
    (k : List Char → List (List Char) → Option (List (List Char))) :
    (Re.seq Re.envs (Re.seq Re.setBy Re.eot)).run (envs ++ note) caps k =
      k [] (if name = [] then caps else caps.set 5 name) := by
  rcases he with ⟨rfl, rfl⟩ | ⟨hname0, hname, rfl⟩
  · have hE : (Re.seq (Re.lit ['/', 'e', 'n', 'v', 's', '/'])
        (Re.group 5 (Re.plus notBlank))).run note caps
        (fun t caps1 => (Re.seq Re.setBy Re.eot).run t caps1 k) = none := by
      cases note with
      | nil => exact run_lit_nil _ _ _ _ _
      | cons c t =>
        have hc : c = ' ' := setBy_head _ hn c rfl
        subst hc
        exact rejects_lit '/' _ _ (by decide) _ _ _
    have hS := run_setBy note hn caps k
    simp only [Re.run] at hE hS
    simp only [Re.run, Re.envs, List.nil_append, if_true, hE, hS]
  · have hE := run_lit ['/', 'e', 'n', 'v', 's', '/'] (Re.group 5 (Re.plus notBlank))
      (name ++ note) caps (fun t caps1 => (Re.seq Re.setBy Re.eot).run t caps1 k)
    rw [run_group_plus 5 notBlank name note caps _ hname0 hname
      (fun c hc => by rw [setBy_head note hn c hc]; decide)
      (fun c t caps1 hc => rejects_setBy_eot (by simpa [notBlank] using hc) t caps1 k),
      run_setBy note hn] at hE
    have hF : (Re.seq Re.setBy Re.eot).run
        (['/', 'e', 'n', 'v', 's', '/'] ++ name ++ note) caps k = none :=
      rejects_setBy_eot (by decide) _ _ _
    simp only [Re.run, List.append_assoc] at hE hF
    simp only [Re.run, Re.envs, List.append_assoc, hE, hF, if_neg hname0]
    cases k [] (caps.set 5 name) <;> rfl

theorem run_marker (m : Char) (hm : isMarker m = true) (b : Re) (rest : List Char)
    (caps : List (List Char)) (k : List Char → List (List Char) → Option (List (List Char))) :
    (Re.seq (Re.group 1 (Re.cls isMarker)) (Re.seq (Re.chr ' ') b)).run
      (m :: ' ' :: rest) caps k = b.run rest (caps.set 1 [m]) k := by
  simp [Re.run, Re.chr, hm]

theorem run_localVerReg (line : List Char) (marker : Char)
    (maj min pat name text envs note : List Char) (hm : isMarker marker = true)
    (hv : VersionText maj min pat text) (he : EnvSuffix name envs) (hn : SetBySuffix note) :
    localVerReg.run (marker :: ' ' :: (text ++ (envs ++ note))) (List.replicate (5 + 1) [])
      (fun t caps1 => some (caps1.set 0 (line.take (line.length - t.length)))) =
    some [line, [marker], maj, min, pat, name] := by
  obtain ⟨hmaj, hcase⟩ := hv
  have hhead := tail_head name envs note he hn
  have hrd : ∀ c, (envs ++ note).head? = some c → isDigit c = false := by
    intro c hc
    rcases hhead c hc with rfl | rfl <;> decide
  have hrp : ∀ c, (envs ++ note).head? = some c → (c == '.') = false := by
    intro c hc
    rcases hhead c hc with rfl | rfl <;> decide
  have hdot : ∀ (t : List Char) (c : Char), ('.' :: t).head? = some c → isDigit c = false := by
    intro t c h; simp only [List.head?_cons, Option.some.injEq] at h; subst h; decide
  have hTail : ∀ c, isDigit c = true → Rejects (Re.seq Re.envs (Re.seq Re.setBy Re.eot)) c := by
    intro c hc
    refine rejects_tail ?_ ?_
    · rw [beq_eq_false_iff_ne]; rintro rfl; revert hc; decide
    · rw [beq_eq_false_iff_ne]; rintro rfl; revert hc; decide
  have hT4 : ∀ c, isDigit c = true →
      Rejects (Re.seq (Re.dotDigits 4) (Re.seq Re.envs (Re.seq Re.setBy Re.eot))) c :=
    fun c hc => rejects_dot_tail 4 (isDigit_ne_dot hc) (hTail c hc)
  have hT3 : ∀ c, isDigit c = true → Rejects (Re.seq (Re.dotDigits 3)
      (Re.seq (Re.dotDigits 4) (Re.seq Re.envs (Re.seq Re.setBy Re.eot)))) c :=
    fun c hc => rejects_dot_tail 3 (isDigit_ne_dot hc) (hT4 c hc)
  have hname : name = [] ∨ name ≠ [] := em _
  unfold localVerReg
  rw [run_marker marker hm]
  rcases hcase with ⟨rfl, rfl, rfl⟩ | ⟨hmin, rfl, rfl⟩ | ⟨hmin, hpat, rfl⟩
  · rw [run_digits_seq 2 _ text (envs ++ note) _ _ hmaj hrd hT3,
      run_dot_skip 3 _ _ _ _ hrp, run_dot_skip 4 _ _ _ _ hrp, run_tail name envs note he hn]
    rcases hname with rfl | hne
    · simp [List.replicate]
    · simp [List.replicate, hne]
  · simp only [List.append_assoc, List.cons_append]
    rw [run_digits_seq 2 _ maj ('.' :: (min ++ (envs ++ note))) _ _ hmaj (hdot _) hT3]
    refine run_dot_take 3 _ min (envs ++ note) _ _ _ hmin hrd hT4 ?_
    rw [run_dot_skip 4 _ _ _ _ hrp, run_tail name envs note he hn]
    rcases hname with rfl | hne
    · simp [List.replicate]
    · simp [List.replicate, hne]
  · simp only [List.append_assoc, List.cons_append]
    rw [run_digits_seq 2 _ maj ('.' :: (min ++ '.' :: (pat ++ (envs ++ note)))) _ _ hmaj
      (hdot _) hT3]
    refine run_dot_take 3 _ min ('.' :: (pat ++ (envs ++ note))) _ _ _ hmin (hdot _) hT4 ?_
    refine run_dot_take 4 _ pat (envs ++ note) _ _ _ hpat hrd hTail ?_
    rw [run_tail name envs note he hn]
    rcases hname with rfl | hne
    · simp [List.replicate]
    · simp [List.replicate, hne]

theorem FindStringSubmatch_local (marker : Char) (maj min pat name line : List Char)
    (h : LocalLine marker maj min pat name line) :
    FindStringSubmatch localVerReg 5 line = [line, [marker], maj, min, pat, name] := by
  obtain ⟨text, envs, note, hm, hv, he, hn, hl⟩ := h
  have := run_localVerReg line marker maj min pat name text envs note hm hv he hn
  rw [← hl] at this
  simp only [FindStringSubmatch, run_group, this]

/-! ### Lines that the pattern of the local listing matches -/

theorem matches_lit (cs s t : List Char) : (Re.lit cs).Matches s t ↔ s = cs ++ t := by
  induction cs generalizing s with
  | nil => simp [Re.lit, Re.Matches, eq_comm]
  | cons c cs ih =>
    simp only [Re.lit, Re.Matches, Re.chr, beq_iff_eq, ih, List.cons_append]
    constructor
    · rintro ⟨u, ⟨d, rfl, rfl⟩, rfl⟩; rfl
    · rintro rfl; exact ⟨cs ++ t, ⟨c, rfl, rfl⟩, rfl⟩

theorem version_of_matches (i j k : Nat) (b : Re) (s t : List Char)
    (h : (Re.seq (Re.digits i) (Re.seq (Re.dotDigits j)
      (Re.seq (Re.dotDigits k) b))).Matches s t) :
    ∃ maj min pat text u, VersionText maj min pat text ∧ s = text ++ u ∧ b.Matches u t := by
  simp only [Re.digits, Re.dotDigits, Re.chr, Re.Matches, beq_iff_eq] at h
  obtain ⟨u2, ⟨maj, hmaj0, hmaj, rfl⟩, u3, h2, u4, h3, hb⟩ := h
  have hM : IsNumeral maj := ⟨hmaj0, hmaj⟩
  rcases h2 with ⟨u, ⟨c, rfl, rfl⟩, min, hmin0, hmin, rfl⟩ | rfl
  · rcases h3 with ⟨u, ⟨c, rfl, rfl⟩, pat, hpat0, hpat, rfl⟩ | rfl
    · exact ⟨maj, min, pat, _, u4, ⟨hM, Or.inr (Or.inr ⟨⟨hmin0, hmin⟩, ⟨hpat0, hpat⟩, rfl⟩)⟩,
        by simp, hb⟩
    · exact ⟨maj, min, [], _, u4, ⟨hM, Or.inr (Or.inl ⟨⟨hmin0, hmin⟩, rfl, rfl⟩)⟩,
        by simp, hb⟩
  · rcases h3 with ⟨u, ⟨c, rfl, rfl⟩, pat, hpat0, hpat, rfl⟩ | rfl
    · exact ⟨maj, pat, [], _, u4, ⟨hM, Or.inr (Or.inl ⟨⟨hpat0, hpat⟩, rfl, rfl⟩)⟩,
        by simp, hb⟩
    · exact ⟨maj, [], [], _, u4, ⟨hM, Or.inl ⟨rfl, rfl, rfl⟩⟩, rfl, hb⟩

theorem envs_of_matches (b : Re) (s t : List Char) (h : (Re.seq Re.envs b).Matches s t) :
    ∃ name envs u, EnvSuffix name envs ∧ s = envs ++ u ∧ b.Matches u t := by
  have h : ∃ u, ((∃ v, (Re.lit ['/', 'e', 'n', 'v', 's', '/']).Matches s v ∧
      ∃ w, w ≠ [] ∧ (∀ c ∈ w, notBlank c = true) ∧ v = w ++ u) ∨ u = s) ∧
      b.Matches u t := h
  obtain ⟨u, h1, hb⟩ := h
  rcases h1 with ⟨v, hv, name, hn0, hn, rfl⟩ | rfl
  · rw [matches_lit] at hv
    exact ⟨name, _, u, Or.inr ⟨hn0, hn, rfl⟩, by rw [hv, List.append_assoc], hb⟩
  · exact ⟨[], [], u, Or.inl ⟨rfl, rfl⟩, rfl, hb⟩

theorem setBy_of_matches (s t : List Char) (h : (Re.seq Re.setBy Re.eot).Matches s t) :
    SetBySuffix s := by
  have h : ∃ u, ((∃ v, (Re.lit [' ', '(', 's', 'e', 't', ' ', 'b', 'y', ' ']).Matches s v ∧
      ∃ w, (∃ x, x ≠ [] ∧ (∀ c ∈ x, anyChar c = true) ∧ v = x ++ w) ∧
        ∃ c, (c == ')') = true ∧ w = c :: u) ∨ u = s) ∧ (u = [] ∧ t = []) := h
  obtain ⟨u, h1, rfl, rfl⟩ := h
  rcases h1 with ⟨v, hv, w, ⟨x, hx0, hx, rfl⟩, c, hc, rfl⟩ | rfl
  · rw [matches_lit] at hv
    rw [beq_iff_eq] at hc
    subst hc
    exact Or.inr ⟨x, hx0, hx, by rw [hv, List.append_assoc]⟩
  · exact Or.inl rfl

theorem localLine_of_matches (line t : List Char) (h : localVerReg.Matches line t) :
    ∃ marker maj min pat name, LocalLine marker maj min pat name line := by
  have h : ∃ u1, (∃ c, isMarker c = true ∧ line = c :: u1) ∧
      ∃ u2, (∃ c, (c == ' ') = true ∧ u1 = c :: u2) ∧
        (Re.seq (Re.digits 2) (Re.seq (Re.dotDigits 3) (Re.seq (Re.dotDigits 4)
          (Re.seq Re.envs (Re.seq Re.setBy Re.eot))))).Matches u2 t := h
  obtain ⟨u1, ⟨marker, hm, rfl⟩, u2, ⟨c, hc, rfl⟩, hrest⟩ := h
  rw [beq_iff_eq] at hc
  subst hc
  obtain ⟨maj, min, pat, text, u, hv, rfl, hu⟩ := version_of_matches 2 3 4 _ _ _ hrest
  obtain ⟨name, envs, u', he, rfl, hu'⟩ := envs_of_matches _ _ _ hu
  exact ⟨marker, maj, min, pat, name, text, envs, u', hm, hv, he,
    setBy_of_matches _ _ hu', rfl⟩

theorem localMatch_cases (line : List Char) :
    FindStringSubmatch localVerReg 5 line = [] ∨
    ∃ marker maj min pat name, LocalLine marker maj min pat name line ∧
      FindStringSubmatch localVerReg 5 line = [line, [marker], maj, min, pat, name] := by
  by_cases h : FindStringSubmatch localVerReg 5 line = []
  · exact Or.inl h
  · obtain ⟨⟨t, ht⟩, -⟩ := FindStringSubmatch_sound _ _ _ h
    obtain ⟨marker, maj, min, pat, name, hl⟩ := localLine_of_matches line t ht
    exact Or.inr ⟨marker, maj, min, pat, name, hl,
      FindStringSubmatch_local marker maj min pat name line hl⟩

theorem marker_current (marker : Char) : ([marker] == ['*']) = (marker == '*') := by
  by_cases h : marker = '*'
  · subst h; decide
  · have h1 : (marker == '*') = false := by simpa using h
    have h2 : ([marker] == ['*']) = false := by
      rw [beq_eq_false_iff_ne]
      intro he
      exact h (List.head_eq_of_cons_eq he)
    rw [h1, h2]

theorem localLine_shape (marker : Char) (maj min pat name line : List Char)
    (h : LocalLine marker maj min pat name line) :
    localLine line = some ⟨marker == '*', name, versionOfParts maj min pat⟩ ∧
      rawKey line = maj ++ min := by
  have hm := FindStringSubmatch_local marker maj min pat name line h
  obtain ⟨text, envs, note, -, hv, -, -, -⟩ := h
  have h1 : Atoi maj = partValue maj := Atoi_numeral maj hv.1
  have h2 : Atoi min = partValue min := by
    apply Atoi_part
    rcases hv.2 with ⟨h, _, _⟩ | ⟨h, _, _⟩ | ⟨h, _, _⟩
    · exact Or.inl h
    · exact Or.inr h
    · exact Or.inr h
  have h3 : Atoi pat = partValue pat := by
    apply Atoi_part
    rcases hv.2 with ⟨_, h, _⟩ | ⟨_, h, _⟩ | ⟨_, h, _⟩
    · exact Or.inl h
    · exact Or.inl h
    · exact Or.inr h
  constructor
  · simp [localLine, hm, localOfMatch, versionOfParts, h1, h2, h3, marker_current]
  · simp [rawKey, hm]

theorem localLine_none_iff (line : List Char) :
    localLine line = none ↔ FindStringSubmatch localVerReg 5 line = [] := by
  rcases localMatch_cases line with h | ⟨marker, maj, min, pat, name, -, h⟩
  · simp [localLine, h]
  · simp [localLine, h]

theorem rawKey_ne_nil (line : List Char) (loc : Local) (h : localLine line = some loc) :
    rawKey line ≠ [] := by
  rcases localMatch_cases line with h0 | ⟨marker, maj, min, pat, name, hl, -⟩
  · rw [(localLine_none_iff line).2 h0] at h
    exact absurd h (by simp)
  · rw [(localLine_shape marker maj min pat name line hl).2]
    obtain ⟨text, envs, note, -, hv, -⟩ := hl
    simp [hv.1.1]

theorem localStep_eq (st : LocalState) (line : List Char) :
    localStep st line =
      match localLine line with
      | none => st
      | some loc =>
        ⟨st.locals ++ (if rawKey line ∈ loc.environ :: st.envs then [] else [loc]),
          loc.environ :: st.envs⟩ := by
  rcases localMatch_cases line with h | ⟨marker, maj, min, pat, name, hl, h⟩
  · simp [localStep, localLine, h]
  · simp only [localStep, localLine, rawKey, h, localOfMatch]
    simp
    split_ifs <;> simp

/-! ### The scan of the local listing -/

theorem envNames_append (pre post : List (List Char)) :
    envNames (pre ++ post) = envNames pre ++ envNames post := by
  simp [envNames, localRecords, List.filterMap_append]

theorem envNames_singleton (l : List Char) :
    envNames [l] = match localLine l with
      | none => []
      | some loc => [loc.environ] := by
  cases h : localLine l <;> simp [envNames, localRecords, List.filterMap_cons, h]

theorem foldl_localStep_envs (lines : List (List Char)) (st : LocalState) (x : List Char) :
    x ∈ (lines.foldl localStep st).envs ↔ x ∈ st.envs ∨ x ∈ envNames lines := by
  induction lines generalizing st with
  | nil => simp [envNames, localRecords]
  | cons l ls ih =>
    rw [List.foldl_cons, ih, localStep_eq]
    have e : envNames (l :: ls) = envNames [l] ++ envNames ls := envNames_append [l] ls
    rw [e, envNames_singleton]
    cases h : localLine l with
    | none => simp
    | some loc =>
      simp only [List.mem_cons, List.mem_append, List.mem_singleton, List.not_mem_nil,
        or_false]
      tauto

theorem foldl_localStep_prefix (lines : List (List Char)) (st : LocalState) :
    ∃ rest, (lines.foldl localStep st).locals = st.locals ++ rest := by
  induction lines generalizing st with
  | nil => exact ⟨[], by simp⟩
  | cons l ls ih =>
    rw [List.foldl_cons]
    obtain ⟨rest, hrest⟩ := ih (localStep st l)
    rw [hrest, localStep_eq]
    cases h : localLine l with
    | none => exact ⟨rest, rfl⟩
    | some loc => exact ⟨_, List.append_assoc _ _ _⟩

theorem localVersions_snoc (pre : List (List Char)) (l : List Char) :
    localVersionsLoop (pre ++ [l]) = localVersionsLoop pre ++
      match localLine l with
      | none => []
      | some loc => if rawKey l ∈ envNames (pre ++ [l]) then [] else [loc] := by
  unfold localVersionsLoop
  rw [List.foldl_append, List.foldl_cons, List.foldl_nil, localStep_eq, envNames_append,
    envNames_singleton]
  cases h : localLine l with
  | none => simp
  | some loc =>
    have hmem : rawKey l ∈ loc.environ :: (List.foldl localStep ⟨[], []⟩ pre).envs ↔
        rawKey l ∈ envNames pre ++ [loc.environ] := by
      rw [List.mem_cons, foldl_localStep_envs, List.mem_append, List.mem_singleton]
      simp only [List.not_mem_nil, false_or]
      tauto
    simp only [hmem]

theorem localVersions_append (pre post : List (List Char)) :
    ∃ rest, localVersionsLoop (pre ++ post) = localVersionsLoop pre ++ rest := by
  unfold localVersionsLoop
  rw [List.foldl_append]
  exact foldl_localStep_prefix post _

theorem localVersions_no_clash (lines : List (List Char))
    (h : ∀ l ∈ lines, (localLine l).isSome = true → rawKey l ∉ envNames lines) :
    localVersionsLoop lines = localRecords lines := by
  induction lines using List.reverseRecOn with
  | nil => rfl
  | append_singleton pre l ih =>
    have hpre : ∀ l' ∈ pre, (localLine l').isSome = true → rawKey l' ∉ envNames pre := by
      intro l' hl' hs hmem
      apply h l' (List.mem_append_left _ hl') hs
      rw [envNames_append]
      exact List.mem_append_left _ hmem
    rw [localVersions_snoc, ih hpre]
    cases hloc : localLine l with
    | none => simp [localRecords, List.filterMap_append, hloc]
    | some loc =>
      have hl := h l (by simp) (by simp [hloc])
      simp [localRecords, List.filterMap_append, hloc, hl]

/-! ### Lines that do not match -/

theorem foldl_localStep_filter (lines : List (List Char)) (st : LocalState) :
    lines.foldl localStep st =
      (lines.filter (fun l => (localLine l).isSome)).foldl localStep st := by
  induction lines generalizing st with
  | nil => rfl
  | cons l ls ih =>
    cases h : localLine l with
    | none =>
      have hs : localStep st l = st := by rw [localStep_eq, h]
      simp [List.filter_cons, h, hs, ih]
    | some loc => simp [List.filter_cons, h, ih]

theorem foldl_remoteStep_filter (lines : List (List Char)) (vers : VersionMap) :
    lines.foldl remoteStep vers =
      (lines.filter (fun l => (remoteLine l).isSome)).foldl remoteStep vers := by
  induction lines generalizing vers with
  | nil => rfl
  | cons l ls ih =>
    cases h : remoteLine l with
    | none =>
      have hs : remoteStep vers l = vers := by simp [remoteStep, h]
      simp [List.filter_cons, h, hs, ih]
    | some v => simp [List.filter_cons, h, ih]

theorem filter_insert {α : Type} (p : α → Bool) (pre junk post : List α)
    (h : ∀ x ∈ junk, p x = false) :
    (pre ++ junk ++ post).filter p = (pre ++ post).filter p := by
  have hj : junk.filter p = [] := by
    rw [List.filter_eq_nil_iff]
    intro x hx
    simp [h x hx]
  simp [List.filter_append, hj]

/-! ### The matcher accepts the language of the expression -/

theorem starP_complete {α : Type} (p : Char → Bool) (k : List Char → Option α)
    (w t : List Char) (hw : ∀ c ∈ w, p c = true) (hk : (k t).isSome = true) :
    (starP p k (w ++ t)).isSome = true := by
  induction w with
  | nil =>
    cases t with
    | nil => exact hk
    | cons c u =>
      rw [List.nil_append, starP_cons]
      split_ifs
      · cases starP p k u with
        | some r => rfl
        | none => exact hk
      · exact hk
  | cons d w ih =>
    have hd : p d = true := hw d (List.mem_cons_self _ _)
    have h1 := ih (fun c hc => hw c (List.mem_cons_of_mem _ hc))
    have e : (d :: w) ++ t = d :: (w ++ t) := rfl
    rw [e, starP_cons, if_pos hd]
    obtain ⟨r, hr⟩ := Option.isSome_iff_exists.1 h1
    rw [hr]
    rfl

theorem run_complete (r : Re) : ∀ (s t : List Char) (caps : List (List Char))
    (k : List Char → List (List Char) → Option (List (List Char))),
    r.Matches s t → (∀ caps1, (k t caps1).isSome = true) → (r.run s caps k).isSome = true := by
  induction r with
  | eps =>
    intro s t caps k hm hk
    have hm : t = s := hm
    subst hm
    exact hk caps
  | cls p =>
    intro s t caps k hm hk
    obtain ⟨c, hc, rfl⟩ := hm
    simp only [Re.run, hc, if_true]
    exact hk caps
  | star p =>
    intro s t caps k hm hk
    obtain ⟨w, hw, rfl⟩ := hm
    exact starP_complete p _ w t hw (hk caps)
  | plus p =>
    intro s t caps k hm hk
    obtain ⟨w, hw0, hw, rfl⟩ := hm
    obtain ⟨d, m, rfl⟩ := List.exists_cons_of_ne_nil hw0
    have hd : p d = true := hw d (List.mem_cons_self _ _)
    simp only [Re.run, List.cons_append, hd, if_true]
    exact starP_complete p _ m t (fun c hc => hw c (List.mem_cons_of_mem _ hc)) (hk caps)
  | seq a b iha ihb =>
    intro s t caps k hm hk
    obtain ⟨u, h1, h2⟩ := hm
    exact iha s u caps _ h1 (fun caps1 => ihb u t caps1 k h2 hk)
  | opt a iha =>
    intro s t caps k hm hk
    simp only [Re.run]
    rcases hm with hm | hm
    · obtain ⟨res, hres⟩ := Option.isSome_iff_exists.1 (iha s t caps k hm hk)
      rw [hres]
      rfl
    · have hm : t = s := hm
      subst hm
      cases a.run t caps k with
      | some res => rfl
      | none => exact hk caps
  | group i a iha =>
    intro s t caps k hm hk
    exact iha s t caps _ hm (fun caps1 => hk _)
  | eot =>
    intro s t caps k hm hk
    obtain ⟨rfl, rfl⟩ := hm
    simp only [Re.run, if_true]
    exact hk caps

theorem FindStringSubmatch_ne_nil_iff (r : Re) (n : Nat) (line : List Char) :
    FindStringSubmatch r n line ≠ [] ↔ ∃ t, r.Matches line t := by
  constructor
  · intro h
    exact (FindStringSubmatch_sound r n line h).1
  · rintro ⟨t, ht⟩
    have h := run_complete (Re.group 0 r) line t (List.replicate (n + 1) [])
      (fun _ caps => some caps) ht (fun _ => rfl)
    obtain ⟨res, hres⟩ := Option.isSome_iff_exists.1 h
    obtain ⟨u, caps1, -, hl, hk⟩ := run_sound _ _ _ _ _ hres
    simp only [Option.some.injEq] at hk
    subst hk
    intro h0
    simp only [FindStringSubmatch, hres] at h0
    rw [h0] at hl
    simp at hl

/-! ### The local-best map -/

theorem localLatestsOf_eq (locals : List Local) :
    localLatestsOf locals =
      (locals.map fun loc => loc.version).foldl keepNewest (fun _ => none) := by
  unfold localLatestsOf
  rw [List.foldl_map]

theorem wellKeyed_foldl_keepNewest (vs : List semantic) :
    WellKeyed (vs.foldl keepNewest (fun _ => none)) :=
  fun k v h => ((foldl_keepNewest vs k).2 v h).1

/-! ### Parsing a rendered version -/

theorem partValue_toDigits (n : Nat) (h : n < 2 ^ 63) :
    partValue (Nat.toDigits 10 n) = (n : Int) := by
  obtain ⟨hn, hv⟩ := toDigits_numeral n
  unfold partValue
  rw [if_neg hn.1, hv]
  omega

theorem remoteLine_String (v : semantic) (h : v.NonNegative) :
    remoteLine v.String = some v := by
  obtain ⟨⟨a0, a1⟩, ⟨b0, b1⟩, ⟨c0, c1⟩⟩ := h
  obtain ⟨a, b, c⟩ := v
  simp only at a0 a1 b0 b1 c0 c1
  obtain ⟨a, rfl⟩ := Int.eq_ofNat_of_zero_le a0
  obtain ⟨b, rfl⟩ := Int.eq_ofNat_of_zero_le b0
  obtain ⟨c, rfl⟩ := Int.eq_ofNat_of_zero_le c0
  have ha : a < 2 ^ 63 := by exact_mod_cast a1
  have hb : b < 2 ^ 63 := by exact_mod_cast b1
  have hc : c < 2 ^ 63 := by exact_mod_cast c1
  have hnil : ∀ x ∈ ([] : List Char), isSpace x = true := by simp
  have hA := (toDigits_numeral a).1
  have hB := (toDigits_numeral b).1
  have hC := (toDigits_numeral c).1
  by_cases hc0 : c = 0
  · subst hc0
    by_cases hb0 : b = 0
    · subst hb0
      have h := remoteLine_of_shape [] (Nat.toDigits 10 a) [] [] _ hnil
        ⟨hA, Or.inl ⟨rfl, rfl, rfl⟩⟩
      rw [List.nil_append] at h
      simp [semantic.String, fmtInt_natCast, h, versionOfParts, partValue_nil,
        partValue_toDigits a ha]
    · have hpos : (0 : Int) < (b : Int) := by omega
      have h := remoteLine_of_shape [] (Nat.toDigits 10 a) (Nat.toDigits 10 b) [] _ hnil
        ⟨hA, Or.inr (Or.inl ⟨hB, rfl, rfl⟩)⟩
      rw [List.nil_append] at h
      simp [semantic.String, fmtInt_natCast, hpos, h, versionOfParts, partValue_nil,
        partValue_toDigits a ha, partValue_toDigits b hb]
  · have hpos : (0 : Int) < (c : Int) := by omega
    have h := remoteLine_of_shape [] (Nat.toDigits 10 a) (Nat.toDigits 10 b)
      (Nat.toDigits 10 c) _ hnil ⟨hA, Or.inr (Or.inr ⟨hB, hC, rfl⟩)⟩
    simp only [List.nil_append, List.append_assoc, List.cons_append] at h
    simp [semantic.String, fmtInt_natCast, hpos, h, versionOfParts,
      partValue_toDigits a ha, partValue_toDigits b hb, partValue_toDigits c hc]

/-! ### Runs -/

theorem Run.bind_ok {α β : Type} (tr : List Event) (a : α) (f : List Event → α → Run β) :
    (Run.mk tr (Except.ok a)).bind f = f tr a := rfl

theorem Run.bind_error {α β : Type} (tr : List Event) (e : Error)
    (f : List Event → α → Run β) :
    (Run.mk tr (Except.error e : Except Error α)).bind f = ⟨tr, Except.error e⟩ := rfl

theorem installVersion_cases (w : World) (tr : List Event) (ver : semantic) :
    (∀ e, w.run tr (pyenvInstall ver) = Except.error e →
      installVersion w tr ver = ⟨tr ++ [Event.exec (pyenvInstall ver)], Except.error e⟩) ∧
    (∀ out e, w.run tr (pyenvInstall ver) = Except.ok out →
      w.run (tr ++ [Event.exec (pyenvInstall ver)]) (pipUpgrade ver) = Except.error e →
      installVersion w tr ver =
        ⟨tr ++ [Event.exec (pyenvInstall ver), Event.exec (pipUpgrade ver)], Except.error e⟩) ∧
    (∀ out1 out2, w.run tr (pyenvInstall ver) = Except.ok out1 →
      w.run (tr ++ [Event.exec (pyenvInstall ver)]) (pipUpgrade ver) = Except.ok out2 →
      installVersion w tr ver =
        ⟨tr ++ [Event.exec (pyenvInstall ver), Event.exec (pipUpgrade ver)], Except.ok ()⟩) := by
  refine ⟨?_, ?_, ?_⟩
  · intro e h
    simp [installVersion, pipe, pipeCmd, pyenvInstall] at h ⊢
    simp [Run.bind, h]
  · intro out e h1 h2
    simp [installVersion, pipe, pipeInVer, pipeCmd, pyenvInstall, pipUpgrade] at h1 h2 ⊢
    simp [Run.bind, h1, h2]
  · intro out1 out2 h1 h2
    simp [installVersion, pipe, pipeInVer, pipeCmd, pyenvInstall, pipUpgrade] at h1 h2 ⊢
    simp [Run.bind, h1, h2]

theorem updateVersion_cases (w : World) (tr : List Event) (loc : Local) (ver : semantic) :
    (∀ e, w.run tr (pipFreeze loc) = Except.error e →
      updateVersion w tr loc ver = ⟨tr ++ [Event.exec (pipFreeze loc)], Except.error e⟩) ∧
    (∀ body e, w.run tr (pipFreeze loc) = Except.ok body →
      w.tempFile (tr ++ [Event.exec (pipFreeze loc)]) body = Except.error e →
      updateVersion w tr loc ver =
        ⟨tr ++ [Event.exec (pipFreeze loc), Event.tempFile body], Except.error e⟩) ∧
    (∀ body tmp e, w.run tr (pipFreeze loc) = Except.ok body →
      w.tempFile (tr ++ [Event.exec (pipFreeze loc)]) body = Except.ok tmp →
      w.run (tr ++ [Event.exec (pipFreeze loc), Event.tempFile body]) (pyenvUninstall loc) =
        Except.error e →
      updateVersion w tr loc ver =
        ⟨tr ++ [Event.exec (pipFreeze loc), Event.tempFile body,
          Event.exec (pyenvUninstall loc)], Except.error e⟩) ∧
    (∀ body tmp out3 e, w.run tr (pipFreeze loc) = Except.ok body →
      w.tempFile (tr ++ [Event.exec (pipFreeze loc)]) body = Except.ok tmp →
      w.run (tr ++ [Event.exec (pipFreeze loc), Event.tempFile body]) (pyenvUninstall loc) =
        Except.ok out3 →
      w.run (tr ++ [Event.exec (pipFreeze loc), Event.tempFile body,
        Event.exec (pyenvUninstall loc)]) (pyenvVirtualenv loc ver) = Except.error e →
      updateVersion w tr loc ver =
        ⟨tr ++ [Event.exec (pipFreeze loc), Event.tempFile body,
          Event.exec (pyenvUninstall loc), Event.exec (pyenvVirtualenv loc ver)],
          Except.error e⟩) ∧
    (∀ body tmp out3 out4 (r : Except Error Output),
      w.run tr (pipFreeze loc) = Except.ok body →
      w.tempFile (tr ++ [Event.exec (pipFreeze loc)]) body = Except.ok tmp →
      w.run (tr ++ [Event.exec (pipFreeze loc), Event.tempFile body]) (pyenvUninstall loc) =
        Except.ok out3 →
      w.run (tr ++ [Event.exec (pipFreeze loc), Event.tempFile body,
        Event.exec (pyenvUninstall loc)]) (pyenvVirtualenv loc ver) = Except.ok out4 →
      w.run (tr ++ [Event.exec (pipFreeze loc), Event.tempFile body,
        Event.exec (pyenvUninstall loc), Event.exec (pyenvVirtualenv loc ver)])
        (pipInstall loc tmp) = r →
      updateVersion w tr loc ver =
        ⟨tr ++ [Event.exec (pipFreeze loc), Event.tempFile body,
          Event.exec (pyenvUninstall loc), Event.exec (pyenvVirtualenv loc ver),
          Event.exec (pipInstall loc tmp)], r.map fun _ => ()⟩) := by
  refine ⟨?_, ?_, ?_, ?_, ?_⟩
  · intro e h
    simp [updateVersion, pipeInVer, pipeCmd, pipFreeze] at h ⊢
    simp [Run.bind, h]
  · intro body e h1 h2
    simp [updateVersion, pipeInVer, pipeCmd, putTempFile, pipFreeze] at h1 h2 ⊢
    simp [Run.bind, h1, h2]
  · intro body tmp e h1 h2 h3
    simp [updateVersion, pipeInVer, pipeCmd, putTempFile, pipFreeze, pyenvUninstall]
      at h1 h2 h3 ⊢
    simp [Run.bind, h1, h2, h3]
  · intro body tmp out3 e h1 h2 h3 h4
    simp [updateVersion, pipeInVer, pipeCmd, putTempFile, pipFreeze, pyenvUninstall,
      pyenvVirtualenv] at h1 h2 h3 h4 ⊢
    simp [Run.bind, h1, h2, h3, h4]
  · intro body tmp out3 out4 r h1 h2 h3 h4 h5
    simp [updateVersion, pipeInVer, pipeCmd, putTempFile, pipFreeze, pyenvUninstall,
      pyenvVirtualenv, pipInstall] at h1 h2 h3 h4 h5 ⊢
    simp [Run.bind, h1, h2, h3, h4, h5]
    cases r <;> simp [Except.map]

theorem installStep_eq (w : World) (remoteLatests : VersionMap) (tr : List Event)
    (localLatests : VersionMap) (m : Int) :
    installStep w remoteLatests tr localLatests m =
      match installOffer remoteLatests localLatests m with
      | none => ⟨tr, Except.ok localLatests⟩
      | some rem =>
        (askYesNo w tr (installMsg rem)).bind fun tr1 res =>
          if res then
            (installVersion w tr1 rem).bind fun tr2 _ =>
              ⟨tr2, Except.ok (localLatests.set m rem)⟩
          else ⟨tr1, Except.ok localLatests⟩ := by
  unfold installStep installOffer
  cases localLatests m with
  | none => rfl
  | some loc =>
    cases remoteLatests m with
    | none => rfl
    | some rem =>
      simp only []
      split_ifs <;> rfl

theorem envStep_eq (w : World) (localLatests : VersionMap) (tr : List Event) (loc : Local) :
    envStep w localLatests tr loc =
      match envOffer localLatests loc with
      | none => ⟨tr, Except.ok ()⟩
      | some lat =>
        (askYesNo w tr (updateMsg loc lat)).bind fun tr1 res =>
          if res then updateVersion w tr1 loc lat else ⟨tr1, Except.ok ()⟩ := by
  unfold envStep envOffer
  split_ifs with h
  · rfl
  · cases localLatests loc.version.major with
    | none => rfl
    | some lat =>
      simp only []
      split_ifs <;> rfl

/-! ### Events that a run adds to the trace -/

theorem extends_refl (P : Event → Prop) (tr : List Event) : Extends P tr tr :=
  ⟨[], by simp, by simp⟩

theorem extends_trans {P : Event → Prop} {tr tr1 tr2 : List Event}
    (h1 : Extends P tr tr1) (h2 : Extends P tr1 tr2) : Extends P tr tr2 := by
  obtain ⟨a1, rfl, ha1⟩ := h1
  obtain ⟨a2, rfl, ha2⟩ := h2
  refine ⟨a1 ++ a2, by simp, ?_⟩
  intro e he
  rcases List.mem_append.1 he with he | he
  · exact ha1 e he
  · exact ha2 e he

theorem extends_snoc {P : Event → Prop} (tr : List Event) {e : Event} (he : P e) :
    Extends P tr (tr ++ [e]) :=
  ⟨[e], rfl, by simpa using he⟩

theorem Run.bind_extends {α β : Type} {P : Event → Prop} {tr : List Event} (r : Run α)
    (f : List Event → α → Run β) (hr : Extends P tr r.trace)
    (hf : ∀ a, Extends P r.trace (f r.trace a).trace) : Extends P tr (r.bind f).trace := by
  unfold Run.bind
  cases r.result with
  | error e => exact hr
  | ok a => exact extends_trans hr (hf a)

theorem pipeCmd_extends {P : Event → Prop} (w : World) (tr : List Event) (cmd : Command)
    (h : P (Event.exec cmd)) : Extends P tr (pipeCmd w tr cmd).trace :=
  extends_snoc tr h

theorem installVersion_extends {P : Event → Prop} (w : World) (tr : List Event)
    (ver : semantic) (h : ∀ cmd, P (Event.exec cmd)) :
    Extends P tr (installVersion w tr ver).trace := by
  unfold installVersion pipe pipeInVer
  refine Run.bind_extends _ _ (pipeCmd_extends w tr _ (h _)) fun _ => ?_
  refine Run.bind_extends _ _ (pipeCmd_extends w _ _ (h _)) fun _ => ?_
  exact extends_refl _ _

theorem updateVersion_extends {P : Event → Prop} (w : World) (tr : List Event)
    (loc : Local) (ver : semantic) (h : ∀ cmd, P (Event.exec cmd))
    (ht : ∀ body, P (Event.tempFile body)) :
    Extends P tr (updateVersion w tr loc ver).trace := by
  unfold updateVersion pipeInVer
  refine Run.bind_extends _ _ (pipeCmd_extends w tr _ (h _)) fun _ => ?_
  refine Run.bind_extends _ _ (extends_snoc _ (ht _)) fun _ => ?_
  refine Run.bind_extends _ _ (pipeCmd_extends w _ _ (h _)) fun _ => ?_
  refine Run.bind_extends _ _ (pipeCmd_extends w _ _ (h _)) fun _ => ?_
  refine Run.bind_extends _ _ (pipeCmd_extends w _ _ (h _)) fun _ => ?_
  exact extends_refl _ _

theorem installStep_extends {P : Event → Prop} (w : World) (remoteLatests : VersionMap)
    (tr : List Event) (localLatests : VersionMap) (m : Int)
    (h : ∀ cmd, P (Event.exec cmd)) (ha : ∀ v, P (Event.ask (installMsg v))) :
    Extends P tr (installStep w remoteLatests tr localLatests m).trace := by
  rw [installStep_eq]
  cases installOffer remoteLatests localLatests m with
  | none => exact extends_refl _ _
  | some rem =>
    refine Run.bind_extends _ _ (extends_snoc _ (ha rem)) fun res => ?_
    cases res with
    | false => exact extends_refl _ _
    | true =>
      refine Run.bind_extends _ _ (installVersion_extends w _ rem h) fun _ => ?_
      exact extends_refl _ _

theorem installPass_extends {P : Event → Prop} (w : World) (remoteLatests : VersionMap)
    (order : List Int) (tr : List Event) (localLatests : VersionMap)
    (h : ∀ cmd, P (Event.exec cmd)) (ha : ∀ v, P (Event.ask (installMsg v))) :
    Extends P tr (installPass w remoteLatests order tr localLatests).trace := by
  induction order generalizing tr localLatests with
  | nil => exact extends_refl _ _
  | cons k rest ih =>
    unfold installPass
    exact Run.bind_extends _ _ (installStep_extends w _ tr _ k h ha) fun m1 => ih _ m1

theorem envStep_extends {P : Event → Prop} (w : World) (localLatests : VersionMap)
    (tr : List Event) (loc : Local) (h : ∀ cmd, P (Event.exec cmd))
    (ht : ∀ body, P (Event.tempFile body)) (ha : ∀ lat, P (Event.ask (updateMsg loc lat))) :
    Extends P tr (envStep w localLatests tr loc).trace := by
  rw [envStep_eq]
  cases envOffer localLatests loc with
  | none => exact extends_refl _ _
  | some lat =>
    refine Run.bind_extends _ _ (extends_snoc _ (ha lat)) fun res => ?_
    cases res with
    | false => exact extends_refl _ _
    | true => exact updateVersion_extends w _ loc lat h ht

theorem envPass_extends {P : Event → Prop} (w : World) (localLatests : VersionMap)
    (locals : List Local) (tr : List Event) (h : ∀ cmd, P (Event.exec cmd))
    (ht : ∀ body, P (Event.tempFile body))
    (ha : ∀ loc lat, P (Event.ask (updateMsg loc lat))) :
    Extends P tr (envPass w localLatests locals tr).trace := by
  induction locals generalizing tr with
  | nil => exact extends_refl _ _
  | cons loc rest ih =>
    unfold envPass
    exact Run.bind_extends _ _ (envStep_extends w _ tr loc h ht (ha loc)) fun _ => ih _

theorem installMsg_ne_updateMsg (v : semantic) (loc : Local) (lat : semantic) :
    installMsg v ≠ updateMsg loc lat := by
  intro h
  have h1 : (installMsg v).head? = some 'I' := rfl
  have h2 : (updateMsg loc lat).head? = some 'U' := rfl
  rw [h, h2] at h1
  exact absurd h1 (by decide)

theorem main_two_phases (w : World) (iter : RangeOrder) :
    ∃ pre post, (main w iter).trace = pre ++ post ∧
      (∀ e ∈ pre, ∀ loc lat, e ≠ Event.ask (updateMsg loc lat)) ∧
      (∀ e ∈ post, ∀ v, e ≠ Event.ask (installMsg v)) := by
  have hx : ∀ cmd : Command, ∀ loc lat, Event.exec cmd ≠ Event.ask (updateMsg loc lat) := by
    intro cmd loc lat h; cases h
  have hi : ∀ v : semantic, ∀ loc lat,
      Event.ask (installMsg v) ≠ Event.ask (updateMsg loc lat) := by
    intro v loc lat h
    exact installMsg_ne_updateMsg v loc lat (Event.ask.inj h)
  have hx2 : ∀ cmd : Command, ∀ v, Event.exec cmd ≠ Event.ask (installMsg v) := by
    intro cmd v h; cases h
  have ht2 : ∀ body : Output, ∀ v, Event.tempFile body ≠ Event.ask (installMsg v) := by
    intro body v h; cases h
  have hu2 : ∀ (loc : Local) (lat : semantic), ∀ v,
      Event.ask (updateMsg loc lat) ≠ Event.ask (installMsg v) := by
    intro loc lat v h
    exact installMsg_ne_updateMsg v loc lat (Event.ask.inj h).symm
  have hnil : ∀ e ∈ ([] : List Event), ∀ v, e ≠ Event.ask (installMsg v) := by simp
  unfold main runLocalVersions runRemoteLatestVersions pipe pipeCmd
  cases h1 : w.run [] ⟨none, "pyenv".toList, ["versions".toList]⟩ with
  | error e =>
    refine ⟨_, [], (List.append_nil _).symm, ?_, hnil⟩
    simp only [Run.bind, h1]
    intro e he loc lat
    simp only [List.nil_append, List.mem_singleton] at he
    subst he
    exact hx _ loc lat
  | ok out1 =>
    cases h2 : w.run ([] ++ [Event.exec ⟨none, "pyenv".toList, ["versions".toList]⟩])
        ⟨none, "pyenv".toList, ["install".toList, "--list".toList]⟩ with
    | error e =>
      refine ⟨_, [], (List.append_nil _).symm, ?_, hnil⟩
      simp only [Run.bind, h1, h2]
      intro e he loc lat
      simp only [List.nil_append, List.cons_append, List.mem_cons, List.mem_singleton,
        List.not_mem_nil, or_false] at he
      rcases he with rfl | rfl <;> exact hx _ loc lat
    | ok out2 =>
      simp only [Run.bind, h1, h2]
      obtain ⟨a1, ha1, hp1⟩ := installPass_extends
        (P := fun e => ∀ loc lat, e ≠ Event.ask (updateMsg loc lat)) w
        (remoteLatestVersions out2) (iter.order (localMajors (localVersions out1)))
        ([] ++ [Event.exec ⟨none, "pyenv".toList, ["versions".toList]⟩] ++
          [Event.exec ⟨none, "pyenv".toList, ["install".toList, "--list".toList]⟩])
        (localLatestsOf (localVersions out1)) hx hi
      have hpre : ∀ e ∈ (installPass w (remoteLatestVersions out2)
          (iter.order (localMajors (localVersions out1)))
          ([] ++ [Event.exec ⟨none, "pyenv".toList, ["versions".toList]⟩] ++
            [Event.exec ⟨none, "pyenv".toList, ["install".toList, "--list".toList]⟩])
          (localLatestsOf (localVersions out1))).trace,
          ∀ loc lat, e ≠ Event.ask (updateMsg loc lat) := by
        rw [ha1]
        intro e he loc lat
        rcases List.mem_append.1 he with he | he
        · simp only [List.nil_append, List.cons_append, List.mem_cons, List.mem_singleton,
            List.not_mem_nil, or_false] at he
          rcases he with rfl | rfl <;> exact hx _ loc lat
        · exact hp1 e he loc lat
      cases h3 : (installPass w (remoteLatestVersions out2)
          (iter.order (localMajors (localVersions out1)))
          ([] ++ [Event.exec ⟨none, "pyenv".toList, ["versions".toList]⟩] ++
            [Event.exec ⟨none, "pyenv".toList, ["install".toList, "--list".toList]⟩])
          (localLatestsOf (localVersions out1))).result with
      | error e => exact ⟨_, [], (List.append_nil _).symm, hpre, hnil⟩
      | ok m3 =>
        obtain ⟨a2, ha2, hp2⟩ := envPass_extends
          (P := fun e => ∀ v, e ≠ Event.ask (installMsg v)) w m3 (localVersions out1)
          (installPass w (remoteLatestVersions out2)
            (iter.order (localMajors (localVersions out1)))
            ([] ++ [Event.exec ⟨none, "pyenv".toList, ["versions".toList]⟩] ++
              [Event.exec ⟨none, "pyenv".toList, ["install".toList, "--list".toList]⟩])
            (localLatestsOf (localVersions out1))).trace hx2 ht2 hu2
        exact ⟨_, a2, ha2, hpre, hp2⟩

/-! ### Runs in which every question is answered no -/

theorem installStep_declined (w : World) (remoteLatests : VersionMap) (tr : List Event)
    (localLatests : VersionMap) (m : Int)
    (hno : ∀ tr1 msg, w.yesNo tr1 msg = Except.ok false) :
    ∃ added, installStep w remoteLatests tr localLatests m =
        ⟨tr ++ added, Except.ok localLatests⟩ ∧ ∀ e ∈ added, e.isAsk = true := by
  rw [installStep_eq]
  cases installOffer remoteLatests localLatests m with
  | none => exact ⟨[], by simp, by simp⟩
  | some rem =>
    refine ⟨[Event.ask (installMsg rem)], ?_, by simp [Event.isAsk]⟩
    simp [askYesNo, Run.bind, hno]

theorem installPass_declined (w : World) (remoteLatests : VersionMap) (order : List Int)
    (tr : List Event) (localLatests : VersionMap)
    (hno : ∀ tr1 msg, w.yesNo tr1 msg = Except.ok false) :
    ∃ added, installPass w remoteLatests order tr localLatests =
        ⟨tr ++ added, Except.ok localLatests⟩ ∧ ∀ e ∈ added, e.isAsk = true := by
  induction order generalizing tr with
  | nil => exact ⟨[], by simp [installPass], by simp⟩
  | cons k rest ih =>
    obtain ⟨a1, h1, hp1⟩ := installStep_declined w remoteLatests tr localLatests k hno
    obtain ⟨a2, h2, hp2⟩ := ih (tr ++ a1)
    refine ⟨a1 ++ a2, ?_, ?_⟩
    · unfold installPass
      rw [h1, Run.bind_ok, h2, List.append_assoc]
    · intro e he
      rcases List.mem_append.1 he with he | he
      · exact hp1 e he
      · exact hp2 e he

theorem envStep_declined (w : World) (localLatests : VersionMap) (tr : List Event)
    (loc : Local) (hno : ∀ tr1 msg, w.yesNo tr1 msg = Except.ok false) :
    ∃ added, envStep w localLatests tr loc = ⟨tr ++ added, Except.ok ()⟩ ∧
      ∀ e ∈ added, e.isAsk = true := by
  rw [envStep_eq]
  cases envOffer localLatests loc with
  | none => exact ⟨[], by simp, by simp⟩
  | some lat =>
    refine ⟨[Event.ask (updateMsg loc lat)], ?_, by simp [Event.isAsk]⟩
    simp [askYesNo, Run.bind, hno]

theorem envPass_declined (w : World) (localLatests : VersionMap) (locals : List Local)
    (tr : List Event) (hno : ∀ tr1 msg, w.yesNo tr1 msg = Except.ok false) :
    ∃ added, envPass w localLatests locals tr = ⟨tr ++ added, Except.ok ()⟩ ∧
      ∀ e ∈ added, e.isAsk = true := by
  induction locals generalizing tr with
  | nil => exact ⟨[], by simp [envPass], by simp⟩
  | cons loc rest ih =>
    obtain ⟨a1, h1, hp1⟩ := envStep_declined w localLatests tr loc hno
    obtain ⟨a2, h2, hp2⟩ := ih (tr ++ a1)
    refine ⟨a1 ++ a2, ?_, ?_⟩
    · unfold envPass
      rw [h1, Run.bind_ok, h2, List.append_assoc]
    · intro e he
      rcases List.mem_append.1 he with he | he
      · exact hp1 e he
      · exact hp2 e he

theorem main_declined (w : World) (iter : RangeOrder) (out1 out2 : Output)
    (h1 : w.run [] pyenvVersions = Except.ok out1)
    (h2 : w.run [Event.exec pyenvVersions] pyenvInstallList = Except.ok out2)
    (hno : ∀ tr msg, w.yesNo tr msg = Except.ok false) :
    ∃ asks, main w iter =
        ⟨[Event.exec pyenvVersions, Event.exec pyenvInstallList] ++ asks, Except.ok ()⟩ ∧
      ∀ e ∈ asks, e.isAsk = true := by
  obtain ⟨a1, e1, hp1⟩ := installPass_declined w (remoteLatestVersions out2)
    (iter.order (localMajors (localVersions out1)))
    [Event.exec pyenvVersions, Event.exec pyenvInstallList]
    (localLatestsOf (localVersions out1)) hno
  obtain ⟨a2, e2, hp2⟩ := envPass_declined w (localLatestsOf (localVersions out1))
    (localVersions out1) ([Event.exec pyenvVersions, Event.exec pyenvInstallList] ++ a1) hno
  refine ⟨a1 ++ a2, ?_, ?_⟩
  · simp only [pyenvVersions, pyenvInstallList] at h1 h2 e1 e2 ⊢
    simp only [main, runLocalVersions, runRemoteLatestVersions, pipe, pipeCmd,
      List.nil_append, h1, Run.bind_ok, List.singleton_append, h2, e1, e2,
      List.append_assoc]
  · intro e he
    rcases List.mem_append.1 he with he | he
    · exact hp1 e he
    · exact hp2 e he

/-! ### The install pass -/

theorem installOffer_set_ne (remoteLatests localLatests : VersionMap) (k m : Int)
    (rem : semantic) (h : m ≠ k) :
    installOffer remoteLatests (localLatests.set k rem) m =
      installOffer remoteLatests localLatests m := by
  simp [installOffer, VersionMap.set, h]

theorem installOffer_remote (remoteLatests localLatests : VersionMap) (m : Int)
    (rem : semantic) (h : installOffer remoteLatests localLatests m = some rem) :
    remoteLatests m = some rem ∧
      ∃ loc, localLatests m = some loc ∧ rem.isNewerThan loc = true := by
  unfold installOffer at h
  cases h1 : localLatests m with
  | none => simp [h1] at h
  | some loc =>
    cases h2 : remoteLatests m with
    | none => simp [h1, h2] at h
    | some r =>
      simp only [h1, h2] at h
      split_ifs at h with hn
      · obtain rfl := Option.some.inj h
        exact ⟨rfl, loc, rfl, hn⟩

theorem installOffer_set_self (remoteLatests localLatests : VersionMap) (k : Int)
    (rem : semantic) (h : installOffer remoteLatests localLatests k = some rem) :
    installOffer remoteLatests (localLatests.set k rem) k = none := by
  obtain ⟨hr, -⟩ := installOffer_remote _ _ _ _ h
  simp [installOffer, VersionMap.set, hr, isNewerThan_self]

theorem installStep_map (w : World) (remoteLatests : VersionMap) (tr : List Event)
    (localLatests m1 : VersionMap) (k : Int)
    (h : (installStep w remoteLatests tr localLatests k).result = Except.ok m1) :
    m1 = localLatests ∨
      ∃ rem, installOffer remoteLatests localLatests k = some rem ∧
        w.yesNo tr (installMsg rem) = Except.ok true ∧ m1 = localLatests.set k rem := by
  rw [installStep_eq] at h
  cases ho : installOffer remoteLatests localLatests k with
  | none =>
    simp only [ho] at h
    exact Or.inl (Except.ok.inj h).symm
  | some rem =>
    simp only [ho, askYesNo, Run.bind] at h
    cases ha : w.yesNo tr (installMsg rem) with
    | error e => simp [ha] at h
    | ok res =>
      cases res with
      | false =>
        simp [ha] at h
        exact Or.inl h.symm
      | true =>
        simp only [ha, if_true] at h
        cases hi : (installVersion w (tr ++ [Event.ask (installMsg rem)]) rem).result with
        | error e => simp [hi] at h
        | ok u =>
          simp only [hi] at h
          exact Or.inr ⟨rem, rfl, ha, (Except.ok.inj h).symm⟩

theorem installStep_declined_map (w : World) (remoteLatests : VersionMap) (tr : List Event)
    (localLatests m1 : VersionMap) (k : Int) (rem : semantic)
    (h : (installStep w remoteLatests tr localLatests k).result = Except.ok m1)
    (ho : installOffer remoteLatests localLatests k = some rem)
    (hn : w.yesNo tr (installMsg rem) ≠ Except.ok true) : m1 = localLatests := by
  rcases installStep_map w remoteLatests tr localLatests m1 k h with h1 | ⟨r, hr, hy, -⟩
  · exact h1
  · rw [ho] at hr
    obtain rfl := Option.some.inj hr
    exact absurd hy hn

theorem installStep_accepted_map (w : World) (remoteLatests : VersionMap) (tr : List Event)
    (localLatests m1 : VersionMap) (k : Int) (rem : semantic)
    (h : (installStep w remoteLatests tr localLatests k).result = Except.ok m1)
    (ho : installOffer remoteLatests localLatests k = some rem)
    (hy : w.yesNo tr (installMsg rem) = Except.ok true) : m1 = localLatests.set k rem := by
  rw [installStep_eq] at h
  simp only [ho, askYesNo, Run.bind, hy, if_true] at h
  cases hi : (installVersion w (tr ++ [Event.ask (installMsg rem)]) rem).result with
  | error e => simp [hi] at h
  | ok u =>
    simp only [hi] at h
    exact (Except.ok.inj h).symm

theorem installPass_cons_result (w : World) (remoteLatests : VersionMap) (k : Int)
    (rest : List Int) (tr : List Event) (localLatests m2 : VersionMap)
    (h : (installPass w remoteLatests (k :: rest) tr localLatests).result = Except.ok m2) :
    ∃ m1, (installStep w remoteLatests tr localLatests k).result = Except.ok m1 ∧
      (installPass w remoteLatests rest
        (installStep w remoteLatests tr localLatests k).trace m1).result = Except.ok m2 := by
  unfold installPass at h
  unfold Run.bind at h
  cases hs : (installStep w remoteLatests tr localLatests k).result with
  | error e => simp [hs] at h
  | ok m1 =>
    simp only [hs] at h
    exact ⟨m1, rfl, h⟩

theorem installPass_upgraded (w : World) (remoteLatests : VersionMap)
    (hask : ∀ tr1 tr2 msg, w.yesNo tr1 msg = w.yesNo tr2 msg) (order : List Int)
    (hnd : order.Nodup) (tr : List Event) (localLatests m2 : VersionMap)
    (h : (installPass w remoteLatests order tr localLatests).result = Except.ok m2) :
    m2 = upgraded remoteLatests localLatests
      (fun msg => decide (w.yesNo [] msg = Except.ok true)) order := by
  induction order generalizing tr localLatests with
  | nil =>
    simp only [installPass] at h
    obtain rfl := Except.ok.inj h
    funext m
    cases ho : installOffer remoteLatests localLatests m <;> simp [upgraded, ho]
  | cons k rest ih =>
    obtain ⟨hk, hrest⟩ := List.nodup_cons.1 hnd
    obtain ⟨m1, hs, hp⟩ := installPass_cons_result w remoteLatests k rest tr localLatests m2 h
    have hm2 := ih hrest _ m1 hp
    rw [hm2]
    funext m
    by_cases hmk : m = k
    · subst hmk
      cases ho : installOffer remoteLatests localLatests m with
      | none =>
        rcases installStep_map w remoteLatests tr localLatests m1 m hs with h1 | ⟨r, hr, -, -⟩
        · subst h1
          simp [upgraded, ho]
        · rw [ho] at hr
          exact absurd hr (by simp)
      | some rem =>
        by_cases hy : w.yesNo tr (installMsg rem) = Except.ok true
        · have h1 := installStep_accepted_map w remoteLatests tr localLatests m1 m rem hs ho hy
          subst h1
          have hy0 : w.yesNo [] (installMsg rem) = Except.ok true := by
            rw [hask [] tr]; exact hy
          simp [upgraded, ho, installOffer_set_self _ _ _ _ ho, hy0, VersionMap.set]
        · have h1 := installStep_declined_map w remoteLatests tr localLatests m1 m rem hs ho hy
          subst h1
          have hy0 : ¬ w.yesNo [] (installMsg rem) = Except.ok true := by
            rw [hask [] tr]; exact hy
          simp [upgraded, ho, hk, hy0]
    · have hoff : installOffer remoteLatests m1 m = installOffer remoteLatests localLatests m := by
        rcases installStep_map w remoteLatests tr localLatests m1 k hs with h1 | ⟨r, -, -, h1⟩
        · rw [h1]
        · rw [h1, installOffer_set_ne _ _ _ _ _ hmk]
      have hval : m1 m = localLatests m := by
        rcases installStep_map w remoteLatests tr localLatests m1 k hs with h1 | ⟨r, -, -, h1⟩
        · rw [h1]
        · rw [h1]; simp [VersionMap.set, hmk]
      simp only [upgraded, hoff, hval, List.mem_cons, hmk, false_or]

theorem upgraded_perm (remoteLatests localLatests : VersionMap) (yes : List Char → Bool)
    (o1 o2 : List Int) (h : o1.Perm o2) :
    upgraded remoteLatests localLatests yes o1 = upgraded remoteLatests localLatests yes o2 := by
  funext m
  simp only [upgraded, h.mem_iff]

/-! ### The questions and commands of each step -/

theorem asksOf_append (a b : List Event) : asksOf (a ++ b) = asksOf a ++ asksOf b := by
  simp [asksOf, List.filterMap_append]

theorem asksOf_of_not_ask (a : List Event) (h : ∀ e ∈ a, e.isAsk = false) : asksOf a = [] := by
  induction a with
  | nil => rfl
  | cons e rest ih =>
    have he := h e (List.mem_cons_self _ _)
    have hr := ih (fun x hx => h x (List.mem_cons_of_mem _ hx))
    cases e with
    | ask msg => simp [Event.isAsk] at he
    | exec cmd => simpa [asksOf] using hr
    | tempFile body => simpa [asksOf] using hr

theorem installVersion_events {P : Event → Prop} (w : World) (tr : List Event)
    (ver : semantic) (h1 : P (Event.exec (pyenvInstall ver)))
    (h2 : P (Event.exec (pipUpgrade ver))) :
    Extends P tr (installVersion w tr ver).trace := by
  unfold installVersion pipe pipeInVer
  refine Run.bind_extends _ _ (pipeCmd_extends w tr _ h1) fun _ => ?_
  refine Run.bind_extends _ _ (pipeCmd_extends w _ _ h2) fun _ => ?_
  exact extends_refl _ _

theorem updateVersion_events {P : Event → Prop} (w : World) (tr : List Event)
    (loc : Local) (ver : semantic) (h1 : P (Event.exec (pipFreeze loc)))
    (h2 : ∀ body, P (Event.tempFile body)) (h3 : P (Event.exec (pyenvUninstall loc)))
    (h4 : P (Event.exec (pyenvVirtualenv loc ver)))
    (h5 : ∀ tmp, P (Event.exec (pipInstall loc tmp))) :
    Extends P tr (updateVersion w tr loc ver).trace := by
  unfold updateVersion pipeInVer
  refine Run.bind_extends _ _ (pipeCmd_extends w tr _ h1) fun _ => ?_
  refine Run.bind_extends _ _ (extends_snoc _ (h2 _)) fun tmp => ?_
  refine Run.bind_extends _ _ (pipeCmd_extends w _ _ h3) fun _ => ?_
  refine Run.bind_extends _ _ (pipeCmd_extends w _ _ h4) fun _ => ?_
  refine Run.bind_extends _ _ (pipeCmd_extends w _ _ (h5 tmp)) fun _ => ?_
  exact extends_refl _ _

theorem installStep_events (w : World) (remoteLatests : VersionMap) (tr : List Event)
    (localLatests : VersionMap) (k : Int) :
    (installOffer remoteLatests localLatests k = none ∧
      (installStep w remoteLatests tr localLatests k).trace = tr) ∨
    ∃ rem rest, installOffer remoteLatests localLatests k = some rem ∧
      (installStep w remoteLatests tr localLatests k).trace =
        tr ++ Event.ask (installMsg rem) :: rest ∧
      ∀ e ∈ rest, e = Event.exec (pyenvInstall rem) ∨ e = Event.exec (pipUpgrade rem) := by
  rw [installStep_eq]
  cases ho : installOffer remoteLatests localLatests k with
  | none => exact Or.inl ⟨rfl, rfl⟩
  | some rem =>
    refine Or.inr ⟨rem, ?_⟩
    simp only [askYesNo, Run.bind]
    cases w.yesNo tr (installMsg rem) with
    | error e => exact ⟨[], trivial, rfl, by simp⟩
    | ok res =>
      cases res with
      | false => exact ⟨[], trivial, rfl, by simp⟩
      | true =>
        obtain ⟨a, ha, hp⟩ := installVersion_events
          (P := fun e => e = Event.exec (pyenvInstall rem) ∨ e = Event.exec (pipUpgrade rem))
          w (tr ++ [Event.ask (installMsg rem)]) rem (Or.inl rfl) (Or.inr rfl)
        refine ⟨a, trivial, ?_, hp⟩
        simp only [if_true]
        cases hr : (installVersion w (tr ++ [Event.ask (installMsg rem)]) rem).result with
        | error e => simp only [hr]; rw [ha]; simp
        | ok u => simp only [hr]; rw [ha]; simp

theorem envStep_events (w : World) (localLatests : VersionMap) (tr : List Event)
    (loc : Local) :
    (envOffer localLatests loc = none ∧ (envStep w localLatests tr loc).trace = tr) ∨
    ∃ lat rest, envOffer localLatests loc = some lat ∧
      (envStep w localLatests tr loc).trace = tr ++ Event.ask (updateMsg loc lat) :: rest ∧
      ∀ e ∈ rest, (∃ body, e = Event.tempFile body) ∨ e = Event.exec (pipFreeze loc) ∨
        e = Event.exec (pyenvUninstall loc) ∨ e = Event.exec (pyenvVirtualenv loc lat) ∨
        ∃ tmp, e = Event.exec (pipInstall loc tmp) := by
  rw [envStep_eq]
  cases ho : envOffer localLatests loc with
  | none => exact Or.inl ⟨rfl, rfl⟩
  | some lat =>
    refine Or.inr ⟨lat, ?_⟩
    simp only [askYesNo, Run.bind]
    cases w.yesNo tr (updateMsg loc lat) with
    | error e => exact ⟨[], trivial, rfl, by simp⟩
    | ok res =>
      cases res with
      | false => exact ⟨[], trivial, rfl, by simp⟩
      | true =>
        obtain ⟨a, ha, hp⟩ := updateVersion_events
          (P := fun e => (∃ body, e = Event.tempFile body) ∨ e = Event.exec (pipFreeze loc) ∨
            e = Event.exec (pyenvUninstall loc) ∨ e = Event.exec (pyenvVirtualenv loc lat) ∨
            ∃ tmp, e = Event.exec (pipInstall loc tmp))
          w (tr ++ [Event.ask (updateMsg loc lat)]) loc lat (Or.inr (Or.inl rfl))
          (fun body => Or.inl ⟨body, rfl⟩) (Or.inr (Or.inr (Or.inl rfl)))
          (Or.inr (Or.inr (Or.inr (Or.inl rfl))))
          (fun tmp => Or.inr (Or.inr (Or.inr (Or.inr ⟨tmp, rfl⟩))))
        refine ⟨a, trivial, ?_, hp⟩
        simp only [if_true]
        rw [ha]
        simp

theorem envOffer_some (localLatests : VersionMap) (loc : Local) (lat : semantic)
    (h : envOffer localLatests loc = some lat) :
    loc.environ ≠ [] ∧ localLatests loc.version.major = some lat ∧
      lat.isNewerThan loc.version = true := by
  unfold envOffer at h
  split_ifs at h with he
  cases hl : localLatests loc.version.major with
  | none => simp [hl] at h
  | some l =>
    simp only [hl] at h
    split_ifs at h with hn
    obtain rfl := Option.some.inj h
    exact ⟨he, rfl, hn⟩

theorem installPass_asks (w : World) (remoteLatests : VersionMap) (order : List Int)
    (hnd : order.Nodup) (tr : List Event) (localLatests : VersionMap) :
    ∃ visited added, visited <+: order ∧
      (installPass w remoteLatests order tr localLatests).trace = tr ++ added ∧
      asksOf added =
        (visited.filterMap (installOffer remoteLatests localLatests)).map installMsg ∧
      ∀ m2, (installPass w remoteLatests order tr localLatests).result = Except.ok m2 →
        visited = order := by
  induction order generalizing tr localLatests with
  | nil => exact ⟨[], [], List.prefix_refl _, by simp [installPass], rfl, fun _ _ => rfl⟩
  | cons k rest ih =>
    obtain ⟨hk, hrest⟩ := List.nodup_cons.1 hnd
    have hstep : ∃ a1, (installStep w remoteLatests tr localLatests k).trace = tr ++ a1 ∧
        asksOf a1 = ([k].filterMap (installOffer remoteLatests localLatests)).map installMsg := by
      rcases installStep_events w remoteLatests tr localLatests k with ⟨ho, ht⟩ |
        ⟨rem, a, ho, ht, hp⟩
      · exact ⟨[], by simp [ht], by simp [List.filterMap_cons, ho, asksOf]⟩
      · refine ⟨Event.ask (installMsg rem) :: a, ht, ?_⟩
        have ha : asksOf a = [] := by
          apply asksOf_of_not_ask
          intro e he
          rcases hp e he with rfl | rfl <;> rfl
        have hc : asksOf (Event.ask (installMsg rem) :: a) = installMsg rem :: asksOf a := by
          simp [asksOf]
        rw [hc, ha]
        simp [List.filterMap_cons, ho]
    obtain ⟨a1, ht1, hq1⟩ := hstep
    cases hs : (installStep w remoteLatests tr localLatests k).result with
    | error e =>
      refine ⟨[k], a1, ⟨rest, rfl⟩, ?_, hq1, ?_⟩
      · simp only [installPass, Run.bind, hs, ht1]
      · intro m2 h2
        simp [installPass, Run.bind, hs] at h2
    | ok m1 =>
      obtain ⟨visited, a2, hpre, ht2, hq2, hall⟩ :=
        ih hrest (installStep w remoteLatests tr localLatests k).trace m1
      have hoff : ∀ m ∈ visited, installOffer remoteLatests m1 m =
          installOffer remoteLatests localLatests m := by
        intro m hm
        have hmk : m ≠ k := by
          rintro rfl
          exact hk (hpre.subset hm)
        rcases installStep_map w remoteLatests tr localLatests m1 k hs with h1 | ⟨r, -, -, h1⟩
        · rw [h1]
        · rw [h1, installOffer_set_ne _ _ _ _ _ hmk]
      refine ⟨k :: visited, a1 ++ a2, ?_, ?_, ?_, ?_⟩
      · obtain ⟨t, ht⟩ := hpre
        exact ⟨t, by simp [ht]⟩
      · simp only [installPass, Run.bind, hs]
        rw [ht2, ht1, List.append_assoc]
      · rw [asksOf_append, hq1, hq2, List.filterMap_congr hoff]
        simp [List.filterMap_cons]
        cases installOffer remoteLatests localLatests k <;> simp
      · intro m2 h2
        simp only [installPass, Run.bind, hs] at h2
        rw [hall m2 h2]

/-! ### Versions stay under their own major -/

theorem wellKeyed_remoteLoop (lines : List (List Char)) :
    WellKeyed (remoteLatestVersionsLoop lines) := by
  rw [remoteLatestVersions_eq]
  exact wellKeyed_foldl_keepNewest _

theorem wellKeyed_remote (text : List Char) : WellKeyed (remoteLatestVersions text) :=
  wellKeyed_remoteLoop (scanLines text)

theorem wellKeyed_localLatests (locals : List Local) : WellKeyed (localLatestsOf locals) := by
  rw [localLatestsOf_eq]
  exact wellKeyed_foldl_keepNewest _

theorem wellKeyed_set (m : VersionMap) (k : Int) (v : semantic) (hm : WellKeyed m)
    (hv : v.major = k) : WellKeyed (m.set k v) := by
  intro j u hu
  unfold VersionMap.set at hu
  split_ifs at hu with hj
  · obtain rfl := Option.some.inj hu
    rw [hj]; exact hv
  · exact hm j u hu

theorem installStep_wellKeyed (w : World) (remoteLatests : VersionMap) (tr : List Event)
    (localLatests m1 : VersionMap) (k : Int) (hr : WellKeyed remoteLatests)
    (hl : WellKeyed localLatests)
    (h : (installStep w remoteLatests tr localLatests k).result = Except.ok m1) :
    WellKeyed m1 := by
  rcases installStep_map w remoteLatests tr localLatests m1 k h with h1 | ⟨rem, ho, -, h1⟩
  · rw [h1]; exact hl
  · rw [h1]
    exact wellKeyed_set _ _ _ hl (hr k rem (installOffer_remote _ _ _ _ ho).1)

theorem installPass_wellKeyed (w : World) (remoteLatests : VersionMap) (order : List Int)
    (tr : List Event) (localLatests m2 : VersionMap) (hr : WellKeyed remoteLatests)
    (hl : WellKeyed localLatests)
    (h : (installPass w remoteLatests order tr localLatests).result = Except.ok m2) :
    WellKeyed m2 := by
  induction order generalizing tr localLatests with
  | nil =>
    simp only [installPass] at h
    obtain rfl := Except.ok.inj h
    exact hl
  | cons k rest ih =>
    obtain ⟨m1, hs, hp⟩ := installPass_cons_result w remoteLatests k rest tr localLatests m2 h
    exact ih _ m1 (installStep_wellKeyed w remoteLatests tr localLatests m1 k hr hl hs) hp

/-! ### The keys that the install pass visits -/

theorem localMajors_keys (locals : List Local) :
    (localMajors locals).Nodup ∧
      ∀ m, m ∈ localMajors locals ↔ (localLatestsOf locals m).isSome = true := by
  refine ⟨List.nodup_dedup _, fun m => ?_⟩
  rw [localLatestsOf_eq, (foldl_keepNewest _ m).1]
  simp only [localMajors, List.mem_dedup, List.mem_map]
  constructor
  · rintro ⟨loc, hloc, rfl⟩
    exact ⟨loc.version, ⟨loc, hloc, rfl⟩, rfl⟩
  · rintro ⟨v, ⟨loc, hloc, rfl⟩, hm⟩
    exact ⟨loc, hloc, hm⟩

/-! ### The scanner -/

theorem splitLines_line (l rest : List Char) (hl : '\n' ∉ l) :
    splitLines (l ++ '\n' :: rest) = l :: splitLines rest := by
  induction l with
  | nil => simp [splitLines]
  | cons c t ih =>
    have hc : c ≠ '\n' := fun h => hl (by simp [h])
    have ht : '\n' ∉ t := fun h => hl (by simp [h])
    rw [List.cons_append, splitLines, if_neg hc, ih ht]

theorem scanLines_line (l rest : List Char) (hl : '\n' ∉ l)
    (hs : byteLength l < maxScanTokenSize) :
    scanLines (l ++ '\n' :: rest) = dropCR l :: scanLines rest := by
  unfold scanLines
  rw [splitLines_line l rest hl, List.takeWhile_cons, if_pos (decide_eq_true hs), List.map_cons]

theorem scanLines_tooLong (l rest : List Char) (hl : '\n' ∉ l)
    (hs : maxScanTokenSize ≤ byteLength l) :
    scanLines (l ++ '\n' :: rest) = [] := by
  unfold scanLines
  rw [splitLines_line l rest hl, List.takeWhile_cons,
    if_neg (by rw [decide_eq_true_eq]; exact Nat.not_lt.2 hs)]
  rfl

theorem scanLines_short (text : List Char)
    (h : ∀ l ∈ splitLines text, byteLength l < maxScanTokenSize) :
    scanLines text = (splitLines text).map dropCR := by
  unfold scanLines
  rw [List.takeWhile_eq_self_iff.2 (fun l hl => decide_eq_true (h l hl))]

theorem mem_takeWhile_holds {α : Type} (p : α → Bool) (a : α) :
    ∀ l : List α, a ∈ l.takeWhile p → p a = true := by
  intro l
  induction l with
  | nil => intro h; simp at h
  | cons b t ih =>
    intro h
    rw [List.takeWhile_cons] at h
    cases hb : p b with
    | false => rw [hb] at h; simp at h
    | true =>
      rw [hb] at h
      simp only [if_true, List.mem_cons] at h
      rcases h with rfl | h
      · exact hb
      · exact ih h

theorem byteLength_replicate (n : Nat) (c : Char) :
    byteLength (List.replicate n c) = n * c.utf8Size := by
  unfold byteLength
  rw [List.map_replicate, List.sum_replicate, smul_eq_mul]

theorem longLine_no_newline : '\n' ∉ longLine := by
  unfold longLine
  rw [List.mem_replicate]
  rintro ⟨-, h⟩
  exact absurd h (by decide)

theorem longLine_tooLong : maxScanTokenSize ≤ byteLength longLine := by
  unfold longLine
  rw [byteLength_replicate]
  decide

theorem longLine_cons : longLine = 'x' :: List.replicate 69999 'x' :=
  List.replicate_succ 'x' 69999

/-! ### Lines that cannot match by their first character -/

theorem remoteLine_none_of_head (c : Char) (t : List Char) (hs : isSpace c = false)
    (hd : isDigit c = false) : remoteLine (c :: t) = none := by
  cases h : remoteLine (c :: t) with
  | none => rfl
  | some v =>
    obtain ⟨ws, maj, min, pat, text, hws, hv, heq, -⟩ := (remoteLine_some_iff _ _).1 h
    exfalso
    cases ws with
    | cons a ws1 =>
      rw [List.cons_append] at heq
      have ha : c = a := List.head_eq_of_cons_eq heq
      have := hws a (by simp)
      rw [← ha, hs] at this
      exact Bool.noConfusion this
    | nil =>
      rw [List.nil_append] at heq
      obtain ⟨⟨hne, hdig⟩, hshape⟩ := hv
      cases maj with
      | nil => exact hne rfl
      | cons d m =>
        have hd1 := hdig d (by simp)
        have htext : ∃ u, text = d :: u := by
          rcases hshape with ⟨-, -, h1⟩ | ⟨-, -, h1⟩ | ⟨-, -, h1⟩
          · exact ⟨_, h1⟩
          · exact ⟨_, h1⟩
          · exact ⟨_, by rw [h1]; rfl⟩
        obtain ⟨u, hu⟩ := htext
        rw [hu] at heq
        have hcd : c = d := List.head_eq_of_cons_eq heq
        rw [← hcd, hd] at hd1
        exact Bool.noConfusion hd1

theorem localLine_none_of_head (c : Char) (t : List Char) (hm : isMarker c = false) :
    localLine (c :: t) = none := by
  rw [localLine_none_iff]
  rcases localMatch_cases (c :: t) with h | ⟨marker, maj, min, pat, name, hl, -⟩
  · exact h
  · obtain ⟨text, envs, note, hmk, -, -, -, heq⟩ := hl
    have hcm : c = marker := List.head_eq_of_cons_eq heq
    rw [← hcm, hm] at hmk
    exact Bool.noConfusion hmk

theorem remoteLine_longLine : remoteLine longLine = none := by
  rw [longLine_cons]
  exact remoteLine_none_of_head 'x' _ (by decide) (by decide)

theorem localLine_longLine : localLine longLine = none := by
  rw [longLine_cons]
  exact localLine_none_of_head 'x' _ (by decide)

theorem splitLines_catalogWithLongLine :
    splitLines catalogWithLongLine = ["3.9.1".toList, longLine, "3.9.2".toList] := by
  unfold catalogWithLongLine
  rw [splitLines_line _ _ (by decide), splitLines_line _ _ longLine_no_newline]
  have h : splitLines "3.9.2\n".toList = ["3.9.2".toList] := by decide
  rw [h]

theorem scanLines_catalogWithLongLine :
    scanLines catalogWithLongLine = ["3.9.1".toList] := by
  unfold catalogWithLongLine
  rw [scanLines_line _ _ (by decide) (by decide),
    scanLines_tooLong _ _ longLine_no_newline longLine_tooLong]
  have h : dropCR "3.9.1".toList = "3.9.1".toList := by decide
  rw [h]

theorem splitLines_listingWithLongLine :
    splitLines listingWithLongLine = ["* 3.9.1".toList, longLine, "  3.8.0".toList] := by
  unfold listingWithLongLine
  rw [splitLines_line _ _ (by decide), splitLines_line _ _ longLine_no_newline]
  have h : splitLines "  3.8.0\n".toList = ["  3.8.0".toList] := by decide
  rw [h]

theorem scanLines_listingWithLongLine :
    scanLines listingWithLongLine = ["* 3.9.1".toList] := by
  unfold listingWithLongLine
  rw [scanLines_line _ _ (by decide) (by decide),
    scanLines_tooLong _ _ longLine_no_newline longLine_tooLong]
  have h : dropCR "* 3.9.1".toList = "* 3.9.1".toList := by decide
  rw [h]

/-! ### Lines that do not match, in a text -/

theorem scan_filter_insert {α β : Type} (p : α → Bool) (f : α → β) (q : β → Bool)
    (pre junk post : List α) (h : ∀ l ∈ junk, p l = true ∧ q (f l) = false) :
    (((pre ++ junk ++ post).takeWhile p).map f).filter q =
      (((pre ++ post).takeWhile p).map f).filter q := by
  induction pre with
  | cons a pre1 ih =>
    simp only [List.cons_append, List.takeWhile_cons]
    cases p a with
    | true => simp only [if_true, List.map_cons, List.filter_cons]; rw [ih]
    | false => rfl
  | nil =>
    simp only [List.nil_append]
    induction junk with
    | nil => rfl
    | cons j js ih =>
      have hj := h j (by simp)
      rw [List.cons_append, List.takeWhile_cons_of_pos hj.1, List.map_cons,
        List.filter_cons_of_neg (by simp [hj.2])]
      exact ih (fun l hl => h l (by simp [hl]))

theorem takeWhile_split {α : Type} (p : α → Bool) (l : List α) :
    ∃ rest, l = l.takeWhile p ++ rest ∧ ∀ a, rest.head? = some a → p a = false := by
  induction l with
  | nil => exact ⟨[], rfl, fun a h => by simp at h⟩
  | cons b t ih =>
    cases hb : p b with
    | false =>
      refine ⟨b :: t, by rw [List.takeWhile_cons, hb]; rfl, ?_⟩
      intro a ha
      rw [List.head?_cons] at ha
      rw [← Option.some.inj ha]
      exact hb
    | true =>
      obtain ⟨rest, h1, h2⟩ := ih
      refine ⟨rest, ?_, h2⟩
      rw [List.takeWhile_cons, hb, if_pos rfl, List.cons_append, ← h1]

theorem scanLines_spec (text : List Char) :
    ∃ read rest, splitLines text = read ++ rest ∧ scanLines text = read.map dropCR ∧
      (∀ l ∈ read, byteLength l < maxScanTokenSize) ∧
      ∀ l, rest.head? = some l → maxScanTokenSize ≤ byteLength l := by
  obtain ⟨rest, h1, h2⟩ := takeWhile_split
    (fun l => decide (byteLength l < maxScanTokenSize)) (splitLines text)
  refine ⟨_, rest, h1, rfl, ?_, ?_⟩
  · intro l hl
    exact of_decide_eq_true (mem_takeWhile_holds _ l _ hl)
  · intro l hl
    have := h2 l hl
    exact Nat.not_lt.1 (of_decide_eq_false this)

theorem remoteLatestVersions_insert (text1 text2 : List Char) (pre junk post : List (List Char))
    (h1 : splitLines text1 = pre ++ post) (h2 : splitLines text2 = pre ++ junk ++ post)
    (h : ∀ l ∈ junk, byteLength l < maxScanTokenSize ∧ remoteLine (dropCR l) = none) :
    remoteLatestVersions text2 = remoteLatestVersions text1 := by
  unfold remoteLatestVersions remoteLatestVersionsLoop scanLines
  rw [foldl_remoteStep_filter, foldl_remoteStep_filter (List.map dropCR _), h1, h2,
    scan_filter_insert _ _ _ pre junk post
      (fun l hl => ⟨decide_eq_true (h l hl).1, by rw [(h l hl).2]; rfl⟩)]

theorem localVersions_insert (text1 text2 : List Char) (pre junk post : List (List Char))
    (h1 : splitLines text1 = pre ++ post) (h2 : splitLines text2 = pre ++ junk ++ post)
    (h : ∀ l ∈ junk, byteLength l < maxScanTokenSize ∧ localLine (dropCR l) = none) :
    localVersions text2 = localVersions text1 := by
  unfold localVersions localVersionsLoop scanLines
  rw [foldl_localStep_filter, foldl_localStep_filter (List.map dropCR _), h1, h2,
    scan_filter_insert _ _ _ pre junk post
      (fun l hl => ⟨decide_eq_true (h l hl).1, by rw [(h l hl).2]; rfl⟩)]

theorem remoteLatestVersionsLoop_skip (pre junk : List (List Char)) (l : List Char)
    (h : ∀ j ∈ junk, remoteLine j = none) :
    remoteLatestVersionsLoop (pre ++ junk ++ [l]) =
      remoteStep (remoteLatestVersionsLoop pre) l := by
  unfold remoteLatestVersionsLoop
  rw [foldl_remoteStep_filter, filter_insert _ pre junk [l] (fun j hj => by rw [h j hj]; rfl),
    ← foldl_remoteStep_filter, List.foldl_append]
  rfl

theorem localVersionsLoop_skip (pre junk : List (List Char)) (l : List Char)
    (h : ∀ j ∈ junk, localLine j = none) :
    localVersionsLoop (pre ++ junk ++ [l]) = localVersionsLoop (pre ++ [l]) := by
  unfold localVersionsLoop
  rw [foldl_localStep_filter, filter_insert _ pre junk [l] (fun j hj => by rw [h j hj]; rfl),
    ← foldl_localStep_filter]

/-! ### The order of the install pass -/

theorem rangeOrder_nodup (iter : RangeOrder) (locals : List Local) :
    (iter.order (localMajors locals)).Nodup :=
  (iter.perm (localMajors locals)).nodup_iff.2 (localMajors_keys locals).1

theorem rangeOrder_count (iter : RangeOrder) (locals : List Local) (m : Int) :
    (iter.order (localMajors locals)).count m =
      if (localLatestsOf locals m).isSome = true then 1 else 0 := by
  rw [(iter.perm (localMajors locals)).count_eq, List.count_eq_of_nodup (localMajors_keys locals).1]
  by_cases h : m ∈ localMajors locals
  · rw [if_pos h, if_pos (((localMajors_keys locals).2 m).1 h)]
  · rw [if_neg h, if_neg (fun h1 => h (((localMajors_keys locals).2 m).2 h1))]

theorem rangeOrder_complete (keys order : List Int) (h : order.Perm keys) :
    ∃ iter : RangeOrder, iter.order keys = order := by
  classical
  refine ⟨⟨fun ks => if order.Perm ks then order else ks, ?_⟩, ?_⟩
  · intro ks
    by_cases hk : order.Perm ks
    · simp only [if_pos hk]; exact hk
    · simp only [if_neg hk]; exact List.Perm.refl _
  · simp only [if_pos h]

theorem main_installPass (w : World) (iter : RangeOrder) (out1 out2 : Output)
    (h1 : w.run [] pyenvVersions = Except.ok out1)
    (h2 : w.run [Event.exec pyenvVersions] pyenvInstallList = Except.ok out2) :
    main w iter =
      (installPass w (remoteLatestVersions out2) (iter.order (localMajors (localVersions out1)))
        [Event.exec pyenvVersions, Event.exec pyenvInstallList]
        (localLatestsOf (localVersions out1))).bind fun tr3 localLatests =>
      envPass w localLatests (localVersions out1) tr3 := by
  simp only [pyenvVersions, pyenvInstallList] at h1 h2 ⊢
  simp only [main, runLocalVersions, runRemoteLatestVersions, pipe, pipeCmd,
    List.nil_append, h1, Run.bind_ok, List.singleton_append, h2]

/-! ### Properties of the specification -/

/-- C1: `a.isNewerThan b` holds exactly when the triple of `a` is strictly
greater than the triple of `b` in lexicographic order (major first, then
minor, then patch). -/
theorem isNewerThan_iff_lex (a b : semantic) :
    a.isNewerThan b = true ↔ b.triple < a.triple := by
  simp only [semantic.isNewerThan, semantic.triple, Prod.Lex.lt_iff, ofLex_toLex]
  split_ifs <;> simp <;> omega

/-- C2: `isNewerThan` is a strict order: it is irreflexive and transitive. -/
theorem isNewerThan_strict_order :
    (∀ a : semantic, a.isNewerThan a = false) ∧
    (∀ a b c : semantic, a.isNewerThan b = true → b.isNewerThan c = true →
      a.isNewerThan c = true) := by
  refine ⟨fun a => ?_, fun a b c hab hbc => ?_⟩
  · simp [semantic.isNewerThan]
  · simp only [semantic.isNewerThan] at *
    split_ifs at * <;> simp_all <;> omega


/-- C3 (as stated, it fails): the strings `3.0`, `3.9.0`, `03` and
`9223372036854775808` are well-formed version strings, and parsing them with
the line rule of the catalog parser and rendering the result with `String()`
gives `3`, `3.9`, `3` and `9223372036854775807`. -/
theorem renderParsed_not_identity :
    (VersionText "3".toList "0".toList [] "3.0".toList ∧
      renderParsed "3.0".toList = some "3".toList ∧
      renderParsed "3.0".toList ≠ some "3.0".toList) ∧
    (VersionText "3".toList "9".toList "0".toList "3.9.0".toList ∧
      renderParsed "3.9.0".toList = some "3.9".toList) ∧
    (VersionText "03".toList [] [] "03".toList ∧
      renderParsed "03".toList = some "3".toList) ∧
    (VersionText "9223372036854775808".toList [] [] "9223372036854775808".toList ∧
      renderParsed "9223372036854775808".toList = some "9223372036854775807".toList) := by
  decide

/-- C3 (amended): for version strings `major`, `major.minor` and
`major.minor.patch` whose parts are decimal numerals in standard notation (no
superfluous leading zero, value below 2^63) and whose last part, when there is
more than one part, is not `0`, parsing with the line rule of the catalog
parser and rendering with `String()` gives the string back. -/
theorem renderParsed_standard (maj min pat : List Char) (hmaj : IsStandardNumeral maj) :
    renderParsed maj = some maj ∧
    (IsStandardNumeral min → min ≠ ['0'] →
      renderParsed (maj ++ '.' :: min) = some (maj ++ '.' :: min)) ∧
    (IsStandardNumeral min → IsStandardNumeral pat → pat ≠ ['0'] →
      renderParsed (maj ++ '.' :: min ++ '.' :: pat) = some (maj ++ '.' :: min ++ '.' :: pat)) := by
  obtain ⟨-, ha, -⟩ := partValue_standard maj hmaj
  have hnil : ∀ c ∈ ([] : List Char), isSpace c = true := by simp
  refine ⟨?_, ?_, ?_⟩
  · have h := remoteLine_of_shape [] maj [] [] maj hnil ⟨hmaj.1, Or.inl ⟨rfl, rfl, rfl⟩⟩
    rw [List.nil_append] at h
    simp [renderParsed, h, versionOfParts, semantic.String, partValue_nil, ha]
  · intro hmin hne
    obtain ⟨-, hb, hbpos⟩ := partValue_standard min hmin
    have h := remoteLine_of_shape [] maj min [] _ hnil
      ⟨hmaj.1, Or.inr (Or.inl ⟨hmin.1, rfl, rfl⟩)⟩
    rw [List.nil_append] at h
    simp [renderParsed, h, versionOfParts, semantic.String, partValue_nil, ha, hb, hbpos hne]
  · intro hmin hpat hne
    obtain ⟨-, hb, -⟩ := partValue_standard min hmin
    obtain ⟨-, hc, hcpos⟩ := partValue_standard pat hpat
    have h := remoteLine_of_shape [] maj min pat _ hnil
      ⟨hmaj.1, Or.inr (Or.inr ⟨hmin.1, hpat.1, rfl⟩)⟩
    simp only [List.nil_append, List.append_assoc, List.cons_append] at h
    simp [renderParsed, h, versionOfParts, semantic.String, ha, hb, hc, hcpos hne]

/-- Witness of C3 (amended) at the strings `3`, `3.9` and `3.9.1`. -/
theorem renderParsed_standard_witness :
    (IsStandardNumeral "3".toList ∧ IsStandardNumeral "9".toList ∧
      IsStandardNumeral "1".toList) ∧
    renderParsed "3".toList = some "3".toList ∧
    renderParsed "3.9".toList = some "3.9".toList ∧
    renderParsed "3.9.1".toList = some "3.9.1".toList :=
  have h := renderParsed_standard "3".toList "9".toList "1".toList (by decide)
  ⟨by decide, h.1, h.2.1 (by decide) (by decide), h.2.2 (by decide) (by decide) (by decide)⟩

/-- C4: for a version with non-negative fields, `String()` is the decimal
numeral of major alone when minor and patch are zero, `major.minor` when patch
is zero and minor is not, and `major.minor.patch` in every other case. -/
theorem String_canonical (v : semantic) (h1 : 0 ≤ v.major) (h2 : 0 ≤ v.minor)
    (h3 : 0 ≤ v.patch) :
    (v.minor = 0 ∧ v.patch = 0 → v.String = Nat.toDigits 10 v.major.toNat) ∧
    (v.minor ≠ 0 ∧ v.patch = 0 →
      v.String = Nat.toDigits 10 v.major.toNat ++ '.' :: Nat.toDigits 10 v.minor.toNat) ∧
    (v.patch ≠ 0 →
      v.String = Nat.toDigits 10 v.major.toNat ++ '.' :: Nat.toDigits 10 v.minor.toNat ++
        '.' :: Nat.toDigits 10 v.patch.toNat) := by
  rw [← fmtInt_nonneg _ h1, ← fmtInt_nonneg _ h2, ← fmtInt_nonneg _ h3]
  refine ⟨?_, ?_, ?_⟩
  · rintro ⟨hm, hp⟩
    simp [semantic.String, hm, hp]
  · rintro ⟨hm, hp⟩
    have : 0 < v.minor := lt_of_le_of_ne h2 (Ne.symm hm)
    simp [semantic.String, hp, this]
  · intro hp
    have : 0 < v.patch := lt_of_le_of_ne h3 (Ne.symm hp)
    simp [semantic.String, this]

/-- Witness of C4 at the versions 3.0.0, 3.9.0 and 3.0.1. -/
theorem String_canonical_witness :
    semantic.String ⟨3, 0, 0⟩ = "3".toList ∧ semantic.String ⟨3, 9, 0⟩ = "3.9".toList ∧
    semantic.String ⟨3, 0, 1⟩ = "3.0.1".toList :=
  ⟨(String_canonical ⟨3, 0, 0⟩ (by decide) (by decide) (by decide)).1 ⟨rfl, rfl⟩,
   (String_canonical ⟨3, 9, 0⟩ (by decide) (by decide) (by decide)).2.1 ⟨by decide, rfl⟩,
   (String_canonical ⟨3, 0, 1⟩ (by decide) (by decide) (by decide)).2.2 (by decide)⟩

/-- C5: a line of the installable catalog gives a version exactly when it is
optional leading whitespace followed by `major`, `major.minor` or
`major.minor.patch` and nothing else, and the version it gives is the one its
parts stand for, an absent part counting as 0; every other line leaves the map
as it is. -/
theorem remoteLine_iff_catalogLine :
    (∀ line v, remoteLine line = some v ↔
      ∃ ws maj min pat text, (∀ c ∈ ws, isSpace c = true) ∧ VersionText maj min pat text ∧
        line = ws ++ text ∧ v = versionOfParts maj min pat) ∧
    (∀ line, (remoteLine line).isSome = true ↔ CatalogLine line) ∧
    (∀ line vers, ¬ CatalogLine line → remoteStep vers line = vers) ∧
    partValue [] = 0 ∧
    remoteLine "  3.9.1".toList = some ⟨3, 9, 1⟩ ∧
    remoteLine "3.9".toList = some ⟨3, 9, 0⟩ ∧
    remoteLine "3".toList = some ⟨3, 0, 0⟩ ∧
    remoteLine "not-a-version".toList = none ∧
    remoteLine "  3.10.0  extra".toList = none := by
  have hiff : ∀ line, (remoteLine line).isSome = true ↔ CatalogLine line := by
    intro line
    rw [Option.isSome_iff_exists]
    constructor
    · rintro ⟨v, hv⟩
      obtain ⟨ws, maj, min, pat, text, hws, ht, hl, -⟩ := (remoteLine_some_iff line v).1 hv
      exact ⟨ws, maj, min, pat, text, hws, ht, hl⟩
    · rintro ⟨ws, maj, min, pat, text, hws, ht, hl⟩
      exact ⟨_, (remoteLine_some_iff line _).2 ⟨ws, maj, min, pat, text, hws, ht, hl, rfl⟩⟩
  refine ⟨remoteLine_some_iff, hiff, ?_, rfl, by decide, by decide, by decide, by decide,
    by decide⟩
  intro line vers hline
  have hn : remoteLine line = none := by
    cases h : remoteLine line with
    | none => rfl
    | some v => exact absurd ((hiff line).1 (by simp [h])) hline
  simp [remoteStep, hn]


/-- C6 (as stated, it fails): the catalog with the lines `3.9.1`, a line of
70000 bytes and `3.9.2` has the matching line `3.9.2` of major 3, which is
newer than 3.9.1, the value of the returned map at the key 3; and in the
catalog with a line of 70000 bytes and then `2.7.18`, the matching line
`2.7.18` has major 2 and the returned map has no key 2.  The scanner stops at
the first line of 65536 bytes or more, and its error is not consulted. -/
theorem remoteLatestVersions_misses_newest :
    "3.9.2".toList ∈ splitLines catalogWithLongLine ∧
    remoteLine "3.9.2".toList = some ⟨3, 9, 2⟩ ∧
    semantic.isNewerThan ⟨3, 9, 2⟩ ⟨3, 9, 1⟩ = true ∧
    remoteLatestVersions catalogWithLongLine 3 = some ⟨3, 9, 1⟩ ∧
    "2.7.18".toList ∈ splitLines (longLine ++ '\n' :: "2.7.18\n".toList) ∧
    remoteLine "2.7.18".toList = some ⟨2, 7, 18⟩ ∧
    remoteLatestVersions (longLine ++ '\n' :: "2.7.18\n".toList) 2 = none := by
  refine ⟨?_, by decide, by decide, ?_, ?_, by decide, ?_⟩
  · rw [splitLines_catalogWithLongLine]
    exact List.mem_cons_of_mem _ (List.mem_cons_of_mem _ (List.mem_cons_self _ _))
  · unfold remoteLatestVersions
    rw [scanLines_catalogWithLongLine]
    decide
  · rw [splitLines_line _ _ longLine_no_newline]
    exact List.mem_cons_of_mem _ (by decide)
  · unfold remoteLatestVersions
    rw [scanLines_tooLong _ _ longLine_no_newline longLine_tooLong]
    rfl

/-- C6 (amended): the map returned by `remoteLatestVersions` has a key `m`
exactly when some matching line that the scanner yields has major `m`, and the
value at `m` is a version of major `m` parsed from such a line that no such
line with major `m` is newer than.  The scanner yields the lines of the text
that come before the first line of 65536 bytes or more, each without its
trailing carriage return: all the lines, when every line is shorter.  The
lines `  3.9.1` and `3.9.2` give the entry 3 -> 3.9.2. -/
theorem remoteLatestVersions_newest :
    (∀ (text : List Char) (m : Int),
      ((remoteLatestVersions text m).isSome = true ↔
        ∃ l ∈ scanLines text, ∃ v, remoteLine l = some v ∧ v.major = m) ∧
      ∀ v, remoteLatestVersions text m = some v →
        v.major = m ∧ (∃ l ∈ scanLines text, remoteLine l = some v) ∧
        ∀ l ∈ scanLines text, ∀ w, remoteLine l = some w → w.major = m →
          w.isNewerThan v = false) ∧
    (∀ text : List Char, ∃ read rest, splitLines text = read ++ rest ∧
      scanLines text = read.map dropCR ∧
      (∀ l ∈ read, byteLength l < maxScanTokenSize) ∧
      ∀ l, rest.head? = some l → maxScanTokenSize ≤ byteLength l) ∧
    (∀ text : List Char, (∀ l ∈ splitLines text, byteLength l < maxScanTokenSize) →
      scanLines text = (splitLines text).map dropCR) ∧
    remoteLatestVersions "  3.9.1\n3.9.2\n".toList 3 = some ⟨3, 9, 2⟩ ∧
    remoteLatestVersions "  3.9.1\n3.9.2\nnot-a-version\n  3.10.0  extra\n".toList 3 =
      some ⟨3, 9, 2⟩ ∧
    remoteLatestVersions "  3.9.1\n3.9.2\nnot-a-version\n  3.10.0  extra\n".toList 2 = none := by
  refine ⟨?_, scanLines_spec, scanLines_short, by decide, by decide, by decide⟩
  intro text m
  unfold remoteLatestVersions
  rw [remoteLatestVersions_eq]
  obtain ⟨h1, h2⟩ := foldl_keepNewest (remoteVersions (scanLines text)) m
  constructor
  · rw [h1]
    constructor
    · rintro ⟨v, hv, hvm⟩
      obtain ⟨l, hl, hlv⟩ := (mem_remoteVersions (scanLines text) v).1 hv
      exact ⟨l, hl, v, hlv, hvm⟩
    · rintro ⟨l, hl, v, hlv, hvm⟩
      exact ⟨v, (mem_remoteVersions (scanLines text) v).2 ⟨l, hl, hlv⟩, hvm⟩
  · intro v hv
    obtain ⟨h3, h4, h5⟩ := h2 v hv
    refine ⟨h3, (mem_remoteVersions (scanLines text) v).1 h4, ?_⟩
    intro l hl w hw hwm
    exact h5 w ((mem_remoteVersions (scanLines text) w).2 ⟨l, hl, hw⟩) hwm

/-- Witness of C6 (amended) at the catalog with the lines `  3.9.1`, `3.9.2`,
`  3.10.0` and the key 3: the value 3.10.0 is of major 3, comes from a line of
the catalog, and no line gives a newer version of major 3. -/
theorem remoteLatestVersions_newest_witness :
    remoteLatestVersions "  3.9.1\n3.9.2\n  3.10.0\n".toList 3 = some ⟨3, 10, 0⟩ ∧
    (∃ l ∈ scanLines "  3.9.1\n3.9.2\n  3.10.0\n".toList, remoteLine l = some ⟨3, 10, 0⟩) ∧
    ∀ l ∈ scanLines "  3.9.1\n3.9.2\n  3.10.0\n".toList, ∀ w, remoteLine l = some w →
      w.major = 3 → w.isNewerThan ⟨3, 10, 0⟩ = false :=
  ⟨by decide,
   ((remoteLatestVersions_newest.1 "  3.9.1\n3.9.2\n  3.10.0\n".toList 3).2 ⟨3, 10, 0⟩
      (by decide)).2⟩

/-- C7: for a line `<marker><space><version>[/envs/<name>][ (set by ...)]` of
the local listing, the record built has `current` true exactly when the marker
is `*`, the version that the parts stand for (an absent minor or patch is 0),
and `environ` equal to `<name>`, or empty when the part `/envs/<name>` is
absent. -/
theorem localLine_record (marker : Char) (maj min pat name line : List Char)
    (h : LocalLine marker maj min pat name line) :
    localLine line = some ⟨marker == '*', name, versionOfParts maj min pat⟩ :=
  (localLine_shape marker maj min pat name line h).1

/-- Witness of C7 at the lines `* 3.9.1`, `  3.9.1/envs/myproj` and
`  3.8.0 (set by /path/.python-version)`, and at the listing that they form. -/
theorem localLine_record_witness :
    localLine "* 3.9.1".toList = some ⟨true, [], ⟨3, 9, 1⟩⟩ ∧
    localLine "  3.9.1/envs/myproj".toList = some ⟨false, "myproj".toList, ⟨3, 9, 1⟩⟩ ∧
    localLine "  3.8.0 (set by /path/.python-version)".toList = some ⟨false, [], ⟨3, 8, 0⟩⟩ ∧
    localVersions
      "* 3.9.1\n  3.9.1/envs/myproj\n  3.8.0 (set by /path/.python-version)\n".toList =
      [⟨true, [], ⟨3, 9, 1⟩⟩, ⟨false, "myproj".toList, ⟨3, 9, 1⟩⟩, ⟨false, [], ⟨3, 8, 0⟩⟩] :=
  ⟨localLine_record '*' "3".toList "9".toList "1".toList [] "* 3.9.1".toList
      ⟨"3.9.1".toList, [], [], by decide, by decide, Or.inl ⟨rfl, rfl⟩, Or.inl rfl, rfl⟩,
   localLine_record ' ' "3".toList "9".toList "1".toList "myproj".toList
      "  3.9.1/envs/myproj".toList
      ⟨"3.9.1".toList, "/envs/myproj".toList, [], by decide, by decide,
        Or.inr ⟨by decide, by decide, rfl⟩, Or.inl rfl, rfl⟩,
   localLine_record ' ' "3".toList "8".toList "0".toList []
      "  3.8.0 (set by /path/.python-version)".toList
      ⟨"3.8.0".toList, [], " (set by /path/.python-version)".toList, by decide, by decide,
        Or.inl ⟨rfl, rfl⟩,
        Or.inr ⟨"/path/.python-version".toList, by decide, by decide, rfl⟩, rfl⟩,
   by decide⟩

/-- C8 (as stated, it fails): the line `  3.9.1/envs/39` matches the pattern of
the local listing and no line comes before it, so no earlier line recorded an
environment name; yet the line is left out of the result, because of the name
`39` that the line itself introduces. -/
theorem localVersions_skips_own_name :
    localLine "  3.9.1/envs/39".toList = some ⟨false, "39".toList, ⟨3, 9, 1⟩⟩ ∧
    rawKey "  3.9.1/envs/39".toList = "39".toList ∧
    envNames [] = [] ∧
    localVersionsLoop ([] ++ ["  3.9.1/envs/39".toList]) = [] ∧
    scanLines "  3.9.1/envs/39\n".toList = ["  3.9.1/envs/39".toList] ∧
    localVersions "  3.9.1/envs/39\n".toList = [] := by
  decide

/-- C8 (amended): a matching line is left out of the result exactly when the
concatenation of its raw major and minor digits is a name recorded in `envs`
by an earlier line or by the line itself (its own name is recorded before the
check); the lines after it only append records.  The lines are the strings that
the scanner yields for the text of the listing. -/
theorem localVersions_skip_iff (pre post : List (List Char)) (l : List Char) (loc : Local)
    (h : localLine l = some loc) :
    localVersionsLoop (pre ++ [l]) = localVersionsLoop pre ++
      (if rawKey l ∈ envNames pre ∨ rawKey l = loc.environ then [] else [loc]) ∧
    (∃ rest, localVersionsLoop (pre ++ l :: post) = localVersionsLoop (pre ++ [l]) ++ rest) ∧
    ∀ text : List Char, scanLines text = pre ++ l :: post →
      ∃ rest, localVersions text = localVersionsLoop pre ++
        (if rawKey l ∈ envNames pre ∨ rawKey l = loc.environ then [] else [loc]) ++ rest := by
  have h1 : localVersionsLoop (pre ++ [l]) = localVersionsLoop pre ++
      (if rawKey l ∈ envNames pre ∨ rawKey l = loc.environ then [] else [loc]) := by
    rw [localVersions_snoc, h, envNames_append, envNames_singleton, h]
    simp only [List.mem_append, List.mem_singleton]
  have h2 : ∃ rest, localVersionsLoop (pre ++ l :: post) =
      localVersionsLoop (pre ++ [l]) ++ rest := by
    have := localVersions_append (pre ++ [l]) post
    simpa using this
  refine ⟨h1, h2, ?_⟩
  intro text ht
  obtain ⟨rest, hr⟩ := h2
  refine ⟨rest, ?_⟩
  unfold localVersions
  rw [ht, hr, h1]

/-- Witness of C8 (amended): after `  3.9.1/envs/myproj` the line `  39` is
kept; after `  3.8.0/envs/39` it is left out. -/
theorem localVersions_skip_iff_witness :
    localVersionsLoop (["  3.9.1/envs/myproj".toList] ++ ["  39".toList]) =
      localVersionsLoop ["  3.9.1/envs/myproj".toList] ++ [⟨false, [], ⟨39, 0, 0⟩⟩] ∧
    localVersionsLoop (["  3.8.0/envs/39".toList] ++ ["  39".toList]) =
      localVersionsLoop ["  3.8.0/envs/39".toList] ++ [] ∧
    localVersions "  3.9.1/envs/myproj\n  39\n".toList =
      [⟨false, "myproj".toList, ⟨3, 9, 1⟩⟩, ⟨false, [], ⟨39, 0, 0⟩⟩] ∧
    localVersions "  3.8.0/envs/39\n  39\n".toList = [⟨false, "39".toList, ⟨3, 8, 0⟩⟩] :=
  ⟨(localVersions_skip_iff ["  3.9.1/envs/myproj".toList] [] "  39".toList
      ⟨false, [], ⟨39, 0, 0⟩⟩ (by decide)).1.trans (by decide),
   (localVersions_skip_iff ["  3.8.0/envs/39".toList] [] "  39".toList
      ⟨false, [], ⟨39, 0, 0⟩⟩ (by decide)).1.trans (by decide),
   by decide, by decide⟩

/-- C9 (as stated, it fails): the listing with the lines `* 3.9.1`, a line of
70000 bytes and `  3.8.0` has two matching lines and no environment name, yet
`localVersions` returns the record of the first line only.  The scanner stops
at the first line of 65536 bytes or more, and its error is not consulted. -/
theorem localVersions_stops_at_long_line :
    splitLines listingWithLongLine = ["* 3.9.1".toList, longLine, "  3.8.0".toList] ∧
    localLine "* 3.9.1".toList = some ⟨true, [], ⟨3, 9, 1⟩⟩ ∧
    localLine longLine = none ∧
    localLine "  3.8.0".toList = some ⟨false, [], ⟨3, 8, 0⟩⟩ ∧
    localVersions listingWithLongLine = [⟨true, [], ⟨3, 9, 1⟩⟩] := by
  refine ⟨splitLines_listingWithLongLine, by decide, localLine_longLine, by decide, ?_⟩
  unfold localVersions
  rw [scanLines_listingWithLongLine]
  decide

/-- C9 (amended): when no environment name of the lines that the scanner
yields equals the concatenation of the raw major and minor digits of any of
these lines, `localVersions` returns the records of the matching lines among
them, one per line, in the order of the lines.  The scanner yields the lines
of the text that come before the first line of 65536 bytes or more, each
without its trailing carriage return: all the lines, when every line is
shorter. -/
theorem localVersions_in_order (text : List Char)
    (h : ∀ x ∈ envNames (scanLines text), x ≠ [] → ∀ l ∈ scanLines text,
      (localLine l).isSome = true → rawKey l ≠ x) :
    localVersions text = (scanLines text).filterMap localLine ∧
    (∃ read rest, splitLines text = read ++ rest ∧ scanLines text = read.map dropCR ∧
      (∀ l ∈ read, byteLength l < maxScanTokenSize) ∧
      ∀ l, rest.head? = some l → maxScanTokenSize ≤ byteLength l) ∧
    ((∀ l ∈ splitLines text, byteLength l < maxScanTokenSize) →
      localVersions text = ((splitLines text).map dropCR).filterMap localLine) := by
  have key : localVersions text = (scanLines text).filterMap localLine := by
    unfold localVersions
    apply localVersions_no_clash
    intro l hl hs hmem
    obtain ⟨loc, hloc⟩ := Option.isSome_iff_exists.1 hs
    exact h (rawKey l) hmem (rawKey_ne_nil l loc hloc) l hl hs rfl
  refine ⟨key, scanLines_spec text, ?_⟩
  intro hshort
  rw [key, scanLines_short text hshort]

/-- Witness of C9 (amended) at the listing with the lines `* 3.9.1`,
`  3.9.1/envs/myproj`, `junk`, `  3.8.0 (set by /path/.python-version)`. -/
theorem localVersions_in_order_witness :
    localVersions
      "* 3.9.1\n  3.9.1/envs/myproj\njunk\n  3.8.0 (set by /path/.python-version)\n".toList =
      [⟨true, [], ⟨3, 9, 1⟩⟩, ⟨false, "myproj".toList, ⟨3, 9, 1⟩⟩, ⟨false, [], ⟨3, 8, 0⟩⟩] :=
  (localVersions_in_order
    "* 3.9.1\n  3.9.1/envs/myproj\njunk\n  3.8.0 (set by /path/.python-version)\n".toList
    (by decide)).1.trans (by decide)

/-- C10 (as stated, it fails): the line of 70000 bytes matches neither
pattern; inserted between the lines `3.9.1` and `3.9.2` of a catalog it changes
the value of the returned map at the key 3 from 3.9.2 to 3.9.1, and inserted
between the lines `* 3.9.1` and `  3.8.0` of a local listing it removes the
record of the second line from the returned list.  Parsing does not continue
after a line of 65536 bytes or more. -/
theorem nonmatching_long_line_ends_scan :
    remoteLine longLine = none ∧
    splitLines "3.9.1\n3.9.2\n".toList = ["3.9.1".toList, "3.9.2".toList] ∧
    splitLines catalogWithLongLine = ["3.9.1".toList, longLine, "3.9.2".toList] ∧
    remoteLatestVersions "3.9.1\n3.9.2\n".toList 3 = some ⟨3, 9, 2⟩ ∧
    remoteLatestVersions catalogWithLongLine 3 = some ⟨3, 9, 1⟩ ∧
    localLine longLine = none ∧
    splitLines "* 3.9.1\n  3.8.0\n".toList = ["* 3.9.1".toList, "  3.8.0".toList] ∧
    splitLines listingWithLongLine = ["* 3.9.1".toList, longLine, "  3.8.0".toList] ∧
    localVersions "* 3.9.1\n  3.8.0\n".toList =
      [⟨true, [], ⟨3, 9, 1⟩⟩, ⟨false, [], ⟨3, 8, 0⟩⟩] ∧
    localVersions listingWithLongLine = [⟨true, [], ⟨3, 9, 1⟩⟩] := by
  refine ⟨remoteLine_longLine, by decide, splitLines_catalogWithLongLine, by decide, ?_,
    localLine_longLine, by decide, splitLines_listingWithLongLine, by decide, ?_⟩
  · unfold remoteLatestVersions
    rw [scanLines_catalogWithLongLine]
    decide
  · unfold localVersions
    rw [scanLines_listingWithLongLine]
    decide

/-- C10 (amended): a line shorter than 65536 bytes that the pattern does not
match is skipped and the scan goes on.  Inserting such lines anywhere among
the lines of the text leaves the map of `remoteLatestVersions` and the list of
`localVersions` unchanged; both results are those of the matching lines alone
among the lines that the scanner yields; and a line that the scanner yields
after lines that do not match is handled by the body of the loop as if these
lines were absent: in the catalog `  3.9.1`, `not-a-version`, `3.9.2` the last
line replaces the entry 3 -> 3.9.1 by 3 -> 3.9.2. -/
theorem nonmatching_lines_ignored :
    (∀ (text1 text2 : List Char) (pre junk post : List (List Char)),
      splitLines text1 = pre ++ post → splitLines text2 = pre ++ junk ++ post →
      (∀ l ∈ junk, byteLength l < maxScanTokenSize ∧ remoteLine (dropCR l) = none) →
      remoteLatestVersions text2 = remoteLatestVersions text1) ∧
    (∀ (text1 text2 : List Char) (pre junk post : List (List Char)),
      splitLines text1 = pre ++ post → splitLines text2 = pre ++ junk ++ post →
      (∀ l ∈ junk, byteLength l < maxScanTokenSize ∧ localLine (dropCR l) = none) →
      localVersions text2 = localVersions text1) ∧
    (∀ text : List Char, remoteLatestVersions text =
      remoteLatestVersionsLoop ((scanLines text).filter (fun l => (remoteLine l).isSome))) ∧
    (∀ text : List Char, localVersions text =
      localVersionsLoop ((scanLines text).filter (fun l => (localLine l).isSome))) ∧
    (∀ (text : List Char) (pre junk : List (List Char)) (l : List Char),
      scanLines text = pre ++ junk ++ [l] → (∀ j ∈ junk, remoteLine j = none) →
      remoteLatestVersions text = remoteStep (remoteLatestVersionsLoop pre) l) ∧
    (∀ (text : List Char) (pre junk : List (List Char)) (l : List Char) (loc : Local),
      scanLines text = pre ++ junk ++ [l] → (∀ j ∈ junk, localLine j = none) →
      localLine l = some loc →
      localVersions text = localVersionsLoop pre ++
        (if rawKey l ∈ envNames pre ∨ rawKey l = loc.environ then [] else [loc])) ∧
    remoteLatestVersions "  3.9.1\nnot-a-version\n".toList 3 = some ⟨3, 9, 1⟩ ∧
    remoteLatestVersions "  3.9.1\nnot-a-version\n3.9.2\n".toList 3 = some ⟨3, 9, 2⟩ ∧
    localVersions "* 3.9.1\nnot-a-version\n  3.8.0\n".toList =
      [⟨true, [], ⟨3, 9, 1⟩⟩, ⟨false, [], ⟨3, 8, 0⟩⟩] := by
  refine ⟨remoteLatestVersions_insert, localVersions_insert, ?_, ?_, ?_, ?_,
    by decide, by decide, by decide⟩
  · intro text
    exact foldl_remoteStep_filter (scanLines text) _
  · intro text
    unfold localVersions localVersionsLoop
    rw [foldl_localStep_filter (scanLines text)]
  · intro text pre junk l hs hj
    unfold remoteLatestVersions
    rw [hs]
    exact remoteLatestVersionsLoop_skip pre junk l hj
  · intro text pre junk l loc hs hj hl
    unfold localVersions
    rw [hs, localVersionsLoop_skip pre junk l hj, localVersions_snoc, hl, envNames_append,
      envNames_singleton, hl]
    simp only [List.mem_append, List.mem_singleton]

/-- Witness of C10 (amended): the line `not-a-version` inserted after the first
line of a catalog and of a local listing. -/
theorem nonmatching_lines_ignored_witness :
    remoteLatestVersions "  3.9.1\nnot-a-version\n3.9.2\n".toList =
      remoteLatestVersions "  3.9.1\n3.9.2\n".toList ∧
    localVersions "* 3.9.1\nnot-a-version\n  3.9.1/envs/myproj\n".toList =
      localVersions "* 3.9.1\n  3.9.1/envs/myproj\n".toList :=
  ⟨nonmatching_lines_ignored.1 _ _ ["  3.9.1".toList] ["not-a-version".toList]
      ["3.9.2".toList] (by decide) (by decide) (by decide),
   nonmatching_lines_ignored.2.1 _ _ ["* 3.9.1".toList] ["not-a-version".toList]
      ["  3.9.1/envs/myproj".toList] (by decide) (by decide) (by decide)⟩

/-- C11: the local-best map built in `main` has a key `m` exactly when some
local record has major `m`, and its value at `m` is the version of a record of
major `m` that no record of major `m` is newer than, whether the records have
an environment name or not. -/
theorem localLatestsOf_newest :
    (∀ (locals : List Local) (m : Int),
      ((localLatestsOf locals m).isSome = true ↔ ∃ loc ∈ locals, loc.version.major = m) ∧
      ∀ v, localLatestsOf locals m = some v →
        v.major = m ∧ (∃ loc ∈ locals, loc.version = v) ∧
        ∀ loc ∈ locals, loc.version.major = m → loc.version.isNewerThan v = false) ∧
    localLatestsOf [⟨false, "a".toList, ⟨3, 9, 1⟩⟩, ⟨true, [], ⟨3, 8, 0⟩⟩,
      ⟨false, [], ⟨2, 7, 18⟩⟩] 3 = some ⟨3, 9, 1⟩ ∧
    localLatestsOf [⟨false, "a".toList, ⟨3, 9, 1⟩⟩, ⟨true, [], ⟨3, 8, 0⟩⟩,
      ⟨false, [], ⟨2, 7, 18⟩⟩] 2 = some ⟨2, 7, 18⟩ ∧
    localLatestsOf [⟨false, "a".toList, ⟨3, 9, 1⟩⟩, ⟨true, [], ⟨3, 8, 0⟩⟩,
      ⟨false, [], ⟨2, 7, 18⟩⟩] 4 = none := by
  refine ⟨?_, by decide, by decide, by decide⟩
  intro locals m
  rw [localLatestsOf_eq]
  obtain ⟨h1, h2⟩ := foldl_keepNewest (locals.map fun loc => loc.version) m
  constructor
  · rw [h1]
    constructor
    · rintro ⟨v, hv, hvm⟩
      obtain ⟨loc, hloc, rfl⟩ := List.mem_map.1 hv
      exact ⟨loc, hloc, hvm⟩
    · rintro ⟨loc, hloc, hm⟩
      exact ⟨loc.version, List.mem_map.2 ⟨loc, hloc, rfl⟩, hm⟩
  · intro v hv
    obtain ⟨h3, h4, h5⟩ := h2 v hv
    refine ⟨h3, ?_, ?_⟩
    · obtain ⟨loc, hloc, he⟩ := List.mem_map.1 h4
      exact ⟨loc, hloc, he⟩
    · intro loc hloc hm
      exact h5 loc.version (List.mem_map.2 ⟨loc, hloc, rfl⟩) hm

/-- C12: in the install pass, at a key `m` of the local-best map with entry
`loc`, the question `Install <v>?` is asked exactly when the remote map has an
entry `v` for `m` that is newer than `loc`; on the answer yes `installVersion v`
is run and, unless it fails, the entry of `m` becomes `v`; on the answer no, and
when no question is asked, the map is unchanged and nothing is run. -/
theorem installStep_prompt (w : World) (remoteLatests : VersionMap) (tr : List Event)
    (localLatests : VersionMap) (m : Int) (loc : semantic) (hloc : localLatests m = some loc) :
    ((∀ v, remoteLatests m = some v → v.isNewerThan loc = false) →
      installStep w remoteLatests tr localLatests m = ⟨tr, Except.ok localLatests⟩) ∧
    (∀ v, remoteLatests m = some v → v.isNewerThan loc = true →
      (∀ e, w.yesNo tr (installMsg v) = Except.error e →
        installStep w remoteLatests tr localLatests m =
          ⟨tr ++ [Event.ask (installMsg v)], Except.error e⟩) ∧
      (w.yesNo tr (installMsg v) = Except.ok false →
        installStep w remoteLatests tr localLatests m =
          ⟨tr ++ [Event.ask (installMsg v)], Except.ok localLatests⟩) ∧
      (w.yesNo tr (installMsg v) = Except.ok true →
        installStep w remoteLatests tr localLatests m =
          ⟨(installVersion w (tr ++ [Event.ask (installMsg v)]) v).trace,
            (installVersion w (tr ++ [Event.ask (installMsg v)]) v).result.map
              fun _ => localLatests.set m v⟩)) := by
  constructor
  · intro h
    unfold installStep
    rw [hloc]
    cases hr : remoteLatests m with
    | none => rfl
    | some v => simp [h v hr]
  · intro v hv hn
    refine ⟨?_, ?_, ?_⟩
    · intro e he
      simp [installStep, hloc, hv, hn, askYesNo, Run.bind, he]
    · intro he
      simp [installStep, hloc, hv, hn, askYesNo, Run.bind, he]
    · intro he
      simp only [installStep, hloc, hv, hn, askYesNo, Run.bind, he, if_true]
      cases (installVersion w (tr ++ [Event.ask (installMsg v)]) v).result <;> rfl

/-- Witness of C12: local best 3 -> 3.9.1 and remote best 3 -> 3.9.5, with the
question `Install 3.9.5?` answered no and answered yes. -/
theorem installStep_prompt_witness :
    installStep (demoWorld false) (remoteLatestVersions "  3.9.5\n".toList) []
        (localLatestsOf [⟨false, "a".toList, ⟨3, 9, 1⟩⟩, ⟨false, [], ⟨3, 8, 0⟩⟩]) 3 =
      ⟨[] ++ [Event.ask (installMsg ⟨3, 9, 5⟩)],
        Except.ok (localLatestsOf [⟨false, "a".toList, ⟨3, 9, 1⟩⟩, ⟨false, [], ⟨3, 8, 0⟩⟩])⟩ ∧
    (installStep (demoWorld true) (remoteLatestVersions "  3.9.5\n".toList) []
        (localLatestsOf [⟨false, "a".toList, ⟨3, 9, 1⟩⟩, ⟨false, [], ⟨3, 8, 0⟩⟩]) 3).trace =
      [Event.ask "Install 3.9.5?".toList, Event.exec (pyenvInstall ⟨3, 9, 5⟩),
        Event.exec (pipUpgrade ⟨3, 9, 5⟩)] :=
  ⟨((installStep_prompt (demoWorld false) (remoteLatestVersions "  3.9.5\n".toList) []
      (localLatestsOf [⟨false, "a".toList, ⟨3, 9, 1⟩⟩, ⟨false, [], ⟨3, 8, 0⟩⟩]) 3 ⟨3, 9, 1⟩
      (by decide)).2 ⟨3, 9, 5⟩ (by decide) (by decide)).2.1 (by decide),
   by decide⟩

/-- C13: in the environment pass a local record is asked
`Update <version>/envs/<name> to <new-version>?` exactly when its environment
name is not empty and the local-best entry of its major is strictly newer than
its own version, the new version being that entry; in the trace of `main` no
install question comes after an update question. -/
theorem envStep_prompt (w : World) (localLatests : VersionMap) (tr : List Event)
    (loc : Local) :
    ((loc.environ = [] ∨ ∀ lat, localLatests loc.version.major = some lat →
        lat.isNewerThan loc.version = false) →
      envStep w localLatests tr loc = ⟨tr, Except.ok ()⟩) ∧
    (∀ lat, loc.environ ≠ [] → localLatests loc.version.major = some lat →
      lat.isNewerThan loc.version = true →
      (∀ e, w.yesNo tr (updateMsg loc lat) = Except.error e →
        envStep w localLatests tr loc =
          ⟨tr ++ [Event.ask (updateMsg loc lat)], Except.error e⟩) ∧
      (w.yesNo tr (updateMsg loc lat) = Except.ok false →
        envStep w localLatests tr loc =
          ⟨tr ++ [Event.ask (updateMsg loc lat)], Except.ok ()⟩) ∧
      (w.yesNo tr (updateMsg loc lat) = Except.ok true →
        envStep w localLatests tr loc =
          updateVersion w (tr ++ [Event.ask (updateMsg loc lat)]) loc lat)) ∧
    (∀ iter : RangeOrder, ∃ pre post, (main w iter).trace = pre ++ post ∧
      (∀ e ∈ pre, ∀ loc1 lat1, e ≠ Event.ask (updateMsg loc1 lat1)) ∧
      (∀ e ∈ post, ∀ v, e ≠ Event.ask (installMsg v))) := by
  refine ⟨?_, ?_, fun iter => main_two_phases w iter⟩
  · intro h
    unfold envStep
    rcases h with h | h
    · simp [h]
    · split_ifs with he
      · rfl
      · cases hl : localLatests loc.version.major with
        | none => rfl
        | some lat => simp [h lat hl]
  · intro lat he hl hn
    refine ⟨?_, ?_, ?_⟩
    · intro e hy
      simp [envStep, he, hl, hn, askYesNo, Run.bind, hy]
    · intro hy
      simp [envStep, he, hl, hn, askYesNo, Run.bind, hy]
    · intro hy
      simp [envStep, he, hl, hn, askYesNo, Run.bind, hy]

/-- Witness of C13: the local records 3.9.1 with environment `a` and 3.8.0,
and the remote best 3 -> 3.9.5.  When the install is accepted, `a` is offered
3.9.1 -> 3.9.5 after the install; when it is declined, `a` is offered nothing. -/
theorem envStep_prompt_witness :
    (main (demoWorld true) RangeOrder.asListed).trace =
      [Event.exec pyenvVersions, Event.exec pyenvInstallList,
        Event.ask "Install 3.9.5?".toList, Event.exec (pyenvInstall ⟨3, 9, 5⟩),
        Event.exec (pipUpgrade ⟨3, 9, 5⟩),
        Event.ask "Update 3.9.1/envs/a to 3.9.5?".toList] ∧
    (main (demoWorld false) RangeOrder.asListed).trace =
      [Event.exec pyenvVersions, Event.exec pyenvInstallList,
        Event.ask "Install 3.9.5?".toList] ∧
    envStep (demoWorld true) (localLatestsOf [⟨false, "a".toList, ⟨3, 9, 1⟩⟩]) []
        ⟨false, "a".toList, ⟨3, 9, 1⟩⟩ = ⟨[], Except.ok ()⟩ :=
  ⟨by decide, by decide,
   (envStep_prompt (demoWorld true) (localLatestsOf [⟨false, "a".toList, ⟨3, 9, 1⟩⟩]) []
      ⟨false, "a".toList, ⟨3, 9, 1⟩⟩).1 (Or.inr (by decide))⟩

/-- C14: when both listing commands succeed and every question is answered
no, `main` ends without a fatal error and the events of its trace other than
questions are exactly the two commands `pyenv versions` and
`pyenv install --list`. -/
theorem main_all_declined (w : World) (iter : RangeOrder) (out1 out2 : Output)
    (h1 : w.run [] pyenvVersions = Except.ok out1)
    (h2 : w.run [Event.exec pyenvVersions] pyenvInstallList = Except.ok out2)
    (hno : ∀ tr msg, w.yesNo tr msg = Except.ok false) :
    (main w iter).result = Except.ok () ∧
    (main w iter).trace.filter (fun e => !e.isAsk) =
      [Event.exec pyenvVersions, Event.exec pyenvInstallList] := by
  obtain ⟨asks, hm, hasks⟩ := main_declined w iter out1 out2 h1 h2 hno
  rw [hm]
  refine ⟨rfl, ?_⟩
  have hf : asks.filter (fun e => !e.isAsk) = [] := by
    rw [List.filter_eq_nil_iff]
    intro e he
    simp [hasks e he]
  simp only [List.filter_append, hf, List.append_nil]
  rfl

/-- Witness of C14: the example world with every question answered no. -/
theorem main_all_declined_witness :
    (main (demoWorld false) RangeOrder.asListed).result = Except.ok () ∧
    (main (demoWorld false) RangeOrder.asListed).trace.filter (fun e => !e.isAsk) =
      [Event.exec pyenvVersions, Event.exec pyenvInstallList] :=
  main_all_declined (demoWorld false) RangeOrder.asListed "  3.9.1/envs/a\n  3.8.0\n".toList
    "  3.9.5\n".toList (by decide) (by decide) (fun _ _ => rfl)

/-- C15: `updateVersion` issues, in this order, `pip freeze` in the environment
and the write of its output to a new temp file, `pyenv uninstall -f`,
`pyenv virtualenv` and `pip install -r` of the temp file in the environment;
the first step that fails ends the sequence and its error is returned, so the
environment is uninstalled only after the freeze output has been captured and
written. -/
theorem updateVersion_fail_fast (w : World) (tr : List Event) (loc : Local) (ver : semantic) :
    (∀ e, w.run tr (pipFreeze loc) = Except.error e →
      updateVersion w tr loc ver = ⟨tr ++ [Event.exec (pipFreeze loc)], Except.error e⟩) ∧
    (∀ body e, w.run tr (pipFreeze loc) = Except.ok body →
      w.tempFile (tr ++ [Event.exec (pipFreeze loc)]) body = Except.error e →
      updateVersion w tr loc ver =
        ⟨tr ++ [Event.exec (pipFreeze loc), Event.tempFile body], Except.error e⟩) ∧
    (∀ body tmp e, w.run tr (pipFreeze loc) = Except.ok body →
      w.tempFile (tr ++ [Event.exec (pipFreeze loc)]) body = Except.ok tmp →
      w.run (tr ++ [Event.exec (pipFreeze loc), Event.tempFile body]) (pyenvUninstall loc) =
        Except.error e →
      updateVersion w tr loc ver =
        ⟨tr ++ [Event.exec (pipFreeze loc), Event.tempFile body,
          Event.exec (pyenvUninstall loc)], Except.error e⟩) ∧
    (∀ body tmp out3 e, w.run tr (pipFreeze loc) = Except.ok body →
      w.tempFile (tr ++ [Event.exec (pipFreeze loc)]) body = Except.ok tmp →
      w.run (tr ++ [Event.exec (pipFreeze loc), Event.tempFile body]) (pyenvUninstall loc) =
        Except.ok out3 →
      w.run (tr ++ [Event.exec (pipFreeze loc), Event.tempFile body,
        Event.exec (pyenvUninstall loc)]) (pyenvVirtualenv loc ver) = Except.error e →
      updateVersion w tr loc ver =
        ⟨tr ++ [Event.exec (pipFreeze loc), Event.tempFile body,
          Event.exec (pyenvUninstall loc), Event.exec (pyenvVirtualenv loc ver)],
          Except.error e⟩) ∧
    (∀ body tmp out3 out4 (r : Except Error Output),
      w.run tr (pipFreeze loc) = Except.ok body →
      w.tempFile (tr ++ [Event.exec (pipFreeze loc)]) body = Except.ok tmp →
      w.run (tr ++ [Event.exec (pipFreeze loc), Event.tempFile body]) (pyenvUninstall loc) =
        Except.ok out3 →
      w.run (tr ++ [Event.exec (pipFreeze loc), Event.tempFile body,
        Event.exec (pyenvUninstall loc)]) (pyenvVirtualenv loc ver) = Except.ok out4 →
      w.run (tr ++ [Event.exec (pipFreeze loc), Event.tempFile body,
        Event.exec (pyenvUninstall loc), Event.exec (pyenvVirtualenv loc ver)])
        (pipInstall loc tmp) = r →
      updateVersion w tr loc ver =
        ⟨tr ++ [Event.exec (pipFreeze loc), Event.tempFile body,
          Event.exec (pyenvUninstall loc), Event.exec (pyenvVirtualenv loc ver),
          Event.exec (pipInstall loc tmp)], r.map fun _ => ()⟩) ∧
    (∀ added, (updateVersion w tr loc ver).trace = tr ++ added →
      Event.exec (pyenvUninstall loc) ∈ added →
      ∃ body tmp, w.run tr (pipFreeze loc) = Except.ok body ∧
        w.tempFile (tr ++ [Event.exec (pipFreeze loc)]) body = Except.ok tmp) := by
  obtain ⟨c1, c2, c3, c4, c5⟩ := updateVersion_cases w tr loc ver
  refine ⟨c1, c2, c3, c4, c5, ?_⟩
  intro added hadd hmem
  have hne1 : pyenvUninstall loc ≠ pipFreeze loc := by
    intro h
    have he : "pyenv".toList = "pip".toList := congrArg Command.exe h
    exact absurd he (by decide)
  cases h1 : w.run tr (pipFreeze loc) with
  | error e =>
    rw [c1 e h1] at hadd
    have := List.append_cancel_left hadd
    subst this
    simp only [List.mem_singleton, Event.exec.injEq] at hmem
    exact absurd hmem hne1
  | ok body =>
    cases h2 : w.tempFile (tr ++ [Event.exec (pipFreeze loc)]) body with
    | error e =>
      rw [c2 body e h1 h2] at hadd
      have := List.append_cancel_left hadd
      subst this
      simp only [List.mem_cons, List.mem_singleton, Event.exec.injEq, List.not_mem_nil,
        or_false, reduceCtorEq] at hmem
      exact absurd hmem hne1
    | ok tmp => exact ⟨body, tmp, rfl, h2⟩

/-- Witness of C15: in a world where `pyenv uninstall -f a` fails, the update
of environment `a` to 3.9.5 stops after the uninstall, with its error. -/
theorem updateVersion_fail_fast_witness :
    updateVersion (failingWorld (pyenvUninstall ⟨false, "a".toList, ⟨3, 9, 1⟩⟩)) []
        ⟨false, "a".toList, ⟨3, 9, 1⟩⟩ ⟨3, 9, 5⟩ =
      ⟨[] ++ [Event.exec (pipFreeze ⟨false, "a".toList, ⟨3, 9, 1⟩⟩), Event.tempFile [],
        Event.exec (pyenvUninstall ⟨false, "a".toList, ⟨3, 9, 1⟩⟩)],
        Except.error "exit status 1".toList⟩ ∧
    (updateVersion (demoWorld true) [] ⟨false, "a".toList, ⟨3, 9, 1⟩⟩ ⟨3, 9, 5⟩).trace =
      [Event.exec ⟨some "a".toList, "pip".toList, ["freeze".toList]⟩, Event.tempFile [],
        Event.exec ⟨some "system".toList, "pyenv".toList,
          ["uninstall".toList, "-f".toList, "a".toList]⟩,
        Event.exec ⟨some "system".toList, "pyenv".toList,
          ["virtualenv".toList, "3.9.5".toList, "a".toList]⟩,
        Event.exec ⟨some "a".toList, "pip".toList,
          ["install".toList, "-r".toList, "/tmp/pyenv1".toList]⟩] :=
  ⟨(updateVersion_fail_fast (failingWorld (pyenvUninstall ⟨false, "a".toList, ⟨3, 9, 1⟩⟩)) []
      ⟨false, "a".toList, ⟨3, 9, 1⟩⟩ ⟨3, 9, 5⟩).2.2.1 [] "/tmp/pyenv1".toList
      "exit status 1".toList (by decide) (by decide) (by decide),
   by decide⟩

/-- C16: `installVersion` issues `pyenv install <version>` and, only when that
command succeeds, `pip install --upgrade pip` with `PYENV_VERSION` set to the
version; when the install command fails, the pip command is not issued and the
error of the install command is returned. -/
theorem installVersion_fail_fast (w : World) (tr : List Event) (ver : semantic) :
    (∀ e, w.run tr (pyenvInstall ver) = Except.error e →
      installVersion w tr ver = ⟨tr ++ [Event.exec (pyenvInstall ver)], Except.error e⟩) ∧
    (∀ out (r : Except Error Output), w.run tr (pyenvInstall ver) = Except.ok out →
      w.run (tr ++ [Event.exec (pyenvInstall ver)]) (pipUpgrade ver) = r →
      installVersion w tr ver =
        ⟨tr ++ [Event.exec (pyenvInstall ver), Event.exec (pipUpgrade ver)],
          r.map fun _ => ()⟩) ∧
    pyenvInstall ver = ⟨none, "pyenv".toList, ["install".toList, ver.String]⟩ ∧
    pipUpgrade ver = ⟨some ver.String, "pip".toList,
      ["install".toList, "--upgrade".toList, "pip".toList]⟩ := by
  obtain ⟨c1, c2, c3⟩ := installVersion_cases w tr ver
  refine ⟨c1, ?_, rfl, rfl⟩
  intro out r h1 h2
  cases r with
  | error e => exact c2 out e h1 h2
  | ok out2 => exact c3 out out2 h1 h2

/-- Witness of C16: in a world where `pyenv install 3.9.5` fails, and in one
where no command fails. -/
theorem installVersion_fail_fast_witness :
    installVersion (failingWorld (pyenvInstall ⟨3, 9, 5⟩)) [] ⟨3, 9, 5⟩ =
      ⟨[] ++ [Event.exec (pyenvInstall ⟨3, 9, 5⟩)], Except.error "exit status 1".toList⟩ ∧
    installVersion (demoWorld true) [] ⟨3, 9, 5⟩ =
      ⟨[Event.exec ⟨none, "pyenv".toList, ["install".toList, "3.9.5".toList]⟩,
        Event.exec ⟨some "3.9.5".toList, "pip".toList,
          ["install".toList, "--upgrade".toList, "pip".toList]⟩], Except.ok ()⟩ :=
  ⟨(installVersion_fail_fast (failingWorld (pyenvInstall ⟨3, 9, 5⟩)) [] ⟨3, 9, 5⟩).1
      "exit status 1".toList (by decide),
   by decide⟩

/-- C17: the install pass of `main` visits the keys of the local-best map in
the order that `range` produces, and whatever that order is, every key of the
map is visited exactly once and nothing else is visited; the pass asks at most
one question per visited key, the one for the installable upgrade of that key
as it was when the pass began, in the order of the visits; and when the answer
to a question depends on its message only, the passes of any two orders that
complete give the same local-best map.  Every enumeration of the keys without
repetition is the order of some run. -/
theorem installPass_any_order (w : World) (iter : RangeOrder) (locals : List Local)
    (remoteLatests : VersionMap) :
    (∀ out1 out2, w.run [] pyenvVersions = Except.ok out1 →
      w.run [Event.exec pyenvVersions] pyenvInstallList = Except.ok out2 →
      main w iter =
        (installPass w (remoteLatestVersions out2)
          (iter.order (localMajors (localVersions out1)))
          [Event.exec pyenvVersions, Event.exec pyenvInstallList]
          (localLatestsOf (localVersions out1))).bind fun tr3 localLatests =>
        envPass w localLatests (localVersions out1) tr3) ∧
    (∀ m, (iter.order (localMajors locals)).count m =
      if (localLatestsOf locals m).isSome = true then 1 else 0) ∧
    (∀ order : List Int, order.Perm (localMajors locals) →
      ∃ iter2 : RangeOrder, iter2.order (localMajors locals) = order) ∧
    (∀ tr, ∃ visited added, visited <+: iter.order (localMajors locals) ∧ visited.Nodup ∧
      (installPass w remoteLatests (iter.order (localMajors locals)) tr
        (localLatestsOf locals)).trace = tr ++ added ∧
      asksOf added =
        (visited.filterMap (installOffer remoteLatests (localLatestsOf locals))).map
          installMsg ∧
      ∀ m2, (installPass w remoteLatests (iter.order (localMajors locals)) tr
          (localLatestsOf locals)).result = Except.ok m2 →
        visited = iter.order (localMajors locals)) ∧
    ((∀ tr1 tr2 msg, w.yesNo tr1 msg = w.yesNo tr2 msg) →
      ∀ (iter2 : RangeOrder) tr tr2 m1 m2,
        (installPass w remoteLatests (iter.order (localMajors locals)) tr
          (localLatestsOf locals)).result = Except.ok m1 →
        (installPass w remoteLatests (iter2.order (localMajors locals)) tr2
          (localLatestsOf locals)).result = Except.ok m2 →
        m1 = m2 ∧
        m1 = upgraded remoteLatests (localLatestsOf locals)
          (fun msg => decide (w.yesNo [] msg = Except.ok true)) (localMajors locals)) := by
  refine ⟨fun out1 out2 h1 h2 => main_installPass w iter out1 out2 h1 h2,
    rangeOrder_count iter locals, rangeOrder_complete (localMajors locals), ?_, ?_⟩
  · intro tr
    obtain ⟨visited, added, hv, ht, ha, hr⟩ := installPass_asks w remoteLatests
      (iter.order (localMajors locals)) (rangeOrder_nodup iter locals) tr (localLatestsOf locals)
    exact ⟨visited, added, hv, (rangeOrder_nodup iter locals).sublist hv.sublist, ht, ha, hr⟩
  · intro hask iter2 tr tr2 m1 m2 h1 h2
    have e1 := installPass_upgraded w remoteLatests hask _ (rangeOrder_nodup iter locals) tr
      (localLatestsOf locals) m1 h1
    have e2 := installPass_upgraded w remoteLatests hask _ (rangeOrder_nodup iter2 locals) tr2
      (localLatestsOf locals) m2 h2
    have p1 := upgraded_perm remoteLatests (localLatestsOf locals)
      (fun msg => decide (w.yesNo [] msg = Except.ok true)) _ _ (iter.perm (localMajors locals))
    have p2 := upgraded_perm remoteLatests (localLatestsOf locals)
      (fun msg => decide (w.yesNo [] msg = Except.ok true)) _ _ (iter2.perm (localMajors locals))
    rw [e1, e2, p1, p2]
    exact ⟨rfl, rfl⟩

/-- Witness of C17: local records of 3.9.1 and 2.7.18, remote bests 3 -> 3.9.5
and 2 -> 2.7.18, the install of 3.9.5 accepted, the keys produced as listed
(3, 2) and in the reverse order (2, 3). -/
theorem installPass_any_order_witness :
    ((localLatestsOf [⟨false, "a".toList, ⟨3, 9, 1⟩⟩, ⟨false, [], ⟨2, 7, 18⟩⟩]).set 3
        ⟨3, 9, 5⟩ =
      upgraded (remoteLatestVersions "  3.9.5\n  2.7.18\n".toList)
        (localLatestsOf [⟨false, "a".toList, ⟨3, 9, 1⟩⟩, ⟨false, [], ⟨2, 7, 18⟩⟩])
        (fun msg => decide ((demoWorld true).yesNo [] msg = Except.ok true))
        (localMajors [⟨false, "a".toList, ⟨3, 9, 1⟩⟩, ⟨false, [], ⟨2, 7, 18⟩⟩])) ∧
    RangeOrder.asListed.order
        (localMajors [⟨false, "a".toList, ⟨3, 9, 1⟩⟩, ⟨false, [], ⟨2, 7, 18⟩⟩]) = [3, 2] ∧
    RangeOrder.reversed.order
        (localMajors [⟨false, "a".toList, ⟨3, 9, 1⟩⟩, ⟨false, [], ⟨2, 7, 18⟩⟩]) = [2, 3] ∧
    asksOf (installPass (demoWorld true)
        (remoteLatestVersions "  3.9.5\n  2.7.18\n".toList) [3, 2] []
        (localLatestsOf [⟨false, "a".toList, ⟨3, 9, 1⟩⟩, ⟨false, [], ⟨2, 7, 18⟩⟩])).trace =
      ["Install 3.9.5?".toList] ∧
    asksOf (installPass (demoWorld true)
        (remoteLatestVersions "  3.9.5\n  2.7.18\n".toList) [2, 3] []
        (localLatestsOf [⟨false, "a".toList, ⟨3, 9, 1⟩⟩, ⟨false, [], ⟨2, 7, 18⟩⟩])).trace =
      ["Install 3.9.5?".toList] ∧
    asksOf (main (demoWorld true) RangeOrder.reversed).trace = ["Install 3.9.5?".toList,
      "Update 3.9.1/envs/a to 3.9.5?".toList] :=
  ⟨((installPass_any_order (demoWorld true) RangeOrder.asListed
      [⟨false, "a".toList, ⟨3, 9, 1⟩⟩, ⟨false, [], ⟨2, 7, 18⟩⟩]
      (remoteLatestVersions "  3.9.5\n  2.7.18\n".toList)).2.2.2.2
      (fun _ _ _ => rfl) RangeOrder.reversed [] []
      ((localLatestsOf [⟨false, "a".toList, ⟨3, 9, 1⟩⟩, ⟨false, [], ⟨2, 7, 18⟩⟩]).set 3
        ⟨3, 9, 5⟩)
      ((localLatestsOf [⟨false, "a".toList, ⟨3, 9, 1⟩⟩, ⟨false, [], ⟨2, 7, 18⟩⟩]).set 3
        ⟨3, 9, 5⟩)
      rfl rfl).2,
   by decide, by decide, by decide, by decide, by decide⟩

/-- C18: for a version whose fields are non-negative `int` values, the string
`String()` is accepted by the line rule of the catalog parser and parses back
to the version, so `String()` is injective on such versions, and the argument
of `pyenv install` in `installVersion` is that string. -/
theorem remoteLine_String_inverse (v : semantic) (h : v.NonNegative) :
    remoteLine v.String = some v ∧
    (∀ u : semantic, u.NonNegative → u.String = v.String → u = v) ∧
    (∀ (w : World) (tr : List Event), ∃ rest, (installVersion w tr v).trace =
      tr ++ Event.exec ⟨none, "pyenv".toList, ["install".toList, v.String]⟩ :: rest) := by
  refine ⟨remoteLine_String v h, ?_, ?_⟩
  · intro u hu he
    have h1 := remoteLine_String u hu
    rw [he, remoteLine_String v h] at h1
    exact (Option.some.inj h1).symm
  · intro w tr
    obtain ⟨c1, c2, c3⟩ := installVersion_cases w tr v
    cases h1 : w.run tr (pyenvInstall v) with
    | error e => exact ⟨[], by rw [c1 e h1]; rfl⟩
    | ok out =>
      cases h2 : w.run (tr ++ [Event.exec (pyenvInstall v)]) (pipUpgrade v) with
      | error e => exact ⟨[Event.exec (pipUpgrade v)], by rw [c2 out e h1 h2]; rfl⟩
      | ok out2 => exact ⟨[Event.exec (pipUpgrade v)], by rw [c3 out out2 h1 h2]; rfl⟩

/-- Witness of C18 at the versions 3.9.1, 3.9.0, 3.0.0 and 3.0.1. -/
theorem remoteLine_String_inverse_witness :
    remoteLine (semantic.String ⟨3, 9, 1⟩) = some ⟨3, 9, 1⟩ ∧
    remoteLine (semantic.String ⟨3, 9, 0⟩) = some ⟨3, 9, 0⟩ ∧
    remoteLine (semantic.String ⟨3, 0, 0⟩) = some ⟨3, 0, 0⟩ ∧
    remoteLine (semantic.String ⟨3, 0, 1⟩) = some ⟨3, 0, 1⟩ :=
  ⟨(remoteLine_String_inverse ⟨3, 9, 1⟩ (by decide)).1,
   (remoteLine_String_inverse ⟨3, 9, 0⟩ (by decide)).1,
   (remoteLine_String_inverse ⟨3, 0, 0⟩ (by decide)).1,
   (remoteLine_String_inverse ⟨3, 0, 1⟩ (by decide)).1⟩

/-- C19: every version of the remote availability map and of the local-best
map, as built and after every step of the install pass, is stored under its own
major; so the version of an install question has the major of the local best
it replaces, and an environment is only moved to a version of the major of its
own version and strictly newer. -/
theorem wellKeyed_throughout :
    ((∀ text, WellKeyed (remoteLatestVersions text)) ∧
      ∀ lines, WellKeyed (remoteLatestVersionsLoop lines)) ∧
    (∀ locals, WellKeyed (localLatestsOf locals)) ∧
    (∀ (w : World) (remoteLatests : VersionMap) (tr : List Event)
      (localLatests m1 : VersionMap) (k : Int),
      WellKeyed remoteLatests → WellKeyed localLatests →
      (installStep w remoteLatests tr localLatests k).result = Except.ok m1 → WellKeyed m1) ∧
    (∀ (w : World) (remoteLatests : VersionMap) (order : List Int) (tr : List Event)
      (localLatests m2 : VersionMap),
      WellKeyed remoteLatests → WellKeyed localLatests →
      (installPass w remoteLatests order tr localLatests).result = Except.ok m2 →
      WellKeyed m2) ∧
    (∀ (w : World) (remoteLatests : VersionMap) (tr : List Event)
      (localLatests : VersionMap) (k : Int) (added : List Event),
      WellKeyed remoteLatests → WellKeyed localLatests →
      (installStep w remoteLatests tr localLatests k).trace = tr ++ added → added ≠ [] →
      ∃ loc v rest, localLatests k = some loc ∧ remoteLatests k = some v ∧
        v.major = loc.major ∧ v.isNewerThan loc = true ∧
        added = Event.ask (installMsg v) :: rest ∧
        ∀ e ∈ rest, e = Event.exec (pyenvInstall v) ∨ e = Event.exec (pipUpgrade v)) ∧
    (∀ (w : World) (localLatests : VersionMap) (tr : List Event) (loc : Local)
      (added : List Event), WellKeyed localLatests →
      (envStep w localLatests tr loc).trace = tr ++ added → added ≠ [] →
      ∃ lat rest, localLatests loc.version.major = some lat ∧
        lat.major = loc.version.major ∧ lat.isNewerThan loc.version = true ∧
        added = Event.ask (updateMsg loc lat) :: rest ∧
        ∀ e ∈ rest, (∃ body, e = Event.tempFile body) ∨ e = Event.exec (pipFreeze loc) ∨
          e = Event.exec (pyenvUninstall loc) ∨ e = Event.exec (pyenvVirtualenv loc lat) ∨
          ∃ tmp, e = Event.exec (pipInstall loc tmp)) := by
  refine ⟨⟨wellKeyed_remote, wellKeyed_remoteLoop⟩, wellKeyed_localLatests, ?_, ?_, ?_, ?_⟩
  · intro w remoteLatests tr localLatests m1 k hr hl h
    exact installStep_wellKeyed w remoteLatests tr localLatests m1 k hr hl h
  · intro w remoteLatests order tr localLatests m2 hr hl h
    exact installPass_wellKeyed w remoteLatests order tr localLatests m2 hr hl h
  · intro w remoteLatests tr localLatests k added hr hl ht hne
    rcases installStep_events w remoteLatests tr localLatests k with ⟨-, h0⟩ |
      ⟨rem, rest, ho, h1, hp⟩
    · rw [h0] at ht
      have : added = [] := by simpa using ht
      exact absurd this hne
    · rw [h1] at ht
      have hadd := List.append_cancel_left ht
      obtain ⟨hrem, loc, hloc, hn⟩ := installOffer_remote _ _ _ _ ho
      exact ⟨loc, rem, rest, hloc, hrem, by rw [hr k rem hrem, hl k loc hloc], hn,
        hadd.symm, hp⟩
  · intro w localLatests tr loc added hl ht hne
    rcases envStep_events w localLatests tr loc with ⟨-, h0⟩ | ⟨lat, rest, ho, h1, hp⟩
    · rw [h0] at ht
      have : added = [] := by simpa using ht
      exact absurd this hne
    · rw [h1] at ht
      have hadd := List.append_cancel_left ht
      obtain ⟨-, hlat, hn⟩ := envOffer_some _ _ _ ho
      exact ⟨lat, rest, hlat, hl _ lat hlat, hn, hadd.symm, hp⟩

/-- Witness of C19: the maps of the example and the update it offers. -/
theorem wellKeyed_throughout_witness :
    WellKeyed (remoteLatestVersions "  3.9.5\n  2.7.18\n".toList) ∧
    WellKeyed (localLatestsOf [⟨false, "a".toList, ⟨3, 9, 1⟩⟩, ⟨false, [], ⟨3, 8, 0⟩⟩]) ∧
    (envStep (demoWorld false) ((localLatestsOf [⟨false, "a".toList, ⟨3, 9, 1⟩⟩]).set 3
        ⟨3, 9, 5⟩) [] ⟨false, "a".toList, ⟨3, 9, 1⟩⟩).trace =
      [Event.ask "Update 3.9.1/envs/a to 3.9.5?".toList] :=
  ⟨wellKeyed_throughout.1.1 _, wellKeyed_throughout.2.1 _, by decide⟩

end PyenvUpgrade
